import Mathlib

/-!
# Verification of the IronCode code-search core (bm25.rs, codesearch.rs, indexer.rs)

This file gives a shallow embedding, in Lean 4, of the indexing and ranking
engine of the IronCode repository:

* the code-aware tokenizer (`tokenize`, `split_identifier`, `split_camel`
  from `bm25.rs`),
* the BM25 ranked inverted index (`Bm25Index` with `add_document`,
  `remove_document`, `search` from `bm25.rs`),
* the fallback line chunker and symbol-extraction shell
  (`chunk_by_lines`, `extract_symbols` from `indexer.rs`), and
* the orchestration service (`Inner` with `add_file`, `remove_file`, and the
  public API operations from `codesearch.rs`).

Modelling conventions:

* Rust `HashMap`s are modelled as association lists; lookup is by key, so the
  (unobservable) bucket order of a `HashMap` becomes a fixed list order.  The
  one place where `HashMap` iteration order is observable — collecting the
  score map into a vector inside `Bm25Index::search` — is modelled explicitly
  by a reorder parameter (`Bm25Index.searchWith`).
* Rust `f64` arithmetic is idealised as exact arithmetic: stored averages are
  rationals (`ℚ`), BM25 scores are reals (`ℝ`, the `ln` of the idf being
  `Real.log`).
* Rust `Vec::push`/`Vec::pop` on the free-id stack is modelled with list
  `cons`/head (the stack grows at the list head instead of the tail).
* byte strings that may fail UTF-8 decoding are modelled as `Option String`
  (`none` = invalid UTF-8 bytes, as decoded by `std::str::from_utf8`), and a
  Rust string slicing operation `s[..i]`, which panics when `i` is not a char
  boundary, is modelled as an `Option`-valued prefix (`none` = panic).
-/

/-! ## Tokenizer (bm25.rs) -/

def K1 : ℝ := 1.2

def B : ℝ := 0.75

def MIN_TOKEN_LEN : Nat := 2

/-- Common code keywords that don't add meaningful search signal
(`STOP_WORDS` in bm25.rs, verbatim). -/
def STOP_WORDS : List String :=
  ["fn", "let", "const", "var", "if", "else", "return", "pub", "use", "mod",
   "impl", "struct", "enum", "trait", "type", "async", "await", "match",
   "true", "false", "null", "undefined", "void", "new", "class", "extends",
   "import", "export", "from", "default", "function", "this", "self",
   "super", "of", "as", "with", "not", "do", "while", "for", "try", "catch",
   "throw", "get", "set", "the", "a", "an", "and", "or", "but", "in", "on",
   "at", "to", "is", "it", "be", "was", "are", "has", "have", "had", "that",
   "this", "mut", "ref", "pub", "priv", "crate", "super"]

/-- The fixed punctuation/symbol separator set of `tokenize` in bm25.rs. -/
def sepChars : List Char :=
  ['.', ',', ';', ':', '!', '?', '(', ')', '[', ']', '{', '}', '"', '\'',
   '`', '/', '\\', '|', '<', '>', '@', '#', '$', '%', '^', '&', '*', '+',
   '=', '~', '-']

/-- The separator predicate of `tokenize`: whitespace or one of the fixed
punctuation characters. -/
def isSeparator (c : Char) : Bool :=
  c.isWhitespace || sepChars.contains c

/-- `str::split` on a separator predicate: the (possibly empty) pieces
between separator characters. -/
def splitOnSep (l : List Char) : List (List Char) :=
  l.foldr
    (fun c acc =>
      if isSeparator c then [] :: acc
      else
        match acc with
        | [] => [[c]]
        | w :: ws => (c :: w) :: ws)
    [[]]

/-- `str::split('_')`, same shape as `splitOnSep`. -/
def splitOnUnderscore (l : List Char) : List (List Char) :=
  l.foldr
    (fun c acc =>
      if c = '_' then [] :: acc
      else
        match acc with
        | [] => [[c]]
        | w :: ws => (c :: w) :: ws)
    [[]]

/-- The loop of `split_camel` in bm25.rs: `current` is the pending word,
`prevLower` the `prev_lower` flag. -/
def splitCamelAux : List Char → List Char → Bool → List (List Char)
  | [], current, _ => if current.isEmpty then [] else [current]
  | c :: cs, current, prevLower =>
    if c.isUpper && prevLower && !current.isEmpty then
      current :: splitCamelAux cs [c] c.isLower
    else
      splitCamelAux cs (current ++ [c]) c.isLower

/-- `split_camel` from bm25.rs: split on lowercase→uppercase transitions. -/
def splitCamel (s : List Char) : List (List Char) :=
  splitCamelAux s [] false

/-- `split_identifier` from bm25.rs: split a word into sub-words on
underscores and camel transitions; multi-part words additionally emit the
whole word lowercased. -/
def splitIdentifier (word : List Char) : List (List Char) :=
  let underscoreParts := (splitOnUnderscore word).filter (fun p => !p.isEmpty)
  if underscoreParts.length > 1 then
    (underscoreParts.map splitCamel).flatten ++ [word.map Char.toLower]
  else
    let camel := splitCamel word
    if camel.length > 1 then camel ++ [word.map Char.toLower]
    else camel

/-- Byte length of the UTF-8 encoding of a character list (Rust
`String::len`). -/
def utf8ByteLen (l : List Char) : Nat :=
  (l.map Char.utf8Size).sum

/-- The filter applied by `tokenize` to each lowercased piece: at least
`MIN_TOKEN_LEN` bytes, not a stop word, not all ASCII digits. -/
def keepToken (lower : List Char) : Bool :=
  decide (MIN_TOKEN_LEN ≤ utf8ByteLen lower)
    && !(STOP_WORDS.contains (String.mk lower))
    && !(lower.all Char.isDigit)

/-- `tokenize` from bm25.rs: split on separators, split each word into
identifier pieces, lowercase, and keep the pieces passing `keepToken`.
Order-preserving, duplicates retained. -/
def tokenize (text : String) : List String :=
  ((((splitOnSep text.toList).filter (fun w => !w.isEmpty)).map
      (fun word => ((splitIdentifier word).map (fun sub => sub.map Char.toLower)).filter keepToken)).flatten).map
    String.mk

/-! ## BM25 ranked index (bm25.rs) -/

/-- A term's posting list: `(doc_id, term_frequency)` pairs. -/
abbrev Postings := List (Nat × Nat)

/-- `Bm25Index` from bm25.rs.  `inverted_index` is the term → postings
`HashMap` as an association list; `avg_doc_length` is the `f64` average,
idealised as a rational. -/
structure Bm25Index where
  inverted_index : List (String × Postings)
  doc_lengths : List Nat
  num_docs : Nat
  avg_doc_length : ℚ
deriving DecidableEq, Repr

def Bm25Index.new : Bm25Index :=
  { inverted_index := [], doc_lengths := [], num_docs := 0, avg_doc_length := 0 }

/-- Association-list lookup (models `HashMap::get`). -/
def alookup {α : Type _} (k : String) : List (String × α) → Option α
  | [] => none
  | (k', v) :: rest => if k' = k then some v else alookup k rest

/-- `doc_lengths.resize(n, 0)` in the growing direction. -/
def growTo (l : List Nat) (n : Nat) : List Nat :=
  if n ≤ l.length then l else l ++ List.replicate (n - l.length) 0

/-- `inverted_index.entry(term).or_default().push((doc_id, count))`:
append a posting to the term's list, creating the entry if absent. -/
def pushPosting : List (String × Postings) → String → Nat → Nat → List (String × Postings)
  | [], t, d, c => [(t, [(d, c)])]
  | (k, pl) :: rest, t, d, c =>
    if k = t then (k, pl ++ [(d, c)]) :: rest
    else (k, pl) :: pushPosting rest t d c

/-- `recalculate_avg` from bm25.rs: average of the positive document
lengths, 0 on an empty corpus. -/
def recalcOf (lengths : List Nat) : ℚ :=
  let pos := lengths.filter (fun l => 0 < l)
  if 0 < pos.length then (pos.sum : ℚ) / (pos.length : ℚ) else 0

def Bm25Index.recalculate_avg (idx : Bm25Index) : Bm25Index :=
  { idx with avg_doc_length := recalcOf idx.doc_lengths }

/-- `remove_document` from bm25.rs: no-op unless the id is in range with a
positive length; otherwise zero the length, decrement the live count
(saturating), scrub the id from every posting list, and recompute the
average. -/
def Bm25Index.remove_document (idx : Bm25Index) (doc_id : Nat) : Bm25Index :=
  if idx.doc_lengths.length ≤ doc_id ∨ idx.doc_lengths.getD doc_id 0 = 0 then idx
  else
    Bm25Index.recalculate_avg
      { idx with
        doc_lengths := idx.doc_lengths.set doc_id 0
        num_docs := idx.num_docs - 1
        inverted_index :=
          idx.inverted_index.map (fun e => (e.1, e.2.filter (fun p => p.1 ≠ doc_id))) }

/-- `add_document` from bm25.rs: grow the length table, remove the old
version of the doc if live, record the length, push one posting per
distinct token with its frequency, increment the live count, recompute the
average. -/
def Bm25Index.add_document (idx : Bm25Index) (doc_id : Nat) (tokens : List String) : Bm25Index :=
  let idx1 := { idx with doc_lengths := growTo idx.doc_lengths (doc_id + 1) }
  let idx2 := if 0 < idx1.doc_lengths.getD doc_id 0 then idx1.remove_document doc_id else idx1
  let idx3 :=
    { idx2 with
      doc_lengths := idx2.doc_lengths.set doc_id tokens.length
      inverted_index :=
        tokens.dedup.foldl
          (fun inv t => pushPosting inv t doc_id (tokens.count t))
          idx2.inverted_index
      num_docs := idx2.num_docs + 1 }
  idx3.recalculate_avg

def Bm25Index.doc_count (idx : Bm25Index) : Nat := idx.num_docs

def Bm25Index.term_count (idx : Bm25Index) : Nat := idx.inverted_index.length

/-! ### BM25 scoring (`search` in bm25.rs) -/

/-- The BM25 per-posting contribution
`idf * (tf * (k1+1)) / (tf + k1 * (1 - b + b * dl / avgdl))`. -/
noncomputable def contribScore (idf avgdl : ℝ) (tf dl : Nat) : ℝ :=
  idf * ((tf : ℝ) * (K1 + 1)) / ((tf : ℝ) + K1 * (1 - B + B * (dl : ℝ) / avgdl))

/-- The idf of a term with document frequency `df` in a corpus of `n` live
docs: `ln((n - df + 0.5) / (df + 0.5) + 1)`, floored at 0. -/
noncomputable def idfOf (n : ℝ) (df : Nat) : ℝ :=
  max (Real.log ((n - (df : ℝ) + 0.5) / ((df : ℝ) + 0.5) + 1)) 0

/-- `*scores.entry(doc_id).or_insert(0.0) += score` on the score map
(association list keyed by doc id, first-touch order). -/
noncomputable def addScore : List (Nat × ℝ) → Nat → ℝ → List (Nat × ℝ)
  | [], d, x => [(d, x)]
  | (d', v) :: rest, d, x =>
    if d' = d then (d', v + x) :: rest
    else (d', v) :: addScore rest d x

/-- The inner posting loop of `search`: skip postings whose doc has length
0, otherwise accumulate the contribution into the score map. -/
noncomputable def postFold (lengths : List Nat) (idf avgdl : ℝ) (pl : Postings)
    (sc : List (Nat × ℝ)) : List (Nat × ℝ) :=
  pl.foldl
    (fun sc p =>
      if lengths.getD p.1 0 = 0 then sc
      else addScore sc p.1 (contribScore idf avgdl p.2 (lengths.getD p.1 0)))
    sc

/-- One query-token step of the score accumulation: look the token up in
the inverted index; absent tokens contribute nothing, present tokens fold
their posting list with that term's idf. -/
noncomputable def queryStep (idx : Bm25Index) (sc : List (Nat × ℝ)) (t : String) :
    List (Nat × ℝ) :=
  match alookup t idx.inverted_index with
  | none => sc
  | some pl =>
    postFold idx.doc_lengths (idfOf (idx.num_docs : ℝ) pl.length)
      (max (idx.avg_doc_length : ℝ) 1) pl sc

/-- The score-accumulation phase of `search`: loop over the query tokens,
look each up in the inverted index, and fold its postings. -/
noncomputable def collectScores (idx : Bm25Index) (query : List String) : List (Nat × ℝ) :=
  query.foldl (queryStep idx) []

/-- The descending-score comparison used to sort results (the Rust
comparator `b.1.partial_cmp(&a.1)`). -/
def scoreGe (a b : Nat × ℝ) : Prop := b.2 ≤ a.2

noncomputable instance : DecidableRel scoreGe := fun a b => Real.decidableLE b.2 a.2

/-- `search` from bm25.rs, with the order in which the score `HashMap` is
collected into a vector made explicit: `reorder` stands for the
unspecified `HashMap` iteration order and is meaningful only when it
permutes the score list. -/
noncomputable def Bm25Index.searchWith (idx : Bm25Index) (query : List String) (top_k : Nat)
    (reorder : List (Nat × ℝ) → List (Nat × ℝ)) : List (Nat × ℝ) :=
  if idx.num_docs = 0 ∨ query = [] then []
  else (List.insertionSort scoreGe (reorder (collectScores idx query))).take top_k

/-- `search` with the identity collection order. -/
noncomputable def Bm25Index.search (idx : Bm25Index) (query : List String) (top_k : Nat) :
    List (Nat × ℝ) :=
  idx.searchWith query top_k id

example : tokenize "getUserById" = ["user", "by", "id", "getuserbyid"] := by decide
example : tokenize "get_user_by_id" = ["user", "by", "id", "get_user_by_id"] := by decide
example : tokenize "read file from disk path" = ["read", "file", "disk", "path"] := by decide

/-! ### Spec-side BM25 scoring

Definitions in this block follow the wording of the specification
(§4.3 "Ranked Index", `search`), to be compared with the source-derived
`Bm25Index.search` above: a doc's score is the sum, over the query terms
present in the index, of the per-posting contributions for that doc,
postings of zero-length docs skipped. -/

/-- Spec wording: the total contribution of one term's posting list to one
doc's score (each posting `(doc_id, tf)` of the term with `dl > 0`
contributes the BM25 formula; other postings contribute nothing). -/
noncomputable def specTermScore (lengths : List Nat) (idf avgdl : ℝ) (pl : Postings)
    (d : Nat) : ℝ :=
  (pl.map
      (fun p =>
        if p.1 = d ∧ lengths.getD p.1 0 ≠ 0 then contribScore idf avgdl p.2 (lengths.getD p.1 0)
        else 0)).sum

/-- Spec wording: the contribution of one query term to one doc's score
(0 when the term is absent from the index). -/
noncomputable def specTermOf (idx : Bm25Index) (t : String) (d : Nat) : ℝ :=
  match alookup t idx.inverted_index with
  | none => 0
  | some pl =>
    specTermScore idx.doc_lengths (idfOf (idx.num_docs : ℝ) pl.length)
      (max (idx.avg_doc_length : ℝ) 1) pl d

/-- Spec wording: a doc's BM25 score for a query is the sum over query
terms of its per-term contributions, with
`idf = ln((N - df + 0.5)/(df + 0.5) + 1)` floored at 0 and `avgdl` the
stored average floored at 1. -/
noncomputable def bm25SpecScore (idx : Bm25Index) (query : List String) (d : Nat) : ℝ :=
  (query.map (fun t => specTermOf idx t d)).sum

/-- Spec wording: the docs that receive a score — those with a posting for
some query term and a positive current length. -/
def specScored (idx : Bm25Index) (query : List String) (d : Nat) : Prop :=
  ∃ t ∈ query, ∃ pl, alookup t idx.inverted_index = some pl ∧
    (∃ c, (d, c) ∈ pl) ∧ idx.doc_lengths.getD d 0 ≠ 0

/-! ### Helper lemmas: average recomputation -/

theorem growTo_eq (l : List Nat) (n : Nat) :
    growTo l n = l ++ List.replicate (n - l.length) 0 := by
  unfold growTo
  split
  · next h => simp [Nat.sub_eq_zero_of_le h]
  · rfl

theorem getD_replicate_zero : ∀ (k id : Nat), (List.replicate k 0).getD id 0 = 0
  | 0, _ => by simp [List.getD]
  | _ + 1, 0 => rfl
  | k + 1, id + 1 => getD_replicate_zero k id

theorem getD_append_replicate_zero :
    ∀ (l : List Nat) (k id : Nat), (l ++ List.replicate k 0).getD id 0 = l.getD id 0
  | [], k, id => getD_replicate_zero k id
  | _ :: _, _, 0 => rfl
  | _ :: t, k, id + 1 => getD_append_replicate_zero t k id

theorem filter_pos_replicate_zero (k : Nat) :
    (List.replicate k 0).filter (fun l => 0 < l) = [] := by
  induction k with
  | zero => rfl
  | succ n ih => simp [List.replicate_succ, ih]

theorem recalcOf_append_replicate_zero (l : List Nat) (k : Nat) :
    recalcOf (l ++ List.replicate k 0) = recalcOf l := by
  unfold recalcOf
  rw [List.filter_append, filter_pos_replicate_zero, List.append_nil]

theorem set_self_of_getD_zero : ∀ (l : List Nat) (n : Nat), l.getD n 0 = 0 → l.set n 0 = l
  | [], _, _ => rfl
  | a :: t, 0, h => by simp_all [List.getD]
  | a :: t, n + 1, h => by
    simp only [List.set]
    rw [set_self_of_getD_zero t n (by simpa [List.getD] using h)]

theorem getD_set_self (l : List Nat) (n v : Nat) (h : n < l.length) :
    (l.set n v).getD n 0 = v := by
  rw [List.getD_eq_getElem?_getD, List.getElem?_set_self (by simpa using h)]
  rfl

/-! ## Claim C5: tokenize("getUserById") -/

/-- **C5.** Evaluation of the code at the claimed input: `tokenize
"getUserById"` yields `["user", "by", "id", "getuserbyid"]` — `"get"` is
dropped because it is in `STOP_WORDS`, and `"by"` is kept because it is
not.  This contradicts both the claim and the repository's own test
`test_tokenize_camel`, which asserts that `"get"` is contained in the
result. -/
theorem tokenize_getUserById_eval :
    tokenize "getUserById" = ["user", "by", "id", "getuserbyid"] ∧
      "get" ∈ STOP_WORDS ∧ "by" ∉ STOP_WORDS := by
  refine ⟨by decide, by decide, by decide⟩

/-! ## Claim C3: add-then-remove round trip -/

/-- **C3, counterexample.** The round trip does not restore the live
count on every input: adding a document with an *empty* token list
increments `num_docs` but records length 0, so the subsequent remove is a
no-op and the live count stays incremented. -/
theorem add_remove_roundtrip_cex :
    ¬ (((Bm25Index.new.add_document 0 []).remove_document 0).num_docs =
          Bm25Index.new.num_docs ∧
        ((Bm25Index.new.add_document 0 []).remove_document 0).avg_doc_length =
          Bm25Index.new.avg_doc_length) := by
  decide

/-- **C3, amended.** For an id that is not currently live, a *non-empty*
token list, and a stored average consistent with the length table (as in
every reachable state), `add_document` followed immediately by
`remove_document` restores both the live-document count and the average
document length exactly. -/
theorem add_remove_roundtrip (idx : Bm25Index) (id : Nat) (tokens : List String)
    (hfree : idx.doc_lengths.getD id 0 = 0) (hne : tokens ≠ [])
    (havg : idx.avg_doc_length = recalcOf idx.doc_lengths) :
    ((idx.add_document id tokens).remove_document id).num_docs = idx.num_docs ∧
      ((idx.add_document id tokens).remove_document id).avg_doc_length =
        idx.avg_doc_length := by
  have hlen0 : (growTo idx.doc_lengths (id + 1)).getD id 0 = 0 := by
    rw [growTo_eq, getD_append_replicate_zero]; exact hfree
  have hlength : id < (growTo idx.doc_lengths (id + 1)).length := by
    rw [growTo_eq, List.length_append, List.length_replicate]
    omega
  have htok : 0 < tokens.length := List.length_pos.mpr hne
  unfold Bm25Index.add_document
  simp only [hlen0, lt_irrefl, if_false]
  unfold Bm25Index.remove_document Bm25Index.recalculate_avg
  simp only [List.length_set, getD_set_self _ _ _ hlength]
  rw [if_neg (by push_neg; exact ⟨by omega, by omega⟩)]
  simp only [List.set_set]
  rw [set_self_of_getD_zero _ _ hlen0]
  refine ⟨rfl, ?_⟩
  simp only [growTo_eq]
  rw [recalcOf_append_replicate_zero]
  exact havg.symm

/-- **C3, witness** for the amended round-trip theorem at a concrete
input: the empty index, id 0, tokens `["ab"]`. -/
theorem add_remove_roundtrip_witness :
    (Bm25Index.new.doc_lengths.getD 0 0 = 0 ∧ (["ab"] : List String) ≠ [] ∧
        Bm25Index.new.avg_doc_length = recalcOf Bm25Index.new.doc_lengths) ∧
      ((Bm25Index.new.add_document 0 ["ab"]).remove_document 0).num_docs =
          Bm25Index.new.num_docs ∧
        ((Bm25Index.new.add_document 0 ["ab"]).remove_document 0).avg_doc_length =
          Bm25Index.new.avg_doc_length :=
  ⟨⟨by decide, by decide, by decide⟩,
    add_remove_roundtrip Bm25Index.new 0 ["ab"] (by decide) (by decide) (by decide)⟩

/-! ### Helper lemmas: the score map -/

/-- Doc-id lookup in the score map. -/
noncomputable def nlookup (d : Nat) : List (Nat × ℝ) → Option ℝ
  | [] => none
  | (d', v) :: rest => if d' = d then some v else nlookup d rest

/-- The running score of a doc in the score map (0 if absent). -/
noncomputable def valOf (sc : List (Nat × ℝ)) (d : Nat) : ℝ :=
  (nlookup d sc).getD 0

def scoreKeys (sc : List (Nat × ℝ)) : List Nat := sc.map Prod.fst

theorem nlookup_addScore_self (sc : List (Nat × ℝ)) (d : Nat) (x : ℝ) :
    nlookup d (addScore sc d x) = some (valOf sc d + x) := by
  induction sc with
  | nil => simp [addScore, nlookup, valOf]
  | cons p rest ih =>
    by_cases h : p.1 = d
    · simp [addScore, nlookup, valOf, h]
    · simp [addScore, nlookup, valOf, h, ih]

theorem nlookup_addScore_other (sc : List (Nat × ℝ)) (d e : Nat) (x : ℝ) (h : e ≠ d) :
    nlookup e (addScore sc d x) = nlookup e sc := by
  have h' : d ≠ e := Ne.symm h
  induction sc with
  | nil => simp [addScore, nlookup, h']
  | cons p rest ih =>
    obtain ⟨d', v⟩ := p
    by_cases hp : d' = d
    · simp [addScore, nlookup, hp, h']
    · by_cases he : d' = e <;> simp [addScore, nlookup, hp, he, h, h', ih]

theorem scoreKeys_addScore (sc : List (Nat × ℝ)) (d : Nat) (x : ℝ) :
    scoreKeys (addScore sc d x) =
      if d ∈ scoreKeys sc then scoreKeys sc else scoreKeys sc ++ [d] := by
  induction sc with
  | nil => simp [addScore, scoreKeys]
  | cons p rest ih =>
    obtain ⟨d', v⟩ := p
    by_cases hp : d' = d
    · simp [addScore, scoreKeys, hp]
    · have hdp : ¬ d = d' := fun hh => hp hh.symm
      simp only [addScore, if_neg hp, scoreKeys, List.map_cons] at ih ⊢
      rw [ih]
      by_cases hm : d ∈ List.map Prod.fst rest
      · rw [if_pos hm, if_pos (List.mem_cons.mpr (Or.inr hm))]
      · rw [if_neg hm, if_neg (by simp [List.mem_cons, hdp, hm]), List.cons_append]

theorem mem_scoreKeys_addScore (sc : List (Nat × ℝ)) (d e : Nat) (x : ℝ) :
    e ∈ scoreKeys (addScore sc d x) ↔ e ∈ scoreKeys sc ∨ e = d := by
  rw [scoreKeys_addScore]
  split
  · next h => constructor
              · exact fun hh => Or.inl hh
              · rintro (hh | rfl) <;> [exact hh; exact h]
  · simp [List.mem_append]

theorem nodup_scoreKeys_addScore (sc : List (Nat × ℝ)) (d : Nat) (x : ℝ)
    (h : (scoreKeys sc).Nodup) : (scoreKeys (addScore sc d x)).Nodup := by
  rw [scoreKeys_addScore]
  split
  · exact h
  · next hm => exact List.nodup_append.mpr ⟨h, List.nodup_singleton d,
      by intro a ha hb; simp at hb; subst hb; exact hm ha⟩

theorem nlookup_of_mem_of_nodup :
    ∀ (sc : List (Nat × ℝ)), (scoreKeys sc).Nodup → ∀ p ∈ sc, nlookup p.1 sc = some p.2
  | [], _, p, hp => absurd hp (List.not_mem_nil p)
  | q :: rest, hnd, p, hp => by
    rcases List.mem_cons.mp hp with rfl | hp'
    · simp [nlookup]
    · have hq : q.1 ≠ p.1 := by
        intro hh
        have : p.1 ∈ scoreKeys rest := List.mem_map.mpr ⟨p, hp', rfl⟩
        rw [← hh] at this
        exact (List.nodup_cons.mp (by simpa [scoreKeys] using hnd)).1 this
      have := nlookup_of_mem_of_nodup rest
        (List.nodup_cons.mp (by simpa [scoreKeys] using hnd)).2 p hp'
      simp [nlookup, hq, this]

/-! ### Helper lemmas: the posting-list fold of `search` -/

theorem valOf_addScore_self (sc : List (Nat × ℝ)) (d : Nat) (x : ℝ) :
    valOf (addScore sc d x) d = valOf sc d + x := by
  simp [valOf, nlookup_addScore_self]

theorem valOf_addScore_other (sc : List (Nat × ℝ)) (d e : Nat) (x : ℝ) (h : e ≠ d) :
    valOf (addScore sc d x) e = valOf sc e := by
  simp [valOf, nlookup_addScore_other sc d e x h]

theorem valOf_postFold (lengths : List Nat) (idf avgdl : ℝ) (d : Nat) :
    ∀ (pl : Postings) (sc : List (Nat × ℝ)),
      valOf (postFold lengths idf avgdl pl sc) d =
        valOf sc d + specTermScore lengths idf avgdl pl d
  | [], sc => by simp [postFold, specTermScore]
  | p :: rest, sc => by
    have ih := valOf_postFold lengths idf avgdl d rest
    simp only [postFold] at ih ⊢
    simp only [List.foldl_cons, specTermScore, List.map_cons, List.sum_cons]
    simp only [specTermScore] at ih
    by_cases hdl : lengths.getD p.1 0 = 0
    · have hif : ¬ (p.1 = d ∧ lengths.getD p.1 0 ≠ 0) := fun h => h.2 hdl
      rw [if_pos hdl, if_neg hif, ih sc]
      ring
    · by_cases hp : p.1 = d
      · rw [if_neg hdl, if_pos ⟨hp, hdl⟩, ih, hp, valOf_addScore_self]
        ring
      · rw [if_neg hdl, if_neg (fun h => hp h.1), ih,
          valOf_addScore_other _ _ _ _ (fun hh => hp hh.symm)]
        ring

theorem mem_scoreKeys_postFold (lengths : List Nat) (idf avgdl : ℝ) (d : Nat) :
    ∀ (pl : Postings) (sc : List (Nat × ℝ)),
      d ∈ scoreKeys (postFold lengths idf avgdl pl sc) ↔
        d ∈ scoreKeys sc ∨ ((∃ c, (d, c) ∈ pl) ∧ lengths.getD d 0 ≠ 0)
  | [], sc => by simp [postFold]
  | p :: rest, sc => by
    have ih := mem_scoreKeys_postFold lengths idf avgdl d rest
    simp only [postFold] at ih ⊢
    simp only [List.foldl_cons]
    by_cases hdl : lengths.getD p.1 0 = 0
    · rw [if_pos hdl, ih sc]
      constructor
      · rintro (h | h)
        · exact Or.inl h
        · exact Or.inr ⟨⟨h.1.choose, List.mem_cons_of_mem p h.1.choose_spec⟩, h.2⟩
      · rintro (h | ⟨⟨c, hc⟩, hd⟩)
        · exact Or.inl h
        · rcases List.mem_cons.mp hc with hh | hh
          · exact absurd (show lengths.getD d 0 = 0 by
              have : d = p.1 := by rw [← hh]
              rw [this]; exact hdl) hd
          · exact Or.inr ⟨⟨c, hh⟩, hd⟩
    · rw [if_neg hdl, ih, mem_scoreKeys_addScore]
      constructor
      · rintro ((h | rfl) | h)
        · exact Or.inl h
        · exact Or.inr ⟨⟨p.2, List.mem_cons_self p rest⟩, hdl⟩
        · exact Or.inr ⟨⟨h.1.choose, List.mem_cons_of_mem p h.1.choose_spec⟩, h.2⟩
      · rintro (h | ⟨⟨c, hc⟩, hd⟩)
        · exact Or.inl (Or.inl h)
        · rcases List.mem_cons.mp hc with hh | hh
          · exact Or.inl (Or.inr (by rw [← hh]))
          · exact Or.inr ⟨⟨c, hh⟩, hd⟩

theorem nodup_scoreKeys_postFold (lengths : List Nat) (idf avgdl : ℝ) :
    ∀ (pl : Postings) (sc : List (Nat × ℝ)),
      (scoreKeys sc).Nodup → (scoreKeys (postFold lengths idf avgdl pl sc)).Nodup
  | [], sc, h => h
  | p :: rest, sc, h => by
    simp only [postFold, List.foldl_cons]
    by_cases hdl : lengths.getD p.1 0 = 0
    · rw [if_pos hdl]
      have := nodup_scoreKeys_postFold lengths idf avgdl rest sc h
      simpa [postFold] using this
    · rw [if_neg hdl]
      have := nodup_scoreKeys_postFold lengths idf avgdl rest
        (addScore sc p.1 (contribScore idf avgdl p.2 (lengths.getD p.1 0)))
        (nodup_scoreKeys_addScore sc p.1 _ h)
      simpa [postFold] using this

/-! ### Helper lemmas: the query fold of `search` -/

theorem valOf_queryFold (idx : Bm25Index) (d : Nat) :
    ∀ (q : List String) (sc : List (Nat × ℝ)),
      valOf (q.foldl (queryStep idx) sc) d =
        valOf sc d + (q.map (fun t => specTermOf idx t d)).sum
  | [], sc => by simp
  | t :: q', sc => by
    have ih := valOf_queryFold idx d q'
    simp only [List.foldl_cons, List.map_cons, List.sum_cons]
    rw [ih]
    unfold queryStep specTermOf
    cases halk : alookup t idx.inverted_index with
    | none => simp
    | some pl => rw [valOf_postFold]; ring

theorem mem_scoreKeys_queryFold (idx : Bm25Index) (d : Nat) :
    ∀ (q : List String) (sc : List (Nat × ℝ)),
      d ∈ scoreKeys (q.foldl (queryStep idx) sc) ↔
        d ∈ scoreKeys sc ∨
          (∃ t ∈ q, ∃ pl, alookup t idx.inverted_index = some pl ∧
            (∃ c, (d, c) ∈ pl) ∧ idx.doc_lengths.getD d 0 ≠ 0)
  | [], sc => by simp
  | t :: q', sc => by
    have ih := mem_scoreKeys_queryFold idx d q'
    simp only [List.foldl_cons]
    rw [ih]
    unfold queryStep
    cases halk : alookup t idx.inverted_index with
    | none =>
      constructor
      · rintro (h | ⟨t', ht', rest⟩)
        · exact Or.inl h
        · exact Or.inr ⟨t', List.mem_cons_of_mem t ht', rest⟩
      · rintro (h | ⟨t', ht', pl, hpl, rest⟩)
        · exact Or.inl h
        · rcases List.mem_cons.mp ht' with rfl | ht''
          · rw [halk] at hpl; cases hpl
          · exact Or.inr ⟨t', ht'', pl, hpl, rest⟩
    | some pl =>
      rw [mem_scoreKeys_postFold]
      constructor
      · rintro ((h | ⟨⟨c, hc⟩, hd⟩) | ⟨t', ht', pl', hpl', hrest⟩)
        · exact Or.inl h
        · exact Or.inr ⟨t, List.mem_cons_self t q', pl, halk, ⟨c, hc⟩, hd⟩
        · exact Or.inr ⟨t', List.mem_cons_of_mem t ht', pl', hpl', hrest⟩
      · rintro (h | ⟨t', ht', pl', hpl', hrest⟩)
        · exact Or.inl (Or.inl h)
        · rcases List.mem_cons.mp ht' with rfl | ht''
          · rw [halk] at hpl'
            cases hpl'
            exact Or.inl (Or.inr hrest)
          · exact Or.inr ⟨t', ht'', pl', hpl', hrest⟩

theorem nodup_scoreKeys_queryFold (idx : Bm25Index) :
    ∀ (q : List String) (sc : List (Nat × ℝ)),
      (scoreKeys sc).Nodup → (scoreKeys (q.foldl (queryStep idx) sc)).Nodup
  | [], _, h => h
  | t :: q', sc, h => by
    simp only [List.foldl_cons]
    apply nodup_scoreKeys_queryFold idx q'
    unfold queryStep
    cases alookup t idx.inverted_index with
    | none => exact h
    | some pl => exact nodup_scoreKeys_postFold _ _ _ pl sc h

theorem valOf_collectScores (idx : Bm25Index) (q : List String) (d : Nat) :
    valOf (collectScores idx q) d = bm25SpecScore idx q d := by
  unfold collectScores bm25SpecScore
  rw [valOf_queryFold]
  simp [valOf, nlookup]

theorem nodup_scoreKeys_collectScores (idx : Bm25Index) (q : List String) :
    (scoreKeys (collectScores idx q)).Nodup := by
  unfold collectScores
  exact nodup_scoreKeys_queryFold idx q [] (by simp [scoreKeys])

theorem mem_scoreKeys_collectScores (idx : Bm25Index) (q : List String) (d : Nat) :
    d ∈ scoreKeys (collectScores idx q) ↔ specScored idx q d := by
  unfold collectScores specScored
  rw [mem_scoreKeys_queryFold]
  simp [scoreKeys]

instance : IsTotal (Nat × ℝ) scoreGe := ⟨fun a b => le_total b.2 a.2⟩

instance : IsTrans (Nat × ℝ) scoreGe := ⟨fun _ _ _ h1 h2 => le_trans h2 h1⟩

/-! ## Claim C1: `search` computes BM25 scores, sorted and truncated -/

/-- **C1.** For every index state, query token list and `top_k`, `search`
returns a truncation-to-`top_k` of a list that is sorted by score
descending, contains each doc id at most once, contains exactly the doc
ids that have a posting for some query term and a positive current length
(when the corpus is non-empty — `search` returns nothing on an empty
corpus), and assigns each returned doc exactly the spec's BM25 score: the
sum over query terms present in the index of
`idf * tf * (k1+1) / (tf + k1*(1 - b + b*dl/avgdl))` over that term's
postings for the doc, with `idf = ln((N - df + 0.5)/(df + 0.5) + 1)`
floored at 0, `k1 = 1.2`, `b = 0.75`, and `avgdl` the stored average
floored at 1; postings of zero-length docs are skipped. -/
theorem bm25_search_spec (idx : Bm25Index) (q : List String) (k : Nat) :
    ∃ l : List (Nat × ℝ),
      idx.search q k = l.take k ∧
      List.Pairwise scoreGe l ∧
      (∀ p ∈ l, p.2 = bm25SpecScore idx q p.1) ∧
      (l.map Prod.fst).Nodup ∧
      (∀ d : Nat, d ∈ l.map Prod.fst ↔ idx.num_docs ≠ 0 ∧ specScored idx q d) := by
  by_cases hg : idx.num_docs = 0 ∨ q = []
  · refine ⟨[], ?_, List.Pairwise.nil, by simp, List.nodup_nil, ?_⟩
    · unfold Bm25Index.search Bm25Index.searchWith
      rw [if_pos hg]
      simp
    · intro d
      simp only [List.map_nil, List.not_mem_nil, false_iff]
      rcases hg with h0 | hq
      · rintro ⟨hne, _⟩
        exact hne h0
      · rintro ⟨_, t, ht, _⟩
        rw [hq] at ht
        exact List.not_mem_nil t ht
  · push_neg at hg
    obtain ⟨h0, hq⟩ := hg
    have hperm : List.Perm ((List.insertionSort scoreGe (collectScores idx q)).map Prod.fst)
        ((collectScores idx q).map Prod.fst) :=
      (List.perm_insertionSort scoreGe (collectScores idx q)).map Prod.fst
    refine ⟨List.insertionSort scoreGe (collectScores idx q), ?_, ?_, ?_, ?_, ?_⟩
    · unfold Bm25Index.search Bm25Index.searchWith
      rw [if_neg (by push_neg; exact ⟨h0, hq⟩)]
      rfl
    · exact List.sorted_insertionSort scoreGe (collectScores idx q)
    · intro p hp
      have hmem : p ∈ collectScores idx q :=
        (List.perm_insertionSort scoreGe (collectScores idx q)).subset hp
      have hl := nlookup_of_mem_of_nodup _ (nodup_scoreKeys_collectScores idx q) p hmem
      have hv : valOf (collectScores idx q) p.1 = p.2 := by simp [valOf, hl]
      rw [← hv, valOf_collectScores]
    · exact hperm.nodup_iff.mpr (nodup_scoreKeys_collectScores idx q)
    · intro d
      rw [hperm.mem_iff]
      show d ∈ scoreKeys (collectScores idx q) ↔ _
      rw [mem_scoreKeys_collectScores]
      exact ⟨fun h => ⟨h0, h⟩, fun h => h.2⟩

/-! ## Claim C9: the three-document ranking scenario -/

/-- The three-document index of the repository test `test_bm25_basic`. -/
def testIdx : Bm25Index :=
  ((Bm25Index.new.add_document 0 (tokenize "authenticate user login password session")).add_document 1
      (tokenize "read file from disk path")).add_document 2
    (tokenize "user profile update name email")

theorem testIdx_eq :
    testIdx =
      { inverted_index :=
          [("authenticate", [(0, 1)]), ("user", [(0, 1), (2, 1)]), ("login", [(0, 1)]),
           ("password", [(0, 1)]), ("session", [(0, 1)]), ("read", [(1, 1)]),
           ("file", [(1, 1)]), ("disk", [(1, 1)]), ("path", [(1, 1)]),
           ("profile", [(2, 1)]), ("update", [(2, 1)]), ("name", [(2, 1)]),
           ("email", [(2, 1)])],
        doc_lengths := [5, 4, 5], num_docs := 3, avg_doc_length := 14 / 3 } := by
  rfl

theorem q9_eq : tokenize "user authentication" = ["user", "authentication"] := by decide

/-- Both docs containing "user" (doc 0 and doc 2) have token count 5 and
term frequency 1, so they accumulate the *same* score; the query's other
token, "authentication", matches nothing. -/
theorem collectScores_testIdx :
    ∃ s : ℝ, collectScores testIdx (tokenize "user authentication") = [(0, s), (2, s)] := by
  rw [q9_eq, testIdx_eq]
  exact ⟨_, rfl⟩

theorem perm_pair {α : Type _} {a b : α} {l : List α} (h : List.Perm l [a, b]) :
    l = [a, b] ∨ l = [b, a] := by
  have hlen : l.length = 2 := by simpa using h.length_eq
  cases l with
  | nil => simp at hlen
  | cons x t =>
    cases t with
    | nil => simp at hlen
    | cons y t2 =>
      cases t2 with
      | cons z t3 => simp at hlen
      | nil =>
        have hx : x ∈ [a, b] := h.mem_iff.mp (List.mem_cons_self x [y])
        have hx2 : x = a ∨ x = b := by simpa using hx
        rcases hx2 with rfl | rfl
        · left
          have h2 : y = b := by simpa using List.perm_singleton.mp h.cons_inv
          rw [h2]
        · right
          have h3 : List.Perm [x, y] [x, a] := h.trans (List.Perm.swap x a [])
          have h2 : y = a := by simpa using List.perm_singleton.mp h3.cons_inv
          rw [h2]

/-- **C9, counterexample.** The claim "the first entry is doc0" is not
guaranteed by the code: doc0 and doc2 tie exactly, the sort comparator
returns `Equal` for them, and the pre-sort order is the unspecified
`HashMap` iteration order.  Under the admissible iteration order that
yields the collected scores reversed, the first returned entry is doc2,
not doc0. -/
theorem search_user_auth_cex :
    List.Perm (List.reverse (collectScores testIdx (tokenize "user authentication")))
        (collectScores testIdx (tokenize "user authentication")) ∧
      (testIdx.searchWith (tokenize "user authentication") 5 List.reverse).map Prod.fst =
        [2, 0] := by
  obtain ⟨s, hc⟩ := collectScores_testIdx
  refine ⟨List.reverse_perm _, ?_⟩
  unfold Bm25Index.searchWith
  rw [if_neg (by rw [q9_eq, testIdx_eq]; simp)]
  rw [hc]
  show List.map Prod.fst ((List.insertionSort scoreGe [(2, s), (0, s)]).take 5) = [2, 0]
  simp only [List.insertionSort, List.orderedInsert]
  rw [if_pos (show scoreGe (2, s) (0, s) from le_refl s)]
  simp

/-- **C9, amended.** With the three documents of the repository test
indexed, `search(tokenize("user authentication"), 5)` returns a non-empty
ranked list consisting of doc0 and doc2 with *equal* scores, in an order
decided by the unspecified hash-map iteration order: for every admissible
collection order the result is `[(0, s), (2, s)]` or `[(2, s), (0, s)]`
for the common score `s`. -/
theorem search_user_auth (f : List (Nat × ℝ) → List (Nat × ℝ))
    (hf : List.Perm (f (collectScores testIdx (tokenize "user authentication")))
      (collectScores testIdx (tokenize "user authentication"))) :
    ∃ s : ℝ,
      testIdx.searchWith (tokenize "user authentication") 5 f = [(0, s), (2, s)] ∨
        testIdx.searchWith (tokenize "user authentication") 5 f = [(2, s), (0, s)] := by
  obtain ⟨s, hc⟩ := collectScores_testIdx
  rw [hc] at hf
  refine ⟨s, ?_⟩
  unfold Bm25Index.searchWith
  rw [if_neg (by rw [q9_eq, testIdx_eq]; simp)]
  rw [hc]
  rcases perm_pair hf with hf' | hf' <;> rw [hf']
  · left
    simp only [List.insertionSort, List.orderedInsert]
    rw [if_pos (show scoreGe (0, s) (2, s) from le_refl s)]
    simp
  · right
    simp only [List.insertionSort, List.orderedInsert]
    rw [if_pos (show scoreGe (2, s) (0, s) from le_refl s)]
    simp

/-- **C9, witness** for the amended theorem at the identity collection
order. -/
theorem search_user_auth_witness :
    List.Perm (id (collectScores testIdx (tokenize "user authentication")))
        (collectScores testIdx (tokenize "user authentication")) ∧
      (∃ s : ℝ,
        testIdx.searchWith (tokenize "user authentication") 5 id = [(0, s), (2, s)] ∨
          testIdx.searchWith (tokenize "user authentication") 5 id = [(2, s), (0, s)]) :=
  ⟨List.Perm.refl _, search_user_auth id (List.Perm.refl _)⟩

/-! ## Symbol extraction and fallback chunking (indexer.rs) -/

/-- Max content bytes per symbol to keep memory bounded
(`MAX_CONTENT_BYTES` in indexer.rs). -/
def MAX_CONTENT_BYTES : Nat := 8192

/-- `SymbolKind` from indexer.rs. -/
inductive SymbolKind where
  | Function
  | Method
  | Class
  | Interface
  | Struct
  | Enum
  | Type
  | Trait
  | Module
  | Variable
  | Chunk
deriving DecidableEq, Repr

/-- The `Display` instance of `SymbolKind` in indexer.rs. -/
def kindStr : SymbolKind → String
  | SymbolKind.Function => "function"
  | SymbolKind.Method => "method"
  | SymbolKind.Class => "class"
  | SymbolKind.Interface => "interface"
  | SymbolKind.Struct => "struct"
  | SymbolKind.Enum => "enum"
  | SymbolKind.Type => "type"
  | SymbolKind.Trait => "trait"
  | SymbolKind.Module => "module"
  | SymbolKind.Variable => "variable"
  | SymbolKind.Chunk => "chunk"

/-- `CodeSymbol` from indexer.rs. -/
structure CodeSymbol where
  file_path : String
  line_start : Nat
  line_end : Nat
  name : String
  kind : SymbolKind
  content : String
  language : String
deriving DecidableEq, Repr

/-- One trailing carriage return stripped (the `\r\n` handling of Rust
`str::lines`). -/
def stripTrailCR (l : List Char) : List Char :=
  match l.getLast? with
  | some '\x0d' => l.dropLast
  | _ => l

/-- The accumulator loop of Rust `str::lines`: split on newline
terminators, stripping a trailing carriage return per terminated line; a
final unterminated piece is emitted only if non-empty. -/
def splitLinesAux : List Char → List Char → List (List Char)
  | [], current => if current.isEmpty then [] else [current]
  | c :: cs, current =>
    if c = '\n' then stripTrailCR current :: splitLinesAux cs []
    else splitLinesAux cs (current ++ [c])

/-- Rust `str::lines` over the character list of a string. -/
def splitLines (s : List Char) : List (List Char) :=
  splitLinesAux s []

/-- The UTF-8 prefix of a character list with exactly `i` bytes: `none`
when `i` is not a character boundary (a Rust `&s[..i]` slice panics
there). -/
def utf8Prefix : List Char → Nat → Option (List Char)
  | _, 0 => some []
  | [], _ + 1 => none
  | c :: cs, i + 1 =>
    if c.utf8Size ≤ i + 1 then (utf8Prefix cs (i + 1 - c.utf8Size)).map (fun p => c :: p)
    else none

/-- `content[..content.len().min(MAX_CONTENT_BYTES)]` from
`chunk_by_lines`: the full string when within the cap, otherwise the
`MAX_CONTENT_BYTES`-byte prefix — which panics (`none`) when the cap
falls inside a multi-byte character. -/
def utf8Trunc (l : List Char) : Option (List Char) :=
  if utf8ByteLen l ≤ MAX_CONTENT_BYTES then some l else utf8Prefix l MAX_CONTENT_BYTES

def CHUNK_SIZE : Nat := 50

def OVERLAP : Nat := 10

/-- The chunking loop of `chunk_by_lines` in indexer.rs: emit a window of
up to `CHUNK_SIZE` lines starting at `start` (0-based), named by its
1-based line range; stop once the window reaches the end, else continue
`OVERLAP` lines before the window's end.  `none` models the truncation
panic. -/
def chunkLoop (fp : String) (lines : List (List Char)) (total : Nat) (lang : String)
    (start : Nat) : Option (List CodeSymbol) :=
  let e := min (start + CHUNK_SIZE) total
  match utf8Trunc (List.intercalate ['\n'] ((lines.drop start).take (e - start))) with
  | none => none
  | some c =>
    let sym : CodeSymbol :=
      { file_path := fp, line_start := start + 1, line_end := e,
        name := "lines " ++ toString (start + 1) ++ "-" ++ toString e,
        kind := SymbolKind.Chunk, content := String.mk c, language := lang }
    if total ≤ e then some [sym]
    else
      match chunkLoop fp lines total lang (e - OVERLAP) with
      | none => none
      | some rest => some (sym :: rest)
termination_by total - start
decreasing_by
  simp_wf
  rename_i h
  have h2 : ¬ total ≤ (start + CHUNK_SIZE) ⊓ total := h
  have hC : CHUNK_SIZE = 50 := rfl
  have hO : OVERLAP = 10 := rfl
  rcases min_choice (start + CHUNK_SIZE) total with hm | hm
  · rw [hm] at h2 ⊢
    rw [hC, hO] at *
    omega
  · rw [hm] at h2
    exact absurd le_rfl h2

/-- `chunk_by_lines` from indexer.rs.  `source` is the result of
`std::str::from_utf8` (`none` = invalid UTF-8, which returns an empty
symbol list); an empty line list also returns no symbols; `none` in the
result models the truncation panic inside the loop. -/
def chunk_by_lines (fp : String) (source : Option String) (lang : String) :
    Option (List CodeSymbol) :=
  match source with
  | none => some []
  | some text =>
    let lines := splitLines text.toList
    if lines.length = 0 then some []
    else chunkLoop fp lines lines.length lang 0

/-- The shell of `extract_symbols` from indexer.rs.  The per-language
tree-sitter parser and tree walk are external collaborators; `parsed`
stands for their outcome: `none` when no tree could be produced (parser
setup or parse failure), `some syms` for the walked symbol list.  When
parsing fails or the walk yields zero symbols, the line-chunk fallback is
used. -/
def extract_symbols (fp : String) (source : Option String) (lang : String)
    (parsed : Option (List CodeSymbol)) : Option (List CodeSymbol) :=
  match parsed with
  | none => chunk_by_lines fp source lang
  | some syms => if syms.isEmpty then chunk_by_lines fp source lang else some syms

/-! ### Helper lemmas: chunking -/

theorem utf8ByteLen_cons (c : Char) (l : List Char) :
    utf8ByteLen (c :: l) = c.utf8Size + utf8ByteLen l := by
  simp [utf8ByteLen]

theorem utf8ByteLen_replicate (n : Nat) (c : Char) :
    utf8ByteLen (List.replicate n c) = n * c.utf8Size := by
  induction n with
  | zero => simp [utf8ByteLen]
  | succ m ih => rw [List.replicate_succ, utf8ByteLen_cons, ih]; ring

theorem splitLinesAux_no_newline :
    ∀ (l cur : List Char), (∀ c ∈ l, c ≠ '\n') → cur ++ l ≠ [] →
      splitLinesAux l cur = [cur ++ l]
  | [], cur, _, hne => by
    cases cur with
    | nil => exact absurd rfl hne
    | cons a t => simp [splitLinesAux]
  | c :: cs, cur, hnl, _ => by
    have hc : c ≠ '\n' := hnl c (List.mem_cons_self c cs)
    simp only [splitLinesAux, if_neg hc]
    rw [splitLinesAux_no_newline cs (cur ++ [c])
      (fun d hd => hnl d (List.mem_cons_of_mem c hd)) (by simp)]
    simp

theorem splitLinesAux_ne_nil :
    ∀ (l cur : List Char), l ≠ [] ∨ cur ≠ [] → splitLinesAux l cur ≠ []
  | [], cur, h => by
    rcases h with h | h
    · exact absurd rfl h
    · cases cur with
      | nil => exact absurd rfl h
      | cons a t => simp [splitLinesAux]
  | c :: cs, cur, _ => by
    by_cases hc : c = '\n'
    · simp [splitLinesAux, hc]
    · simp only [splitLinesAux, if_neg hc]
      exact splitLinesAux_ne_nil cs (cur ++ [c]) (Or.inr (by simp))

theorem splitLines_ne_nil (l : List Char) (h : l ≠ []) : splitLines l ≠ [] :=
  splitLinesAux_ne_nil l [] (Or.inl h)

theorem intercalate_single (sep : List Char) (l : List Char) :
    List.intercalate sep [l] = l := by
  simp [List.intercalate]

theorem utf8Prefix_replicate_eacute : ∀ (n k : Nat),
    utf8Prefix (List.replicate n 'é') (2 * k + 1) = none := by
  intro n
  induction n with
  | zero => intro k; simp [utf8Prefix]
  | succ m ih =>
    intro k
    have hsz : Char.utf8Size 'é' = 2 := by decide
    cases k with
    | zero =>
      rw [List.replicate_succ]
      simp only [utf8Prefix, hsz]
      norm_num
    | succ k2 =>
      rw [List.replicate_succ]
      simp only [utf8Prefix, hsz]
      rw [if_pos (by omega)]
      have h2 : 2 * (k2 + 1) + 1 - 2 = 2 * k2 + 1 := by omega
      rw [h2, ih k2]
      rfl

/-- The concrete over-cap line used for the C8 counterexample: one ASCII
byte followed by 4100 two-byte characters, 8201 bytes in all, with byte
offset 8192 falling inside a character. -/
def c8Line : List Char := 'a' :: List.replicate 4100 'é'

theorem c8Line_bytes : utf8ByteLen c8Line = 8201 := by
  show utf8ByteLen ('a' :: List.replicate 4100 'é') = 8201
  rw [utf8ByteLen_cons, utf8ByteLen_replicate]
  decide

theorem c8Line_trunc : utf8Trunc c8Line = none := by
  unfold utf8Trunc
  rw [if_neg (by rw [c8Line_bytes]; decide)]
  show utf8Prefix ('a' :: List.replicate 4100 'é') MAX_CONTENT_BYTES = none
  rw [show MAX_CONTENT_BYTES = 8191 + 1 from rfl]
  rw [utf8Prefix]
  rw [if_pos (by decide)]
  rw [show 8191 + 1 - Char.utf8Size 'a' = 2 * 4095 + 1 from by decide]
  rw [utf8Prefix_replicate_eacute]
  rfl

/-! ## Claim C8: extraction is total (no panic) -/

/-- **C8.** Refuted: extraction is *not* total.  On a valid-UTF-8 file
whose single line exceeds the 8192-byte content cap with a multi-byte
character straddling byte 8192 (here `'a'` followed by 4100 copies of a
2-byte character), the fallback chunker slices `content[..8192]` at a
non-character-boundary, which panics in Rust; the model returns the panic
marker `none`. -/
theorem extract_symbols_panic :
    extract_symbols "big.py" (some (String.mk c8Line)) "python" none = none := by
  have hnl : ∀ c ∈ c8Line, c ≠ '\n' := by
    intro c hc
    rcases List.mem_cons.mp hc with rfl | hr
    · decide
    · rw [List.eq_of_mem_replicate hr]; decide
  have hne : c8Line ≠ [] := List.cons_ne_nil 'a' (List.replicate 4100 'é')
  have hsplit : splitLines (String.mk c8Line).toList = [c8Line] :=
    splitLinesAux_no_newline c8Line [] hnl hne
  show chunk_by_lines "big.py" (some (String.mk c8Line)) "python" = none
  simp only [chunk_by_lines, hsplit, List.length_singleton]
  rw [if_neg (by norm_num)]
  rw [chunkLoop]
  have he : min (0 + CHUNK_SIZE) 1 = 1 := by decide
  rw [he]
  have hcontent : List.intercalate ['\n'] (([c8Line].drop 0).take (1 - 0)) = c8Line := by
    rw [List.drop_zero, show (1 - 0 : Nat) = 1 from rfl]
    rw [show ([c8Line].take 1) = [c8Line] from rfl]
    exact intercalate_single _ _
  rw [hcontent, c8Line_trunc]

/-! ### Window arithmetic for the chunk fallback (spec wording: 50-line
windows, 10-line overlap, i.e. consecutive window starts 40 lines apart,
until the file end is covered) -/

/-- The number of 50-line/40-stride windows needed to cover `n` lines
(`n ≥ 1`): the least `m` with `40*(m-1) + 50 ≥ n`. -/
def numWindows (n : Nat) : Nat := (n - 11) / 40 + 1

theorem numWindows_le_50 (n : Nat) (h : n ≤ 50) : numWindows n = 1 := by
  unfold numWindows
  rw [Nat.div_eq_of_lt (by omega)]

theorem numWindows_gt_50 (n : Nat) (h : 50 < n) :
    numWindows n = numWindows (n - 40) + 1 := by
  unfold numWindows
  rw [show n - 11 = (n - 51) + 40 from by omega, Nat.add_div_right _ (by norm_num),
    show n - 40 - 11 = n - 51 from by omega]

theorem numWindows_pos (n : Nat) : 0 < numWindows n := Nat.succ_pos _

theorem numWindows_covers (n : Nat) (h1 : 1 ≤ n) :
    n ≤ 40 * (numWindows n - 1) + 50 := by
  unfold numWindows
  have hdm := Nat.div_add_mod (n - 11) 40
  have hlt : (n - 11) % 40 < 40 := Nat.mod_lt _ (by norm_num)
  omega

/-- The shape of one emitted window: 1-based line range
`[start+1, min(start+50, total)]`, named by the range, `Chunk` kind,
content the truncated join of those lines. -/
def windowSym (fp lang : String) (lines : List (List Char)) (start : Nat) (c : List Char) :
    CodeSymbol :=
  { file_path := fp, line_start := start + 1,
    line_end := min (start + 50) lines.length,
    name := "lines " ++ toString (start + 1) ++ "-" ++
      toString (min (start + 50) lines.length),
    kind := SymbolKind.Chunk, content := String.mk c, language := lang }

/-- The window's raw (untruncated) content: lines `start..min(start+50,total)`
joined with newlines. -/
def windowContent (lines : List (List Char)) (start : Nat) : List Char :=
  List.intercalate ['\n']
    ((lines.drop start).take (min (start + 50) lines.length - start))

theorem chunkLoop_windows (fp lang : String) (lines : List (List Char)) :
    ∀ (n start : Nat), lines.length - start = n → start < lines.length →
      ∀ out : List CodeSymbol,
        chunkLoop fp lines lines.length lang start = some out →
        out.length = numWindows (lines.length - start) ∧
        ∀ (i : Nat) (h : i < out.length),
          ∃ c, utf8Trunc (windowContent lines (start + 40 * i)) = some c ∧
            out.get ⟨i, h⟩ = windowSym fp lang lines (start + 40 * i) c := by
  intro n
  induction n using Nat.strong_induction_on with
  | _ n ih =>
    intro start hn hlt out hout
    rw [chunkLoop] at hout
    simp only [CHUNK_SIZE, OVERLAP] at hout
    cases htr : utf8Trunc (List.intercalate ['\n']
        ((lines.drop start).take (min (start + 50) lines.length - start))) with
    | none => rw [htr] at hout; simp at hout
    | some c =>
      rw [htr] at hout
      simp only [] at hout
      by_cases hend : lines.length ≤ min (start + 50) lines.length
      · rw [if_pos hend] at hout
        have hout2 : out = [windowSym fp lang lines start c] := by
          cases hout
          rfl
        subst hout2
        have h50 : lines.length - start ≤ 50 := by
          rcases min_choice (start + 50) lines.length with hm | hm <;> omega
        refine ⟨by simp [numWindows_le_50 _ h50], ?_⟩
        intro i h
        have hi0 : i = 0 := by simpa using Nat.lt_one_iff.mp (by simpa using h)
        subst hi0
        refine ⟨c, ?_, rfl⟩
        simpa [windowContent] using htr
      · rw [if_neg hend] at hout
        cases hrec : chunkLoop fp lines lines.length lang (min (start + 50) lines.length - 10) with
        | none => rw [hrec] at hout; simp at hout
        | some rest =>
          rw [hrec] at hout
          simp only [] at hout
          have hout2 : out = windowSym fp lang lines start c :: rest := by
            cases hout
            rfl
          subst hout2
          have hes : min (start + 50) lines.length = start + 50 := by
            rcases min_choice (start + 50) lines.length with hm | hm
            · exact hm
            · rw [hm] at hend; omega
          have h50 : start + 50 < lines.length := by omega
          have hstep : min (start + 50) lines.length - 10 = start + 40 := by omega
          rw [hstep] at hrec
          have ih2 := ih (lines.length - (start + 40)) (by omega) (start + 40) rfl
            (by omega) rest hrec
          constructor
          · rw [List.length_cons, ih2.1,
              numWindows_gt_50 (lines.length - start) (by omega),
              show lines.length - (start + 40) = lines.length - start - 40 from by omega]
          · intro i h
            cases i with
            | zero =>
              refine ⟨c, ?_, ?_⟩
              · simpa [windowContent] using htr
              · simp
            | succ j =>
              have hj : j < rest.length := by simpa using h
              obtain ⟨cj, hcj, hsymj⟩ := ih2.2 j hj
              have harith : start + 40 + 40 * j = start + 40 * (j + 1) := by ring
              rw [harith] at hcj hsymj
              exact ⟨cj, hcj, by simpa using hsymj⟩

/-! ## Claim C7: fallback chunking covers every non-empty file -/

/-- **C7, counterexample.** A non-empty file that is not valid UTF-8
(`source = none` models `std::str::from_utf8` failing on non-empty bytes
such as `[0xFF]`) takes the fallback path but `chunk_by_lines` returns an
*empty* symbol list, so extraction yields no `Chunk` at all. -/
theorem chunk_fallback_cex :
    extract_symbols "f.rs" none "rust" none = some [] ∧
      ¬ ∃ sym : CodeSymbol, sym ∈ ([] : List CodeSymbol) ∧ sym.kind = SymbolKind.Chunk :=
  ⟨rfl, by simp⟩

/-- **C7, amended.** For every non-empty *valid-UTF-8* file whose parse
fails or whose tree walk yields zero symbols, whenever extraction returns
(the truncation panic of C8 aside), it returns at least one symbol, and
the result is exactly the 50-line windows with a 10-line overlap between
consecutive windows (window `i` covers lines `40i+1 .. min(40i+50, total)`),
each a `Chunk` named by its line range, the last window reaching the file
end. -/
theorem chunk_fallback (fp lang s : String) (hs : s ≠ "")
    (parsed : Option (List CodeSymbol)) (hp : parsed = none ∨ parsed = some [])
    (out : List CodeSymbol) (hout : extract_symbols fp (some s) lang parsed = some out) :
    out ≠ [] ∧
      out.length = numWindows (splitLines s.toList).length ∧
      (∀ (i : Nat) (h : i < out.length),
        ∃ c, utf8Trunc (windowContent (splitLines s.toList) (40 * i)) = some c ∧
          out.get ⟨i, h⟩ = windowSym fp lang (splitLines s.toList) (40 * i) c) ∧
      ∀ h : out ≠ [], (out.getLast h).line_end = (splitLines s.toList).length := by
  have hchunk : chunk_by_lines fp (some s) lang = some out := by
    rcases hp with rfl | rfl
    · exact hout
    · simpa [extract_symbols] using hout
  have hsl : s.toList ≠ [] := by
    intro h
    apply hs
    cases s with
    | mk data =>
      simp only [String.toList, String.data] at h
      rw [show ("" : String) = String.mk [] from rfl, h]
  have hne : splitLines s.toList ≠ [] := splitLines_ne_nil _ hsl
  have hlen0 : ¬ ((splitLines s.toList).length = 0) := by
    simpa [List.length_eq_zero] using hne
  simp only [chunk_by_lines] at hchunk
  rw [if_neg hlen0] at hchunk
  have h0lt : 0 < (splitLines s.toList).length := Nat.pos_of_ne_zero hlen0
  have hw := chunkLoop_windows fp lang (splitLines s.toList)
    ((splitLines s.toList).length - 0) 0 rfl h0lt out hchunk
  have hlen : out.length = numWindows (splitLines s.toList).length := by
    rw [hw.1, Nat.sub_zero]
  have hwin : ∀ (i : Nat) (h : i < out.length),
      ∃ c, utf8Trunc (windowContent (splitLines s.toList) (40 * i)) = some c ∧
        out.get ⟨i, h⟩ = windowSym fp lang (splitLines s.toList) (40 * i) c := by
    intro i h
    obtain ⟨c, hc, hsym⟩ := hw.2 i h
    rw [Nat.zero_add] at hc hsym
    exact ⟨c, hc, hsym⟩
  have hnonnil : out ≠ [] := by
    refine List.length_pos.mp ?_
    rw [hlen]
    exact numWindows_pos _
  refine ⟨hnonnil, hlen, hwin, ?_⟩
  intro h
  have hl1 : out.length - 1 < out.length := by
    have := List.length_pos.mpr hnonnil
    omega
  obtain ⟨c, hc, hsym⟩ := hwin (out.length - 1) hl1
  have hgl : out.getLast h = out.get ⟨out.length - 1, hl1⟩ := List.getLast_eq_get out h
  rw [hgl, hsym]
  show min (40 * (out.length - 1) + 50) (splitLines s.toList).length = _
  rw [hlen]
  exact min_eq_right (by
    have := numWindows_covers (splitLines s.toList).length (by omega)
    have hmul : 40 * (numWindows (splitLines s.toList).length - 1) =
        (numWindows (splitLines s.toList).length - 1) * 40 := by ring
    omega)

/-- `chunkLoop` on a file of at most 50 lines produces the single
whole-file window. -/
theorem chunkLoop_small (fp lang : String) (lines : List (List Char))
    (hpos : 0 < lines.length) (hle : lines.length ≤ 50) (c : List Char)
    (htr : utf8Trunc (List.intercalate ['\n'] lines) = some c) :
    chunkLoop fp lines lines.length lang 0 = some
      [{ file_path := fp, line_start := 0 + 1, line_end := lines.length,
         name := "lines " ++ toString (0 + 1) ++ "-" ++ toString lines.length,
         kind := SymbolKind.Chunk, content := String.mk c, language := lang }] := by
  rw [chunkLoop]
  have hmin : min (0 + CHUNK_SIZE) lines.length = lines.length := by
    simp only [CHUNK_SIZE, Nat.zero_add]
    omega
  rw [hmin]
  have htake : (lines.drop 0).take (lines.length - 0) = lines := by simp
  rw [htake, htr]
  simp only []
  rw [if_pos (le_refl lines.length)]

theorem chunk_hello :
    extract_symbols "w.rs" (some "hello") "rust" none =
      some [{ file_path := "w.rs", line_start := 1, line_end := 1,
              name := "lines 1-1", kind := SymbolKind.Chunk, content := "hello",
              language := "rust" }] := by
  show chunk_by_lines "w.rs" (some "hello") "rust" = _
  have hsplit : splitLines "hello".toList = ["hello".toList] := by decide
  simp only [chunk_by_lines, hsplit]
  rw [if_neg (by norm_num)]
  have := chunkLoop_small "w.rs" "rust" ["hello".toList] (by norm_num) (by norm_num)
    "hello".toList (by decide)
  simp only [List.length_singleton] at this ⊢
  rw [this]
  norm_num
  decide

/-- **C7, witness** for the amended theorem on the concrete one-line file
"hello". -/
theorem chunk_fallback_witness :
    ("hello" : String) ≠ "" ∧
      (none = (none : Option (List CodeSymbol)) ∨
        (none : Option (List CodeSymbol)) = some []) ∧
      ([{ file_path := "w.rs", line_start := 1, line_end := 1, name := "lines 1-1",
          kind := SymbolKind.Chunk, content := "hello", language := "rust" }] :
        List CodeSymbol) ≠ [] :=
  ⟨by decide, Or.inl rfl,
    (chunk_fallback "w.rs" "rust" "hello" (by decide) none (Or.inl rfl) _ chunk_hello).1⟩

/-! ## Index service (codesearch.rs) -/

/-- Max file size to index, 512 KB (`MAX_FILE_BYTES` in codesearch.rs). -/
def MAX_FILE_BYTES : Nat := 512 * 1024

/-- `LanguageTag` from indexer.rs (named `LanguageTag` here because Mathlib
already declares `LanguageTag` at the root). -/
inductive LanguageTag where
  | TypeScript
  | TypeScriptX
  | JavaScript
  | JavaScriptX
  | Python
  | Rust
  | Go
  | Java
  | CSharp
  | Ruby
  | C
  | Cpp
  | Php
  | Scala
deriving DecidableEq, Repr

/-- The extension table of `detect_language` in indexer.rs. -/
def extLang : String → Option LanguageTag
  | "ts" => some LanguageTag.TypeScript
  | "tsx" => some LanguageTag.TypeScriptX
  | "js" => some LanguageTag.JavaScript
  | "mjs" => some LanguageTag.JavaScript
  | "cjs" => some LanguageTag.JavaScript
  | "jsx" => some LanguageTag.JavaScriptX
  | "py" => some LanguageTag.Python
  | "pyw" => some LanguageTag.Python
  | "rs" => some LanguageTag.Rust
  | "go" => some LanguageTag.Go
  | "java" => some LanguageTag.Java
  | "cs" => some LanguageTag.CSharp
  | "rb" => some LanguageTag.Ruby
  | "rake" => some LanguageTag.Ruby
  | "gemspec" => some LanguageTag.Ruby
  | "c" => some LanguageTag.C
  | "h" => some LanguageTag.C
  | "cpp" => some LanguageTag.Cpp
  | "cc" => some LanguageTag.Cpp
  | "cxx" => some LanguageTag.Cpp
  | "hpp" => some LanguageTag.Cpp
  | "hxx" => some LanguageTag.Cpp
  | "php" => some LanguageTag.Php
  | "php8" => some LanguageTag.Php
  | "php7" => some LanguageTag.Php
  | "scala" => some LanguageTag.Scala
  | "sc" => some LanguageTag.Scala
  | _ => none

/-- The final path component (after the last `/`), as in `Path::file_name`. -/
def lastComponent (p : List Char) : List Char :=
  p.foldl (fun acc c => if c = '/' then [] else acc ++ [c]) []

/-- `Path::extension`: the part of the file name after the final `.`; none
when there is no `.` (an initial `.` of a hidden file does not count). -/
def extAfterLastDot (name : List Char) : Option (List Char) :=
  let stem :=
    match name with
    | '.' :: rest => rest
    | _ => name
  if stem.contains '.' then
    some (stem.foldl (fun acc c => if c = '.' then [] else acc ++ [c]) [])
  else none

/-- `detect_language` from indexer.rs, on the path string. -/
def detect_language (path : String) : Option LanguageTag :=
  match extAfterLastDot (lastComponent path.toList) with
  | none => none
  | some e => extLang (String.mk e)

/-- `language_name` from indexer.rs. -/
def language_name : LanguageTag → String
  | LanguageTag.TypeScript => "typescript"
  | LanguageTag.TypeScriptX => "typescript"
  | LanguageTag.JavaScript => "javascript"
  | LanguageTag.JavaScriptX => "javascript"
  | LanguageTag.Python => "python"
  | LanguageTag.Rust => "rust"
  | LanguageTag.Go => "go"
  | LanguageTag.Java => "java"
  | LanguageTag.CSharp => "csharp"
  | LanguageTag.Ruby => "ruby"
  | LanguageTag.C => "c"
  | LanguageTag.Cpp => "cpp"
  | LanguageTag.Php => "php"
  | LanguageTag.Scala => "scala"

/-- `IndexStats` from codesearch.rs (`languages` as an association list). -/
structure IndexStats where
  total_files : Nat
  total_symbols : Nat
  total_terms : Nat
  languages : List (String × Nat)
  index_time_ms : Nat
deriving DecidableEq, Repr

def IndexStats.empty : IndexStats :=
  { total_files := 0, total_symbols := 0, total_terms := 0, languages := [], index_time_ms := 0 }

/-- `Inner` from codesearch.rs (named `InnerState` here because Mathlib already declares `Inner`): the whole mutex-guarded index state.  The
free-id stack is modelled with list cons as push and head as pop. -/
structure InnerState where
  bm25 : Bm25Index
  symbols : List (Option CodeSymbol)
  file_docs : List (String × List Nat)
  free_ids : List Nat
  next_id : Nat
  stats : IndexStats
deriving DecidableEq, Repr

def InnerState.new : InnerState :=
  { bm25 := Bm25Index.new, symbols := [], file_docs := [], free_ids := [],
    next_id := 0, stats := IndexStats.empty }

/-- `Vec::resize(n, None)` on the symbol slots (both directions, as Rust). -/
def resizeSlots (l : List (Option CodeSymbol)) (n : Nat) : List (Option CodeSymbol) :=
  if l.length ≤ n then l ++ List.replicate (n - l.length) none else l.take n

/-- `alloc_id` from codesearch.rs: pop a freed slot or grow the arena. -/
def InnerState.alloc_id (s : InnerState) : Nat × InnerState :=
  match s.free_ids with
  | id :: rest => (id, { s with free_ids := rest })
  | [] =>
    (s.next_id,
      { s with next_id := s.next_id + 1,
               symbols := resizeSlots s.symbols (s.next_id + 1) })

/-- `*stats.languages.entry(k).or_insert(0) += n`. -/
def bumpLang : List (String × Nat) → String → Nat → List (String × Nat)
  | [], k, n => [(k, n)]
  | (k', v) :: rest, k, n =>
    if k' = k then (k', v + n) :: rest
    else (k', v) :: bumpLang rest k n

/-- `if let Some(cnt) = stats.languages.get_mut(k) { *cnt = cnt.saturating_sub(1) }`. -/
def decLang : List (String × Nat) → String → List (String × Nat)
  | [], _ => []
  | (k', v) :: rest, k =>
    if k' = k then (k', v - 1) :: rest
    else (k', v) :: decLang rest k

/-- The indexed text of a symbol: `format!("{} {} {}", name, kind, content)`. -/
def symText (sym : CodeSymbol) : String :=
  sym.name ++ " " ++ kindStr sym.kind ++ " " ++ sym.content

/-- One iteration of the symbol loop in `add_file`: allocate a doc id,
add the tokenized text to the BM25 index, store the symbol in the slot. -/
def addDocStep (st : InnerState) (sym : CodeSymbol) : InnerState × Nat :=
  let (doc_id, st1) := st.alloc_id
  let st2 := { st1 with bm25 := st1.bm25.add_document doc_id (tokenize (symText sym)) }
  let st3 := { st2 with symbols := st2.symbols.set doc_id (some sym) }
  (st3, doc_id)

/-- One iteration of the doc loop in `remove_file`: remove the doc from
the BM25 index, clear the slot (adjusting stats), push the id on the free
list. -/
def removeDocStep (st : InnerState) (doc_id : Nat) : InnerState :=
  let st1 := { st with bm25 := st.bm25.remove_document doc_id }
  if doc_id < st1.symbols.length then
    let st2 :=
      match st1.symbols.getD doc_id none with
      | some sym =>
        { st1 with
          symbols := st1.symbols.set doc_id none,
          stats := { st1.stats with
            languages := decLang st1.stats.languages sym.language,
            total_symbols := st1.stats.total_symbols - 1 } }
      | none => st1
    { st2 with free_ids := doc_id :: st2.free_ids }
  else st1

/-- `Inner::remove_file` from codesearch.rs: take the file's doc-id list
out of the map, tear each doc down, decrement the file counter.  No-op if
the file was never indexed. -/
def InnerState.remove_file (s : InnerState) (file_path : String) : InnerState :=
  match alookup file_path s.file_docs with
  | none => s
  | some doc_ids =>
    let s1 := { s with file_docs := s.file_docs.filter (fun e => e.1 ≠ file_path) }
    let s2 := doc_ids.foldl removeDocStep s1
    { s2 with stats := { s2.stats with total_files := s2.stats.total_files - 1 } }

/-- `Inner::add_file` from codesearch.rs.  The extraction result is passed
in (`syms`), since parsing is an external collaborator; an empty
extraction leaves only the removal. -/
def InnerState.add_file (s : InnerState) (file_path : String) (syms : List CodeSymbol)
    (lang : LanguageTag) : InnerState :=
  let s1 := s.remove_file file_path
  if syms.isEmpty then s1
  else
    let s2 :=
      { s1 with stats := { s1.stats with
          languages := bumpLang s1.stats.languages (language_name lang) syms.length,
          total_symbols := s1.stats.total_symbols + syms.length,
          total_files := s1.stats.total_files + 1 } }
    let acc := syms.foldl
      (fun (acc : InnerState × List Nat) sym =>
        ((addDocStep acc.1 sym).1, acc.2 ++ [(addDocStep acc.1 sym).2]))
      (s2, [])
    { acc.1 with
      file_docs := (file_path, acc.2) :: acc.1.file_docs.filter (fun e => e.1 ≠ file_path) }

/-- `Inner::search` from codesearch.rs: BM25 search, doc ids mapped back
to stored symbols, freed slots silently dropped. -/
noncomputable def InnerState.searchInner (s : InnerState) (query : String) (top_k : Nat) :
    List (CodeSymbol × ℝ) :=
  (s.bm25.search (tokenize query) top_k).filterMap
    (fun p => (s.symbols.getD p.1 none).map (fun sym => (sym, p.2)))

/-- `Inner::stats` from codesearch.rs. -/
def InnerState.statsInner (s : InnerState) : IndexStats :=
  { total_files := s.stats.total_files, total_symbols := s.stats.total_symbols,
    total_terms := s.bm25.term_count, languages := s.stats.languages,
    index_time_ms := s.stats.index_time_ms }

/-! ### Public API (codesearch.rs): environment, lock, error classes -/

/-- The external world an operation sees: the directory walker's entries
(`none` = a walk error entry), file-kind and metadata lookups, read
success, and the extraction outcome per path (extraction itself calls the
external parser, so its result is part of the environment). -/
structure Env where
  walk : List (Option String)
  isFile : String → Bool
  stat : String → Option Nat
  readable : String → Bool
  extract : String → List CodeSymbol
  elapsed : Nat

/-- The error classes the public API can produce: a poisoned-lock failure
(`lock: ...`), a metadata failure (`stat: ...`), a read failure
(`read: ...`). -/
inductive ErrClass where
  | lockErr
  | statErr
  | readErr
deriving DecidableEq, Repr

/-- The per-entry body of the walk loop in `index_project`: skip walk
errors, non-files, oversized files (metadata errors fall through to the
read), unsupported extensions and unreadable files; index the rest. -/
def walkStep (env : Env) (st : InnerState) (entry : Option String) : InnerState :=
  match entry with
  | none => st
  | some path =>
    if env.isFile path then
      match env.stat path with
      | some len =>
        if MAX_FILE_BYTES < len then st
        else
          match detect_language path with
          | none => st
          | some lang =>
            if env.readable path then st.add_file path (env.extract path) lang else st
      | none =>
        match detect_language path with
        | none => st
        | some lang =>
          if env.readable path then st.add_file path (env.extract path) lang else st
    else st

/-- The state produced by `index_project`'s walk, from a fresh `Inner`. -/
def reindexInner (env : Env) : InnerState :=
  let s := env.walk.foldl (walkStep env) InnerState.new
  { s with stats := { s.stats with index_time_ms := env.elapsed } }

/-- `index_project` from codesearch.rs: lock, replace the state with a
fresh index built from the walk, return stats.  Only the lock can fail. -/
def index_project (env : Env) (poisoned : Bool) :
    Except ErrClass (IndexStats × InnerState) :=
  if poisoned then Except.error ErrClass.lockErr
  else
    let s := reindexInner env
    Except.ok (s.statsInner, s)

/-- `search` from codesearch.rs: lock, tokenize, delegate. -/
noncomputable def search_files (s : InnerState) (poisoned : Bool) (query : String)
    (top_k : Nat) : Except ErrClass (List (CodeSymbol × ℝ)) :=
  if poisoned then Except.error ErrClass.lockErr
  else Except.ok (s.searchInner query top_k)

/-- `update_file` from codesearch.rs: unsupported extension → ok no-op;
metadata error → `stat` error; oversize → ok no-op; read error → `read`
error; then lock and re-index the single file. -/
def update_file (env : Env) (poisoned : Bool) (s : InnerState) (file_path : String) :
    Except ErrClass InnerState :=
  match detect_language file_path with
  | none => Except.ok s
  | some lang =>
    match env.stat file_path with
    | none => Except.error ErrClass.statErr
    | some len =>
      if MAX_FILE_BYTES < len then Except.ok s
      else if env.readable file_path then
        if poisoned then Except.error ErrClass.lockErr
        else Except.ok (s.add_file file_path (env.extract file_path) lang)
      else Except.error ErrClass.readErr

/-- `remove_file` from codesearch.rs (public): lock then tear down. -/
def remove_file (poisoned : Bool) (s : InnerState) (file_path : String) :
    Except ErrClass InnerState :=
  if poisoned then Except.error ErrClass.lockErr
  else Except.ok (s.remove_file file_path)

/-- `get_stats` from codesearch.rs: lock then report. -/
def get_stats (poisoned : Bool) (s : InnerState) : Except ErrClass IndexStats :=
  if poisoned then Except.error ErrClass.lockErr
  else Except.ok s.statsInner

/-- One index-service operation, with the environment it runs against. -/
inductive ServiceOp where
  | reindex (env : Env)
  | update (env : Env) (path : String)
  | removeF (path : String)
  | query (q : String) (k : Nat)

/-- The state transition of one (successful or failed) operation: failed
or skipped operations leave the state unchanged; `search` never mutates. -/
def applyOp (s : InnerState) : ServiceOp → InnerState
  | ServiceOp.reindex env => reindexInner env
  | ServiceOp.update env p =>
    match detect_language p with
    | none => s
    | some lang =>
      match env.stat p with
      | none => s
      | some len =>
        if MAX_FILE_BYTES < len then s
        else if env.readable p then s.add_file p (env.extract p) lang
        else s
  | ServiceOp.removeF p => s.remove_file p
  | ServiceOp.query _ _ => s

/-- The state after a sequence of index-service operations, starting from
the fresh service state. -/
def applyOps (ops : List ServiceOp) : InnerState :=
  ops.foldl applyOp InnerState.new

/-! ### The live/free slot discipline (claim C2) -/

/-- The doc's current length in the BM25 length table. -/
def lenAt (s : InnerState) (id : Nat) : Nat :=
  s.bm25.doc_lengths.getD id 0

/-- The id occurs in some term's posting list. -/
def inPostings (s : InnerState) (id : Nat) : Prop :=
  ∃ e ∈ s.bm25.inverted_index, ∃ p ∈ e.2, p.1 = id

/-- A *live* doc id: positive length, a stored symbol in its slot, not on
the free list (it may appear in postings). -/
def liveAt (s : InnerState) (id : Nat) : Prop :=
  0 < lenAt s id ∧ (s.symbols.getD id none).isSome = true ∧ id ∉ s.free_ids

/-- A *free* doc id: zero length, empty slot, absent from every posting
list, waiting on the free list. -/
def freeAt (s : InnerState) (id : Nat) : Prop :=
  lenAt s id = 0 ∧ s.symbols.getD id none = none ∧ ¬ inPostings s id ∧ id ∈ s.free_ids

/-- Claim C2's invariant: every allocated doc id is live or free, and no
term's posting list mentions a doc id twice. -/
def C2Invariant (s : InnerState) : Prop :=
  (∀ id, id < s.next_id → liveAt s id ∨ freeAt s id) ∧
  ∀ e ∈ s.bm25.inverted_index, (e.2.map Prod.fst).Nodup

/-- The full well-formedness invariant of the service state, strong
enough to be preserved by every operation (given non-empty token lists):
C2's invariant plus slot-arena bookkeeping, posting-id bounds, free-list
discipline, and per-file doc-list discipline. -/
def Wf (s : InnerState) : Prop :=
  s.symbols.length = s.next_id ∧
  s.bm25.doc_lengths.length ≤ s.next_id ∧
  (∀ id, id < s.next_id → liveAt s id ∨ freeAt s id) ∧
  (∀ e ∈ s.bm25.inverted_index, (e.2.map Prod.fst).Nodup ∧ ∀ p ∈ e.2, p.1 < s.next_id) ∧
  s.free_ids.Nodup ∧
  (∀ id ∈ s.free_ids, id < s.next_id) ∧
  (s.file_docs.map Prod.fst).Nodup ∧
  (∀ f ∈ s.file_docs, f.2.Nodup ∧ ∀ id ∈ f.2, liveAt s id) ∧
  List.Pairwise (fun f g => ∀ id ∈ f.2, id ∉ g.2) s.file_docs

theorem Wf_new : Wf InnerState.new := by
  refine ⟨rfl, by decide, ?_, by simp [InnerState.new, Bm25Index.new], by simp [InnerState.new],
    by simp [InnerState.new], by simp [InnerState.new], by simp [InnerState.new],
    by simp [InnerState.new]⟩
  intro id h
  simp [InnerState.new] at h

/-! ### Helper lemmas: list bookkeeping -/

theorem getD_set_of_ne {α : Type _} (d v : α) :
    ∀ (l : List α) (i j : Nat), i ≠ j → (l.set i v).getD j d = l.getD j d
  | [], _, _, _ => rfl
  | _ :: _, 0, 0, h => absurd rfl h
  | _ :: _, 0, _ + 1, _ => rfl
  | _ :: _, _ + 1, 0, _ => rfl
  | _ :: t, i + 1, j + 1, h =>
    getD_set_of_ne d v t i j (fun hh => h (by rw [hh]))

theorem getD_set_of_lt {α : Type _} (d v : α) :
    ∀ (l : List α) (i : Nat), i < l.length → (l.set i v).getD i d = v
  | [], i, h => by simp at h
  | _ :: _, 0, _ => rfl
  | _ :: t, i + 1, h => getD_set_of_lt d v t i (by simpa using h)

theorem getD_append_replicate {α : Type _} (d : α) :
    ∀ (l : List α) (k j : Nat), (l ++ List.replicate k d).getD j d = l.getD j d
  | [], k, j => by
    induction k generalizing j with
    | zero => rfl
    | succ m ih =>
      cases j with
      | zero => rfl
      | succ jj => exact ih jj
  | _ :: _, _, 0 => rfl
  | _ :: t, k, j + 1 => getD_append_replicate d t k j

theorem getD_ge_length {α : Type _} (d : α) :
    ∀ (l : List α) (j : Nat), l.length ≤ j → l.getD j d = d
  | [], j, _ => by cases j <;> rfl
  | _ :: _, 0, h => by simp at h
  | _ :: t, j + 1, h => getD_ge_length d t j (by simpa using h)

theorem lt_length_of_getD_pos (l : List Nat) (j : Nat) (h : 0 < l.getD j 0) :
    j < l.length := by
  by_contra hcon
  rw [getD_ge_length 0 l j (by omega)] at h
  exact absurd h (lt_irrefl 0)

theorem isSome_getD_lt_length (l : List (Option CodeSymbol)) (j : Nat)
    (h : (l.getD j none).isSome = true) : j < l.length := by
  by_contra hcon
  rw [getD_ge_length none l j (by omega)] at h
  simp at h

theorem alookup_mem {α : Type _} (k : String) :
    ∀ (l : List (String × α)) (v : α), alookup k l = some v → (k, v) ∈ l
  | [], v, h => by simp [alookup] at h
  | (k', v') :: rest, v, h => by
    by_cases hk : k' = k
    · subst hk
      rw [alookup, if_pos rfl] at h
      cases h
      exact List.mem_cons_self _ _
    · rw [alookup, if_neg hk] at h
      exact List.mem_cons_of_mem _ (alookup_mem k rest v h)

theorem map_fst_filter_sublist {α β : Type _} (P : α × β → Bool) (l : List (α × β)) :
    List.Sublist ((l.filter P).map Prod.fst) (l.map Prod.fst) :=
  (List.filter_sublist l).map Prod.fst

/-! ### Helper lemmas: posting-list surgery -/

/-- A doc id occurs somewhere in a raw inverted index. -/
def hasPost (inv : List (String × Postings)) (j : Nat) : Prop :=
  ∃ e ∈ inv, ∃ p ∈ e.2, p.1 = j

theorem inPostings_iff_hasPost (s : InnerState) (j : Nat) :
    inPostings s j ↔ hasPost s.bm25.inverted_index j := Iff.rfl

theorem remove_document_active (idx : Bm25Index) (id : Nat)
    (h1 : id < idx.doc_lengths.length) (h2 : idx.doc_lengths.getD id 0 ≠ 0) :
    idx.remove_document id =
      { inverted_index :=
          idx.inverted_index.map (fun e => (e.1, e.2.filter (fun p => p.1 ≠ id))),
        doc_lengths := idx.doc_lengths.set id 0,
        num_docs := idx.num_docs - 1,
        avg_doc_length := recalcOf (idx.doc_lengths.set id 0) } := by
  unfold Bm25Index.remove_document Bm25Index.recalculate_avg
  rw [if_neg (by push_neg; exact ⟨by omega, h2⟩)]

theorem hasPost_scrub (inv : List (String × Postings)) (id j : Nat)
    (h : hasPost (inv.map (fun e => (e.1, e.2.filter (fun p => p.1 ≠ id)))) j) :
    hasPost inv j ∧ j ≠ id := by
  obtain ⟨e, he, p, hp, hpj⟩ := h
  obtain ⟨e0, he0, heq⟩ := List.mem_map.mp he
  subst heq
  have hp2 := List.mem_filter.mp hp
  refine ⟨⟨e0, he0, p, hp2.1, hpj⟩, ?_⟩
  intro hj
  subst hj
  subst hpj
  simpa using hp2.2

theorem not_hasPost_scrub_self (inv : List (String × Postings)) (id : Nat) :
    ¬ hasPost (inv.map (fun e => (e.1, e.2.filter (fun p => p.1 ≠ id)))) id :=
  fun h => (hasPost_scrub inv id id h).2 rfl

theorem hasPost_scrub_of (inv : List (String × Postings)) (id j : Nat) (hne : j ≠ id)
    (h : hasPost inv j) :
    hasPost (inv.map (fun e => (e.1, e.2.filter (fun p => p.1 ≠ id)))) j := by
  obtain ⟨e, he, p, hp, hpj⟩ := h
  refine ⟨(e.1, e.2.filter (fun p => p.1 ≠ id)), List.mem_map.mpr ⟨e, he, rfl⟩, p, ?_, hpj⟩
  exact List.mem_filter.mpr ⟨hp, by simpa using hpj ▸ hne⟩

theorem scrub_entries (inv : List (String × Postings)) (id : Nat) (B : Nat)
    (h : ∀ e ∈ inv, (e.2.map Prod.fst).Nodup ∧ ∀ p ∈ e.2, p.1 < B) :
    ∀ e ∈ inv.map (fun e => (e.1, e.2.filter (fun p => p.1 ≠ id))),
      (e.2.map Prod.fst).Nodup ∧ ∀ p ∈ e.2, p.1 < B := by
  intro e he
  obtain ⟨e0, he0, heq⟩ := List.mem_map.mp he
  subst heq
  obtain ⟨hnd, hb⟩ := h e0 he0
  exact ⟨(map_fst_filter_sublist _ _).nodup hnd,
    fun p hp => hb p (List.mem_filter.mp hp).1⟩

theorem pushPosting_cases (t : String) (d c : Nat) :
    ∀ (inv : List (String × Postings)) (e : String × Postings), e ∈ pushPosting inv t d c →
      e ∈ inv ∨ (e.1 = t ∧ ∃ pl, (t, pl) ∈ inv ∧ e.2 = pl ++ [(d, c)]) ∨ e = (t, [(d, c)])
  | [], e, he => by
    simp only [pushPosting] at he
    rcases List.mem_singleton.mp he with rfl
    exact Or.inr (Or.inr rfl)
  | (k, pl) :: rest, e, he => by
    by_cases hk : k = t
    · subst hk
      rw [pushPosting, if_pos rfl] at he
      rcases List.mem_cons.mp he with rfl | hr
      · exact Or.inr (Or.inl ⟨rfl, pl, List.mem_cons_self _ _, rfl⟩)
      · exact Or.inl (List.mem_cons_of_mem _ hr)
    · rw [pushPosting, if_neg hk] at he
      rcases List.mem_cons.mp he with rfl | hr
      · exact Or.inl (List.mem_cons_self _ _)
      · rcases pushPosting_cases t d c rest e hr with h | ⟨h1, pl', hpl', h2⟩ | h
        · exact Or.inl (List.mem_cons_of_mem _ h)
        · exact Or.inr (Or.inl ⟨h1, pl', List.mem_cons_of_mem _ hpl', h2⟩)
        · exact Or.inr (Or.inr h)

theorem hasPost_pushPosting (t : String) (d c : Nat) (inv : List (String × Postings))
    (j : Nat) (h : hasPost (pushPosting inv t d c) j) : hasPost inv j ∨ j = d := by
  obtain ⟨e, he, p, hp, hpj⟩ := h
  rcases pushPosting_cases t d c inv e he with h1 | ⟨_, pl, hpl, h2⟩ | h1
  · exact Or.inl ⟨e, h1, p, hp, hpj⟩
  · rw [h2] at hp
    rcases List.mem_append.mp hp with hh | hh
    · exact Or.inl ⟨(t, pl), hpl, p, hh, hpj⟩
    · rcases List.mem_singleton.mp hh with rfl
      exact Or.inr hpj.symm
  · subst h1
    rcases List.mem_singleton.mp hp with rfl
    exact Or.inr hpj.symm

theorem hasPost_pushMany (d : Nat) (cnt : String → Nat) :
    ∀ (ts : List String) (inv : List (String × Postings)) (j : Nat),
      hasPost (ts.foldl (fun inv t => pushPosting inv t d (cnt t)) inv) j →
      hasPost inv j ∨ j = d
  | [], _, _, h => Or.inl h
  | t :: rest, inv, j, h => by
    rcases hasPost_pushMany d cnt rest (pushPosting inv t d (cnt t)) j h with h1 | h1
    · exact hasPost_pushPosting t d (cnt t) inv j h1
    · exact Or.inr h1

theorem pushMany_entries (d : Nat) (cnt : String → Nat) (B : Nat) (hdB : d < B) :
    ∀ (ts : List String) (inv : List (String × Postings)), ts.Nodup →
      (∀ e ∈ inv, (e.2.map Prod.fst).Nodup ∧ (∀ p ∈ e.2, p.1 < B) ∧
        (d ∈ e.2.map Prod.fst → e.1 ∉ ts)) →
      ∀ e ∈ ts.foldl (fun inv t => pushPosting inv t d (cnt t)) inv,
        (e.2.map Prod.fst).Nodup ∧ ∀ p ∈ e.2, p.1 < B
  | [], inv, _, hinv, e, he => ⟨(hinv e he).1, (hinv e he).2.1⟩
  | t :: rest, inv, hnd, hinv, e, he => by
    have hndr := (List.nodup_cons.mp hnd).2
    have htr : t ∉ rest := (List.nodup_cons.mp hnd).1
    refine pushMany_entries d cnt B hdB rest (pushPosting inv t d (cnt t)) hndr ?_ e he
    intro e' he'
    rcases pushPosting_cases t d (cnt t) inv e' he' with h1 | ⟨h1, pl, hpl, h2⟩ | h1
    · obtain ⟨hn, hb, hd⟩ := hinv e' h1
      exact ⟨hn, hb, fun hdm => fun hmem => hd hdm (List.mem_cons_of_mem t hmem)⟩
    · obtain ⟨hn, hb, hd⟩ := hinv (t, pl) hpl
      have hdpl : d ∉ pl.map Prod.fst := by
        intro hdm
        exact hd hdm (List.mem_cons_self t rest)
      constructor
      · rw [h2, List.map_append]
        refine List.nodup_append.mpr ⟨hn, by simp, ?_⟩
        intro a ha hb2
        simp at hb2
        subst hb2
        exact hdpl ha
      · refine ⟨fun p hp => ?_, fun _ => ?_⟩
        · rw [h2] at hp
          rcases List.mem_append.mp hp with hh | hh
          · exact hb p hh
          · rcases List.mem_singleton.mp hh with rfl
            exact hdB
        · rw [h1]
          exact htr
    · subst h1
      refine ⟨by simp, fun p hp => ?_, fun _ => htr⟩
      rcases List.mem_singleton.mp hp with rfl
      exact hdB

theorem add_document_not_live (idx : Bm25Index) (id : Nat) (tokens : List String)
    (h : idx.doc_lengths.getD id 0 = 0) :
    idx.add_document id tokens =
      { inverted_index :=
          tokens.dedup.foldl (fun inv t => pushPosting inv t id (tokens.count t))
            idx.inverted_index,
        doc_lengths := (growTo idx.doc_lengths (id + 1)).set id tokens.length,
        num_docs := idx.num_docs + 1,
        avg_doc_length := recalcOf ((growTo idx.doc_lengths (id + 1)).set id tokens.length) } := by
  have hg : (growTo idx.doc_lengths (id + 1)).getD id 0 = 0 := by
    rw [growTo_eq, getD_append_replicate_zero]
    exact h
  unfold Bm25Index.add_document Bm25Index.recalculate_avg
  simp only [hg, lt_irrefl, if_false]

theorem growTo_length (l : List Nat) (n : Nat) :
    (growTo l n).length = max l.length n := by
  rw [growTo_eq, List.length_append, List.length_replicate]
  omega

theorem resizeSlots_grow (l : List (Option CodeSymbol)) (n : Nat) (h : l.length ≤ n) :
    resizeSlots l n = l ++ List.replicate (n - l.length) none := by
  unfold resizeSlots
  rw [if_pos h]

theorem resizeSlots_length (l : List (Option CodeSymbol)) (n : Nat) (h : l.length ≤ n) :
    (resizeSlots l n).length = n := by
  rw [resizeSlots_grow l n h, List.length_append, List.length_replicate]
  omega

/-- The allocation-and-index step on explicit data: what `addDocStep`
computes once the allocated id is known. -/
def addedState (st : InnerState) (sym : CodeSymbol) (toks : List String) (id : Nat)
    (free' : List Nat) (nid : Nat) (syms' : List (Option CodeSymbol)) : InnerState :=
  { st with
    free_ids := free',
    next_id := nid,
    bm25 :=
      { inverted_index :=
          toks.dedup.foldl (fun inv t => pushPosting inv t id (toks.count t))
            st.bm25.inverted_index,
        doc_lengths := (growTo st.bm25.doc_lengths (id + 1)).set id toks.length,
        num_docs := st.bm25.num_docs + 1,
        avg_doc_length :=
          recalcOf ((growTo st.bm25.doc_lengths (id + 1)).set id toks.length) },
    symbols := syms'.set id (some sym) }

/-- Shared argument for both allocation paths of `addDocStep`: starting
from a well-formed state and a *free-for-use* id (zero length, empty or
fresh slot after `syms'`, in no posting list, not on the new free list,
below the new `next_id`), the step yields a well-formed state with the id
live. -/
theorem addedState_spec (st : InnerState) (sym : CodeSymbol) (toks : List String)
    (id : Nat) (free' : List Nat) (nid : Nat) (syms' : List (Option CodeSymbol))
    (hw : Wf st) (htoklen : 0 < toks.length)
    (hidn : id < nid) (hnn : st.next_id ≤ nid)
    (hlen0 : st.bm25.doc_lengths.getD id 0 = 0)
    (hnopost : ¬ hasPost st.bm25.inverted_index id)
    (hsl : syms'.length = nid)
    (hsother : ∀ j, j ≠ id → syms'.getD j none = st.symbols.getD j none)
    (hfnd' : free'.Nodup) (hidf : id ∉ free')
    (hfsub : ∀ j, j ∈ free' → j ∈ st.free_ids)
    (hfof : ∀ j, j ∈ st.free_ids → j ≠ id → j ∈ free')
    (hfb' : ∀ j ∈ free', j < nid)
    (hgap : ∀ j, j < nid → j ≠ id → j < st.next_id) :
    Wf (addedState st sym toks id free' nid syms') ∧
      liveAt (addedState st sym toks id free' nid syms') id ∧
      (∀ j, liveAt st j → j ≠ id ∧ liveAt (addedState st sym toks id free' nid syms') j) := by
  obtain ⟨hsymlen, hdoclen, hlf, hinv, hfnd, hfb, hkeys, hfiles, hdisj⟩ := hw
  have hlenId : ((growTo st.bm25.doc_lengths (id + 1)).set id toks.length).getD id 0 =
      toks.length := by
    refine getD_set_of_lt _ _ _ _ ?_
    rw [growTo_length]
    omega
  have hlenOther : ∀ j, j ≠ id →
      ((growTo st.bm25.doc_lengths (id + 1)).set id toks.length).getD j 0 =
        st.bm25.doc_lengths.getD j 0 := by
    intro j hj
    rw [getD_set_of_ne _ _ _ _ _ (fun hh => hj hh.symm), growTo_eq,
      getD_append_replicate_zero]
  have hslotId : ((syms'.set id (some sym)).getD id none) = some sym := by
    refine getD_set_of_lt _ _ _ _ ?_
    omega
  have hslotOther : ∀ j, j ≠ id →
      ((syms'.set id (some sym)).getD j none) = st.symbols.getD j none := by
    intro j hj
    rw [getD_set_of_ne _ _ _ _ _ (fun hh => hj hh.symm)]
    exact hsother j hj
  have hpostnew : ∀ j,
      hasPost (addedState st sym toks id free' nid syms').bm25.inverted_index j →
      hasPost st.bm25.inverted_index j ∨ j = id := by
    intro j hj
    exact hasPost_pushMany id _ _ _ j hj
  have hliveNew : liveAt (addedState st sym toks id free' nid syms') id := by
    refine ⟨?_, ?_, hidf⟩
    · show 0 < ((growTo st.bm25.doc_lengths (id + 1)).set id toks.length).getD id 0
      rw [hlenId]
      exact htoklen
    · show ((syms'.set id (some sym)).getD id none).isSome = true
      rw [hslotId]
      rfl
  have hlive' : ∀ j, liveAt st j → j ≠ id ∧
      liveAt (addedState st sym toks id free' nid syms') j := by
    intro j hlj
    have hjne : j ≠ id := by
      intro hh
      subst hh
      rw [liveAt, lenAt, hlen0] at hlj
      exact absurd hlj.1 (lt_irrefl 0)
    refine ⟨hjne, ?_, ?_, ?_⟩
    · show 0 < ((growTo st.bm25.doc_lengths (id + 1)).set id toks.length).getD j 0
      rw [hlenOther j hjne]
      exact hlj.1
    · show ((syms'.set id (some sym)).getD j none).isSome = true
      rw [hslotOther j hjne]
      exact hlj.2.1
    · show j ∉ free'
      intro hjf
      exact hlj.2.2 (hfsub j hjf)
  refine ⟨⟨?_, ?_, ?_, ?_, hfnd', hfb', hkeys, ?_, hdisj⟩, hliveNew, hlive'⟩
  · show (syms'.set id (some sym)).length = nid
    rw [List.length_set]
    exact hsl
  · show ((growTo st.bm25.doc_lengths (id + 1)).set id toks.length).length ≤ nid
    rw [List.length_set, growTo_length]
    omega
  · intro j hj
    by_cases hjid : j = id
    · subst hjid
      exact Or.inl hliveNew
    · by_cases hjold : j < st.next_id
      · rcases hlf j hjold with hl | hf
        · exact Or.inl (hlive' j hl).2
        · right
          refine ⟨?_, ?_, ?_, ?_⟩
          · show ((growTo st.bm25.doc_lengths (id + 1)).set id toks.length).getD j 0 = 0
            rw [hlenOther j hjid]
            exact hf.1
          · show (syms'.set id (some sym)).getD j none = none
            rw [hslotOther j hjid]
            exact hf.2.1
          · intro hp
            rcases hpostnew j hp with hp2 | hp2
            · exact hf.2.2.1 hp2
            · exact hjid hp2
          · exact hfof j hf.2.2.2 hjid
      · exact absurd (hgap j hj hjid) hjold
  · intro e he
    show (e.2.map Prod.fst).Nodup ∧ ∀ p ∈ e.2, p.1 < nid
    refine pushMany_entries id _ nid hidn _ _ (List.nodup_dedup _) ?_ e he
    intro e' he'
    refine ⟨(hinv e' he').1, fun p hp => lt_of_lt_of_le ((hinv e' he').2 p hp) hnn,
      fun hdm => ?_⟩
    refine absurd ?_ hnopost
    obtain ⟨p, hp, hpe⟩ := List.mem_map.mp hdm
    exact ⟨e', he', p, hp, hpe⟩
  · intro f hf
    refine ⟨(hfiles f hf).1, fun j hjf => ?_⟩
    exact (hlive' j ((hfiles f hf).2 j hjf)).2

/-- One `add_file` loop iteration preserves `Wf`, makes the allocated id
live (it was not live before), keeps every live doc live, and leaves the
file map alone. -/
theorem addDocStep_spec (st : InnerState) (sym : CodeSymbol) (hw : Wf st)
    (htok : tokenize (symText sym) ≠ []) :
    Wf (addDocStep st sym).1 ∧ liveAt (addDocStep st sym).1 (addDocStep st sym).2 ∧
      ¬ liveAt st (addDocStep st sym).2 ∧
      (addDocStep st sym).1.file_docs = st.file_docs ∧
      (∀ j, liveAt st j → j ≠ (addDocStep st sym).2 ∧ liveAt (addDocStep st sym).1 j) := by
  have htoklen : 0 < (tokenize (symText sym)).length := List.length_pos.mpr htok
  rcases hfree : st.free_ids with _ | ⟨id, rest⟩
  case cons =>
    have hidn : id < st.next_id :=
      hw.2.2.2.2.2.1 id (by rw [hfree]; exact List.mem_cons_self _ _)
    have hfreeAt : freeAt st id := by
      rcases hw.2.2.1 id hidn with hl | hf
      · exact absurd (by rw [hfree]; exact List.mem_cons_self _ _) hl.2.2
      · exact hf
    have hndfree := hw.2.2.2.2.1
    rw [hfree] at hndfree
    have hbm := add_document_not_live st.bm25 id (tokenize (symText sym)) hfreeAt.1
    have hstep : addDocStep st sym =
        (addedState st sym (tokenize (symText sym)) id rest st.next_id st.symbols, id) := by
      unfold addDocStep InnerState.alloc_id addedState
      rw [hfree]
      simp only []
      rw [hbm]
    have hmain := addedState_spec st sym (tokenize (symText sym)) id rest st.next_id
      st.symbols hw htoklen hidn (le_refl _) hfreeAt.1 hfreeAt.2.2.1 hw.1
      (fun _ _ => rfl) (List.nodup_cons.mp hndfree).2 (List.nodup_cons.mp hndfree).1
      (fun j hj => by rw [hfree]; exact List.mem_cons_of_mem _ hj)
      (fun j hj hne => by
        rw [hfree] at hj
        rcases List.mem_cons.mp hj with hh | hh
        · exact absurd hh hne
        · exact hh)
      (fun j hj => hw.2.2.2.2.2.1 j (by rw [hfree]; exact List.mem_cons_of_mem _ hj))
      (fun j hj _ => hj)
    rw [hstep]
    refine ⟨hmain.1, hmain.2.1, ?_, rfl, hmain.2.2⟩
    show ¬ liveAt st id
    intro hl
    have h0 : st.bm25.doc_lengths.getD id 0 = 0 := hfreeAt.1
    have h1 : 0 < st.bm25.doc_lengths.getD id 0 := hl.1
    omega
  case nil =>
    have hlen0 : st.bm25.doc_lengths.getD st.next_id 0 = 0 :=
      getD_ge_length 0 _ _ hw.2.1
    have hnopost : ¬ hasPost st.bm25.inverted_index st.next_id := by
      rintro ⟨e, he, p, hp, hpj⟩
      have := (hw.2.2.2.1 e he).2 p hp
      omega
    have hbm := add_document_not_live st.bm25 st.next_id (tokenize (symText sym)) hlen0
    have hstep : addDocStep st sym =
        (addedState st sym (tokenize (symText sym)) st.next_id [] (st.next_id + 1)
          (resizeSlots st.symbols (st.next_id + 1)), st.next_id) := by
      unfold addDocStep InnerState.alloc_id addedState
      rw [hfree]
      simp only []
      rw [hbm]
    have hmain := addedState_spec st sym (tokenize (symText sym)) st.next_id []
      (st.next_id + 1) (resizeSlots st.symbols (st.next_id + 1)) hw htoklen
      (Nat.lt_succ_self _) (Nat.le_succ _) hlen0 hnopost
      (resizeSlots_length _ _ (by rw [hw.1]; omega))
      (fun j _ => by
        rw [resizeSlots_grow _ _ (by rw [hw.1]; omega), getD_append_replicate])
      List.nodup_nil (List.not_mem_nil _)
      (fun j hj => absurd hj (List.not_mem_nil j))
      (fun j hj _ => by rw [hfree] at hj; exact absurd hj (List.not_mem_nil j))
      (fun j hj => absurd hj (List.not_mem_nil j))
      (fun j hj hne => by omega)
    rw [hstep]
    refine ⟨hmain.1, hmain.2.1, ?_, rfl, hmain.2.2⟩
    show ¬ liveAt st st.next_id
    intro hl
    have h1 : 0 < st.bm25.doc_lengths.getD st.next_id 0 := hl.1
    omega

/-- The teardown step on explicit data: what `removeDocStep` computes for
a live id whose slot holds `sym0`. -/
def removedState (st : InnerState) (id : Nat) (sym0 : CodeSymbol) : InnerState :=
  { st with
    bm25 :=
      { inverted_index :=
          st.bm25.inverted_index.map (fun e => (e.1, e.2.filter (fun p => p.1 ≠ id))),
        doc_lengths := st.bm25.doc_lengths.set id 0,
        num_docs := st.bm25.num_docs - 1,
        avg_doc_length := recalcOf (st.bm25.doc_lengths.set id 0) },
    symbols := st.symbols.set id none,
    stats := { st.stats with
      languages := decLang st.stats.languages sym0.language,
      total_symbols := st.stats.total_symbols - 1 },
    free_ids := id :: st.free_ids }

theorem removeDocStep_eq (st : InnerState) (id : Nat) (sym0 : CodeSymbol)
    (hpos : 0 < st.bm25.doc_lengths.getD id 0)
    (hslotlen : id < st.symbols.length)
    (hsym0 : st.symbols.getD id none = some sym0) :
    removeDocStep st id = removedState st id sym0 := by
  have hrange : id < st.bm25.doc_lengths.length := lt_length_of_getD_pos _ _ hpos
  have hbm := remove_document_active st.bm25 id hrange (by omega)
  unfold removeDocStep removedState
  rw [hbm]
  simp only []
  rw [if_pos hslotlen, hsym0]

/-- One `remove_file` loop iteration on a live id that belongs to no
file-map entry: preserves `Wf`, frees the id, keeps other docs as they
were, leaves the file map alone. -/
theorem removeDocStep_spec (st : InnerState) (id : Nat) (hw : Wf st) (hlive : liveAt st id)
    (hnof : ∀ f ∈ st.file_docs, id ∉ f.2) :
    Wf (removeDocStep st id) ∧ freeAt (removeDocStep st id) id ∧
      (removeDocStep st id).file_docs = st.file_docs ∧
      (∀ j, j ≠ id → liveAt st j → liveAt (removeDocStep st id) j) ∧
      (∀ j, freeAt st j → freeAt (removeDocStep st id) j) := by
  obtain ⟨hsymlen, hdoclen, hlf, hinv, hfnd, hfb, hkeys, hfiles, hdisj⟩ := hw
  obtain ⟨hpos, hsome, hnfree⟩ := hlive
  have hpos' : 0 < st.bm25.doc_lengths.getD id 0 := hpos
  have hrange : id < st.bm25.doc_lengths.length := lt_length_of_getD_pos _ _ hpos'
  have hidn : id < st.next_id := by omega
  have hslotlen : id < st.symbols.length := isSome_getD_lt_length _ _ hsome
  obtain ⟨sym0, hsym0⟩ := Option.isSome_iff_exists.mp hsome
  rw [removeDocStep_eq st id sym0 hpos' hslotlen hsym0]
  have hlenSelf : (st.bm25.doc_lengths.set id 0).getD id 0 = 0 :=
    getD_set_of_lt _ _ _ _ hrange
  have hlenOther : ∀ j, j ≠ id →
      (st.bm25.doc_lengths.set id 0).getD j 0 = st.bm25.doc_lengths.getD j 0 :=
    fun j hj => getD_set_of_ne _ _ _ _ _ (fun hh => hj hh.symm)
  have hslotSelf : (st.symbols.set id none).getD id none = none :=
    getD_set_of_lt _ _ _ _ hslotlen
  have hslotOther : ∀ j, j ≠ id →
      (st.symbols.set id none).getD j none = st.symbols.getD j none :=
    fun j hj => getD_set_of_ne _ _ _ _ _ (fun hh => hj hh.symm)
  have hfreeSelf : freeAt (removedState st id sym0) id := by
    refine ⟨hlenSelf, hslotSelf, ?_, List.mem_cons_self _ _⟩
    exact not_hasPost_scrub_self _ _
  have hliveOther : ∀ j, j ≠ id → liveAt st j → liveAt (removedState st id sym0) j := by
    intro j hj hl
    refine ⟨?_, ?_, ?_⟩
    · show 0 < (st.bm25.doc_lengths.set id 0).getD j 0
      rw [hlenOther j hj]
      exact hl.1
    · show ((st.symbols.set id none).getD j none).isSome = true
      rw [hslotOther j hj]
      exact hl.2.1
    · show j ∉ id :: st.free_ids
      intro hh
      rcases List.mem_cons.mp hh with hh | hh
      · exact hj hh
      · exact hl.2.2 hh
  have hfreeOther : ∀ j, freeAt st j → freeAt (removedState st id sym0) j := by
    intro j hf
    have hj : j ≠ id := by
      intro hh
      subst hh
      have h0 : st.bm25.doc_lengths.getD j 0 = 0 := hf.1
      omega
    refine ⟨?_, ?_, ?_, List.mem_cons_of_mem _ hf.2.2.2⟩
    · show (st.bm25.doc_lengths.set id 0).getD j 0 = 0
      rw [hlenOther j hj]
      exact hf.1
    · show (st.symbols.set id none).getD j none = none
      rw [hslotOther j hj]
      exact hf.2.1
    · intro hp
      exact hf.2.2.1 (hasPost_scrub _ _ _ hp).1
  refine ⟨⟨?_, ?_, ?_, ?_, ?_, ?_, hkeys, ?_, hdisj⟩, hfreeSelf, rfl, hliveOther, hfreeOther⟩
  · show (st.symbols.set id none).length = st.next_id
    rw [List.length_set]
    exact hsymlen
  · show (st.bm25.doc_lengths.set id 0).length ≤ st.next_id
    rw [List.length_set]
    exact hdoclen
  · intro j hjn
    by_cases hj : j = id
    · subst hj
      exact Or.inr hfreeSelf
    · rcases hlf j hjn with hl | hf
      · exact Or.inl (hliveOther j hj hl)
      · exact Or.inr (hfreeOther j hf)
  · exact scrub_entries _ _ _ hinv
  · exact List.nodup_cons.mpr ⟨hnfree, hfnd⟩
  · intro j hj
    rcases List.mem_cons.mp hj with rfl | hh
    · exact hidn
    · exact hfb j hh
  · intro f hf
    refine ⟨(hfiles f hf).1, fun j hjf => ?_⟩
    refine hliveOther j ?_ ((hfiles f hf).2 j hjf)
    intro hh
    subst hh
    exact hnof f hf hjf

/-- The fold of `removeDocStep` over a duplicate-free list of live ids
outside the file map. -/
theorem removeFold_spec :
    ∀ (ids : List Nat) (st : InnerState), Wf st → ids.Nodup →
      (∀ i ∈ ids, liveAt st i) →
      (∀ i ∈ ids, ∀ f ∈ st.file_docs, i ∉ f.2) →
      Wf (ids.foldl removeDocStep st) ∧
        (ids.foldl removeDocStep st).file_docs = st.file_docs ∧
        (∀ j, freeAt st j → freeAt (ids.foldl removeDocStep st) j) ∧
        (∀ i ∈ ids, freeAt (ids.foldl removeDocStep st) i) ∧
        (∀ j, j ∉ ids → liveAt st j → liveAt (ids.foldl removeDocStep st) j)
  | [], st, hw, _, _, _ => ⟨hw, rfl, fun _ hf => hf, fun i hi => absurd hi (List.not_mem_nil i),
      fun j _ hl => hl⟩
  | i :: rest, st, hw, hnd, hlive, hnof => by
    have hstep := removeDocStep_spec st i hw (hlive i (List.mem_cons_self _ _))
      (fun f hf => hnof i (List.mem_cons_self _ _) f hf)
    obtain ⟨hw', hfree', hfd', hliveO, hfreeO⟩ := hstep
    have hrest := removeFold_spec rest (removeDocStep st i) hw'
      (List.nodup_cons.mp hnd).2
      (fun j hj => hliveO j
        (fun hh => (List.nodup_cons.mp hnd).1 (hh ▸ hj))
        (hlive j (List.mem_cons_of_mem _ hj)))
      (fun j hj f hf => by
        rw [hfd'] at hf
        exact hnof j (List.mem_cons_of_mem _ hj) f hf)
    simp only [List.foldl_cons]
    refine ⟨hrest.1, by rw [hrest.2.1, hfd'], ?_, ?_, ?_⟩
    · intro j hf
      exact hrest.2.2.1 j (hfreeO j hf)
    · intro j hj
      rcases List.mem_cons.mp hj with rfl | hh
      · exact hrest.2.2.1 j hfree'
      · exact hrest.2.2.2.1 j hh
    · intro j hj hl
      refine hrest.2.2.2.2 j (fun hh => hj (List.mem_cons_of_mem _ hh)) ?_
      exact hliveO j (fun hh => hj (hh ▸ List.mem_cons_self _ _)) hl

/-- `addDocStep` writes the new symbol into exactly its own slot. -/
theorem addDocStep_slots (st : InnerState) (sym : CodeSymbol) (hw : Wf st) :
    (addDocStep st sym).1.symbols.getD (addDocStep st sym).2 none = some sym ∧
      ∀ j, j ≠ (addDocStep st sym).2 →
        (addDocStep st sym).1.symbols.getD j none = st.symbols.getD j none := by
  rcases hfree : st.free_ids with _ | ⟨id, rest⟩
  case cons =>
    have hidn : id < st.next_id :=
      hw.2.2.2.2.2.1 id (by rw [hfree]; exact List.mem_cons_self _ _)
    simp only [addDocStep, InnerState.alloc_id, hfree]
    constructor
    · exact getD_set_of_lt _ _ _ _ (by rw [hw.1]; omega)
    · intro j hj
      exact getD_set_of_ne _ _ _ _ _ (fun hh => hj hh.symm)
  case nil =>
    simp only [addDocStep, InnerState.alloc_id, hfree]
    constructor
    · exact getD_set_of_lt _ _ _ _ (by rw [resizeSlots_length _ _ (by rw [hw.1]; omega)]; omega)
    · intro j hj
      rw [getD_set_of_ne _ _ _ _ _ (fun hh => hj hh.symm),
        resizeSlots_grow _ _ (by rw [hw.1]; omega), getD_append_replicate]

/-- Allocation never shrinks the arena bound. -/
theorem addDocStep_next_id (st : InnerState) (sym : CodeSymbol) :
    st.next_id ≤ (addDocStep st sym).1.next_id := by
  rcases hfree : st.free_ids with _ | ⟨id, rest⟩
  · simp only [addDocStep, InnerState.alloc_id, hfree]
    omega
  · simp only [addDocStep, InnerState.alloc_id, hfree]
    exact le_refl _

/-- A free id other than the allocated one stays free across one
`addDocStep`. -/
theorem addDocStep_free_pres (st : InnerState) (sym : CodeSymbol) (hw : Wf st)
    (htok : tokenize (symText sym) ≠ []) (j : Nat) (hf : freeAt st j)
    (hne : j ≠ (addDocStep st sym).2) : freeAt (addDocStep st sym).1 j := by
  have hspec := addDocStep_spec st sym hw htok
  have hjlt : j < st.next_id := hw.2.2.2.2.2.1 j hf.2.2.2
  have hmono := addDocStep_next_id st sym
  rcases hspec.1.2.2.1 j (by omega) with hl | hf2
  · exfalso
    have hslot := (addDocStep_slots st sym hw).2 j hne
    have := hl.2.1
    rw [hslot, hf.2.1] at this
    simp at this
  · exact hf2

/-- The fold of `addDocStep` over the extracted symbols: starting from a
well-formed state and an already-collected list of live ids that appear
in no file-map entry, the fold stays well-formed, keeps the file map,
keeps collected ids live/distinct/unlisted and their slots untouched,
leaves unallocated free ids free, and stores one of the added symbols in
every newly collected slot. -/
theorem addFold_spec (syms0 : List CodeSymbol) :
    ∀ (syms : List CodeSymbol) (st : InnerState) (ids : List Nat),
      (∀ sym ∈ syms, sym ∈ syms0) →
      Wf st → (∀ sym ∈ syms, tokenize (symText sym) ≠ []) →
      ids.Nodup → (∀ i ∈ ids, liveAt st i) →
      (∀ i ∈ ids, ∀ f ∈ st.file_docs, i ∉ f.2) →
      Wf (syms.foldl
          (fun (acc : InnerState × List Nat) sym =>
            ((addDocStep acc.1 sym).1, acc.2 ++ [(addDocStep acc.1 sym).2]))
          (st, ids)).1 ∧
      (syms.foldl
          (fun (acc : InnerState × List Nat) sym =>
            ((addDocStep acc.1 sym).1, acc.2 ++ [(addDocStep acc.1 sym).2]))
          (st, ids)).1.file_docs = st.file_docs ∧
      (syms.foldl
          (fun (acc : InnerState × List Nat) sym =>
            ((addDocStep acc.1 sym).1, acc.2 ++ [(addDocStep acc.1 sym).2]))
          (st, ids)).2.Nodup ∧
      (∀ i ∈ (syms.foldl
          (fun (acc : InnerState × List Nat) sym =>
            ((addDocStep acc.1 sym).1, acc.2 ++ [(addDocStep acc.1 sym).2]))
          (st, ids)).2, liveAt (syms.foldl
          (fun (acc : InnerState × List Nat) sym =>
            ((addDocStep acc.1 sym).1, acc.2 ++ [(addDocStep acc.1 sym).2]))
          (st, ids)).1 i) ∧
      (∀ i ∈ (syms.foldl
          (fun (acc : InnerState × List Nat) sym =>
            ((addDocStep acc.1 sym).1, acc.2 ++ [(addDocStep acc.1 sym).2]))
          (st, ids)).2, ∀ f ∈ st.file_docs, i ∉ f.2) ∧
      (∀ i ∈ ids, i ∈ (syms.foldl
          (fun (acc : InnerState × List Nat) sym =>
            ((addDocStep acc.1 sym).1, acc.2 ++ [(addDocStep acc.1 sym).2]))
          (st, ids)).2) ∧
      (∀ i ∈ ids, (syms.foldl
          (fun (acc : InnerState × List Nat) sym =>
            ((addDocStep acc.1 sym).1, acc.2 ++ [(addDocStep acc.1 sym).2]))
          (st, ids)).1.symbols.getD i none = st.symbols.getD i none) ∧
      (∀ j, freeAt st j → j ∉ (syms.foldl
          (fun (acc : InnerState × List Nat) sym =>
            ((addDocStep acc.1 sym).1, acc.2 ++ [(addDocStep acc.1 sym).2]))
          (st, ids)).2 → freeAt (syms.foldl
          (fun (acc : InnerState × List Nat) sym =>
            ((addDocStep acc.1 sym).1, acc.2 ++ [(addDocStep acc.1 sym).2]))
          (st, ids)).1 j) ∧
      (∀ i ∈ (syms.foldl
          (fun (acc : InnerState × List Nat) sym =>
            ((addDocStep acc.1 sym).1, acc.2 ++ [(addDocStep acc.1 sym).2]))
          (st, ids)).2, i ∉ ids →
        ∃ sym ∈ syms0, (syms.foldl
          (fun (acc : InnerState × List Nat) sym =>
            ((addDocStep acc.1 sym).1, acc.2 ++ [(addDocStep acc.1 sym).2]))
          (st, ids)).1.symbols.getD i none = some sym)
  | [], st, ids, _, hw, _, hnd, hlivei, hnof =>
    ⟨hw, rfl, hnd, hlivei, hnof, fun i hi => hi, fun _ _ => rfl,
      fun _ hf _ => hf, fun i hi hni => absurd hi hni⟩
  | sym :: rest, st, ids, hsub, hw, hts, hnd, hlivei, hnof => by
    have hstep := addDocStep_spec st sym hw (hts sym (List.mem_cons_self _ _))
    obtain ⟨hw', hlivenew, hnotlive, hfd', hliveO⟩ := hstep
    have hslots := addDocStep_slots st sym hw
    have hnewid : (addDocStep st sym).2 ∉ ids := fun hh => hnotlive (hlivei _ hh)
    have hndnew : (ids ++ [(addDocStep st sym).2]).Nodup := by
      refine List.nodup_append.mpr ⟨hnd, by simp, ?_⟩
      intro a ha hb
      simp at hb
      subst hb
      exact hnewid ha
    have hrest := addFold_spec syms0 rest (addDocStep st sym).1
      (ids ++ [(addDocStep st sym).2])
      (fun s hs => hsub s (List.mem_cons_of_mem _ hs))
      hw' (fun s hs => hts s (List.mem_cons_of_mem _ hs))
      hndnew
      (by
        intro i hi
        rcases List.mem_append.mp hi with hh | hh
        · exact (hliveO i (hlivei i hh)).2
        · rcases List.mem_singleton.mp hh with rfl
          exact hlivenew)
      (by
        intro i hi f hf
        rw [hfd'] at hf
        rcases List.mem_append.mp hi with hh | hh
        · exact hnof i hh f hf
        · rcases List.mem_singleton.mp hh with rfl
          intro hmem
          exact hnotlive ((hw.2.2.2.2.2.2.2.1 f hf).2 _ hmem))
    simp only [List.foldl_cons]
    refine ⟨hrest.1, by rw [hrest.2.1, hfd'], hrest.2.2.1, hrest.2.2.2.1, ?_, ?_, ?_, ?_, ?_⟩
    · intro i hi f hf
      refine hrest.2.2.2.2.1 i hi f ?_
      rw [hfd']
      exact hf
    · intro i hi
      exact hrest.2.2.2.2.2.1 i (List.mem_append.mpr (Or.inl hi))
    · intro i hi
      rw [hrest.2.2.2.2.2.2.1 i (List.mem_append.mpr (Or.inl hi))]
      exact hslots.2 i (fun hh => hnotlive (hh ▸ hlivei i hi))
    · intro j hf hj
      have hjnew : j ≠ (addDocStep st sym).2 := by
        intro hh
        refine hj ?_
        rw [hh]
        exact hrest.2.2.2.2.2.1 _ (List.mem_append.mpr (Or.inr (List.mem_singleton.mpr rfl)))
      refine hrest.2.2.2.2.2.2.2.1 j ?_ hj
      exact addDocStep_free_pres st sym hw (hts sym (List.mem_cons_self _ _)) j hf hjnew
    · intro i hi hni
      by_cases hinew : i = (addDocStep st sym).2
      · subst hinew
        refine ⟨sym, hsub sym (List.mem_cons_self _ _), ?_⟩
        rw [hrest.2.2.2.2.2.2.1 _ (List.mem_append.mpr (Or.inr (List.mem_singleton.mpr rfl)))]
        exact hslots.1
      · refine hrest.2.2.2.2.2.2.2.2 i hi ?_
        intro hh
        rcases List.mem_append.mp hh with h2 | h2
        · exact hni h2
        · exact hinew (List.mem_singleton.mp h2)

theorem alookup_filter_self {α : Type _} (p : String) :
    ∀ l : List (String × α), alookup p (l.filter (fun e => e.1 ≠ p)) = none
  | [] => rfl
  | (k, v) :: rest => by
    by_cases hk : k = p
    · rw [List.filter_cons_of_neg (by simp [hk])]
      exact alookup_filter_self p rest
    · rw [List.filter_cons_of_pos (by simp [hk])]
      rw [alookup, if_neg hk]
      exact alookup_filter_self p rest

theorem alookup_filter_ne {α : Type _} (p q : String) (hpq : q ≠ p) :
    ∀ l : List (String × α), alookup q (l.filter (fun e => e.1 ≠ p)) = alookup q l
  | [] => rfl
  | (k, v) :: rest => by
    by_cases hk : k = p
    · rw [List.filter_cons_of_neg (by simp [hk])]
      rw [alookup, if_neg (by rw [hk]; exact fun hh => hpq hh.symm)]
      exact alookup_filter_ne p q hpq rest
    · rw [List.filter_cons_of_pos (by simp [hk])]
      by_cases hq : k = q
      · rw [alookup, alookup, if_pos hq, if_pos hq]
      · rw [alookup, alookup, if_neg hq, if_neg hq]
        exact alookup_filter_ne p q hpq rest

theorem not_mem_map_fst_filter (p : String) (l : List (String × List Nat)) :
    p ∉ (l.filter (fun e => e.1 ≠ p)).map Prod.fst := by
  intro h
  obtain ⟨e, he, hep⟩ := List.mem_map.mp h
  have := (List.mem_filter.mp he).2
  rw [hep] at this
  simp at this

theorem pairwise_disjoint_get {l : List (String × List Nat)}
    (hp : List.Pairwise (fun f g => ∀ id ∈ f.2, id ∉ g.2) l)
    {f g : String × List Nat} (hf : f ∈ l) (hg : g ∈ l) (hne : f ≠ g) :
    ∀ id ∈ f.2, id ∉ g.2 := by
  have hsymm : Symmetric (fun f g : String × List Nat => ∀ id ∈ f.2, id ∉ g.2) := by
    intro a b hab id hidb hida
    exact hab id hida hidb
  exact List.Pairwise.forall hsymm hp hf hg hne

theorem Wf_filter_file (s : InnerState) (p : String) (hw : Wf s) :
    Wf { s with file_docs := s.file_docs.filter (fun e => e.1 ≠ p) } := by
  obtain ⟨h1, h2, h3, h4, h5, h6, h7, h8, h9⟩ := hw
  refine ⟨h1, h2, h3, h4, h5, h6, ?_, ?_, ?_⟩
  · exact (map_fst_filter_sublist _ _).nodup h7
  · intro f hf
    exact h8 f (List.mem_of_mem_filter hf)
  · exact List.Pairwise.sublist (List.filter_sublist _) h9

/-- `Inner::remove_file` preserves well-formedness; the file's entry
disappears; its old ids become free; every other doc is untouched. -/
theorem remove_file_spec (s : InnerState) (p : String) (hw : Wf s) :
    Wf (s.remove_file p) ∧
      alookup p (s.remove_file p).file_docs = none ∧
      (∀ i ∈ (alookup p s.file_docs).getD [], freeAt (s.remove_file p) i) ∧
      (∀ j, j ∉ (alookup p s.file_docs).getD [] → liveAt s j → liveAt (s.remove_file p) j) ∧
      (∀ j, freeAt s j → freeAt (s.remove_file p) j) ∧
      (∀ q, q ≠ p → alookup q (s.remove_file p).file_docs = alookup q s.file_docs) := by
  cases halk : alookup p s.file_docs with
  | none =>
    have hre : s.remove_file p = s := by
      unfold InnerState.remove_file
      rw [halk]
    rw [hre]
    exact ⟨hw, by rw [halk], by simp [halk], fun j _ hl => hl, fun j hf => hf,
      fun q _ => rfl⟩
  | some ids =>
    have hmem : (p, ids) ∈ s.file_docs := alookup_mem p s.file_docs ids halk
    have hfile := hw.2.2.2.2.2.2.2.1 (p, ids) hmem
    have hw1 := Wf_filter_file s p hw
    have hnof1 : ∀ i ∈ ids, ∀ f ∈ s.file_docs.filter (fun e => e.1 ≠ p), i ∉ f.2 := by
      intro i hi f hf
      have hfm := List.mem_filter.mp hf
      have hne : (p, ids) ≠ f := by
        intro hh
        have := hfm.2
        rw [← hh] at this
        simp at this
      exact pairwise_disjoint_get hw.2.2.2.2.2.2.2.2 hmem hfm.1 hne i hi
    have hfold := removeFold_spec ids
      { s with file_docs := s.file_docs.filter (fun e => e.1 ≠ p) } hw1
      hfile.1 (fun i hi => hfile.2 i hi) hnof1
    have hre : s.remove_file p =
        { (ids.foldl removeDocStep
            { s with file_docs := s.file_docs.filter (fun e => e.1 ≠ p) }) with
          stats := { (ids.foldl removeDocStep
              { s with file_docs := s.file_docs.filter (fun e => e.1 ≠ p) }).stats with
            total_files := (ids.foldl removeDocStep
              { s with file_docs := s.file_docs.filter (fun e => e.1 ≠ p) }).stats.total_files - 1 } } := by
      unfold InnerState.remove_file
      rw [halk]
    rw [hre]
    refine ⟨hfold.1, ?_, ?_, ?_, ?_, ?_⟩
    · show alookup p (ids.foldl removeDocStep _).file_docs = none
      rw [hfold.2.1]
      exact alookup_filter_self p s.file_docs
    · intro i hi
      exact hfold.2.2.2.1 i hi
    · intro j hj hl
      exact hfold.2.2.2.2 j hj hl
    · intro j hf
      exact hfold.2.2.1 j hf
    · intro q hq
      show alookup q (ids.foldl removeDocStep _).file_docs = _
      rw [hfold.2.1]
      exact alookup_filter_ne p q hq s.file_docs

/-- `Inner::add_file` preserves well-formedness (when every added
symbol's text tokenizes non-trivially); the file's old un-reused doc ids
end up free; every doc id in the new file entry holds one of the freshly
extracted symbols. -/
theorem add_file_spec (s : InnerState) (p : String) (syms : List CodeSymbol)
    (lang : LanguageTag) (hw : Wf s)
    (hts : ∀ sym ∈ syms, tokenize (symText sym) ≠ []) :
    Wf (s.add_file p syms lang) ∧
      (∀ d ∈ (alookup p s.file_docs).getD [],
        d ∉ (alookup p (s.add_file p syms lang).file_docs).getD [] →
        freeAt (s.add_file p syms lang) d) ∧
      (∀ d ∈ (alookup p (s.add_file p syms lang).file_docs).getD [],
        ∃ sym ∈ syms, (s.add_file p syms lang).symbols.getD d none = some sym) := by
  obtain ⟨hw1, halkp1, hfree1, hlive1, hfreeP1, halkq1⟩ := remove_file_spec s p hw
  by_cases hsy : syms.isEmpty
  · have hadd : s.add_file p syms lang = s.remove_file p := by
      unfold InnerState.add_file
      rw [if_pos hsy]
    rw [hadd]
    refine ⟨hw1, fun d hd _ => hfree1 d hd, ?_⟩
    intro d hd
    rw [halkp1] at hd
    simp at hd
  · have hw2 : Wf { s.remove_file p with stats := { (s.remove_file p).stats with
        languages := bumpLang (s.remove_file p).stats.languages (language_name lang) syms.length,
        total_symbols := (s.remove_file p).stats.total_symbols + syms.length,
        total_files := (s.remove_file p).stats.total_files + 1 } } := hw1
    have hfold := addFold_spec syms syms
      { s.remove_file p with stats := { (s.remove_file p).stats with
          languages := bumpLang (s.remove_file p).stats.languages (language_name lang) syms.length,
          total_symbols := (s.remove_file p).stats.total_symbols + syms.length,
          total_files := (s.remove_file p).stats.total_files + 1 } }
      [] (fun _ hs => hs) hw2 hts List.nodup_nil
      (fun i hi => absurd hi (List.not_mem_nil i))
      (fun i hi => absurd hi (List.not_mem_nil i))
    set s2 : InnerState := { s.remove_file p with stats := { (s.remove_file p).stats with
        languages := bumpLang (s.remove_file p).stats.languages (language_name lang) syms.length,
        total_symbols := (s.remove_file p).stats.total_symbols + syms.length,
        total_files := (s.remove_file p).stats.total_files + 1 } } with hs2
    set r := syms.foldl
      (fun (acc : InnerState × List Nat) sym =>
        ((addDocStep acc.1 sym).1, acc.2 ++ [(addDocStep acc.1 sym).2]))
      (s2, []) with hr
    have hadd : s.add_file p syms lang =
        { r.1 with file_docs := (p, r.2) :: r.1.file_docs.filter (fun e => e.1 ≠ p) } := by
      unfold InnerState.add_file
      rw [if_neg hsy]
    rw [hadd]
    have halknew : alookup p ((p, r.2) :: r.1.file_docs.filter (fun e => e.1 ≠ p)) =
        some r.2 := by
      rw [alookup, if_pos rfl]
    obtain ⟨hfw, hffd, hfnd, hflive, hfnof, _, _, hffree, hfslots⟩ := hfold
    refine ⟨?_, ?_, ?_⟩
    · refine ⟨hfw.1, hfw.2.1, hfw.2.2.1, hfw.2.2.2.1, hfw.2.2.2.2.1, hfw.2.2.2.2.2.1,
        ?_, ?_, ?_⟩
      · show (p :: (r.1.file_docs.filter (fun e => e.1 ≠ p)).map Prod.fst).Nodup
        refine List.nodup_cons.mpr ⟨not_mem_map_fst_filter p _, ?_⟩
        exact (map_fst_filter_sublist _ _).nodup hfw.2.2.2.2.2.2.1
      · intro f hf
        rcases List.mem_cons.mp hf with rfl | hh
        · exact ⟨hfnd, fun i hi => hflive i hi⟩
        · exact hfw.2.2.2.2.2.2.2.1 f (List.mem_of_mem_filter hh)
      · refine List.Pairwise.cons ?_
          (List.Pairwise.sublist (List.filter_sublist _) hfw.2.2.2.2.2.2.2.2)
        intro f hf i hi
        refine hfnof i hi f ?_
        rw [← hffd]
        exact List.mem_of_mem_filter hf
    · intro d hd hdn
      rw [halknew] at hdn
      refine hffree d (hfree1 d hd) ?_
      simpa using hdn
    · intro d hd
      rw [halknew] at hd
      obtain ⟨sym, hsym, hslot⟩ := hfslots d (by simpa using hd) (List.not_mem_nil d)
      exact ⟨sym, hsym, hslot⟩

instance (s : InnerState) (id : Nat) : Decidable (inPostings s id) := by
  unfold inPostings
  exact inferInstance

instance (s : InnerState) (id : Nat) : Decidable (liveAt s id) := by
  unfold liveAt
  exact inferInstance

instance (s : InnerState) (id : Nat) : Decidable (freeAt s id) := by
  unfold freeAt
  exact inferInstance

instance (s : InnerState) : Decidable (C2Invariant s) := by
  unfold C2Invariant
  exact inferInstance

/-- Environments whose extraction results always tokenize non-trivially
(the amendment's proviso). -/
def GoodEnv (env : Env) : Prop :=
  ∀ p, ∀ sym ∈ env.extract p, tokenize (symText sym) ≠ []

/-- The proviso per operation: only operations that index fresh
extraction output need it. -/
def GoodOp : ServiceOp → Prop
  | ServiceOp.reindex env => GoodEnv env
  | ServiceOp.update env _ => GoodEnv env
  | ServiceOp.removeF _ => True
  | ServiceOp.query _ _ => True

theorem walkStep_Wf (env : Env) (st : InnerState) (entry : Option String)
    (hw : Wf st) (hg : GoodEnv env) : Wf (walkStep env st entry) := by
  cases entry with
  | none => exact hw
  | some path =>
    simp only [walkStep]
    by_cases hif : env.isFile path
    · rw [if_pos hif]
      cases env.stat path with
      | some len =>
        simp only []
        by_cases hlen : MAX_FILE_BYTES < len
        · rw [if_pos hlen]
          exact hw
        · rw [if_neg hlen]
          cases detect_language path with
          | none => exact hw
          | some lang =>
            simp only []
            by_cases hr : env.readable path
            · rw [if_pos hr]
              exact (add_file_spec st path (env.extract path) lang hw (hg path)).1
            · rw [if_neg hr]
              exact hw
      | none =>
        simp only []
        cases detect_language path with
        | none => exact hw
        | some lang =>
          simp only []
          by_cases hr : env.readable path
          · rw [if_pos hr]
            exact (add_file_spec st path (env.extract path) lang hw (hg path)).1
          · rw [if_neg hr]
            exact hw
    · rw [if_neg hif]
      exact hw

theorem foldl_walk_Wf (env : Env) (hg : GoodEnv env) :
    ∀ (entries : List (Option String)) (st : InnerState), Wf st →
      Wf (entries.foldl (walkStep env) st)
  | [], _, hw => hw
  | e :: rest, st, hw => by
    simp only [List.foldl_cons]
    exact foldl_walk_Wf env hg rest _ (walkStep_Wf env st e hw hg)

theorem reindexInner_Wf (env : Env) (hg : GoodEnv env) : Wf (reindexInner env) :=
  foldl_walk_Wf env hg env.walk InnerState.new Wf_new

theorem applyOp_Wf (s : InnerState) (op : ServiceOp) (hw : Wf s) (hg : GoodOp op) :
    Wf (applyOp s op) := by
  cases op with
  | reindex env => exact reindexInner_Wf env hg
  | update env p =>
    simp only [applyOp]
    cases detect_language p with
    | none => exact hw
    | some lang =>
      simp only []
      cases env.stat p with
      | none => exact hw
      | some len =>
        simp only []
        by_cases hlen : MAX_FILE_BYTES < len
        · rw [if_pos hlen]
          exact hw
        · rw [if_neg hlen]
          by_cases hr : env.readable p
          · rw [if_pos hr]
            exact (add_file_spec s p (env.extract p) lang hw (hg p)).1
          · rw [if_neg hr]
            exact hw
  | removeF p => exact (remove_file_spec s p hw).1
  | query q k => exact hw

theorem applyOps_Wf_aux :
    ∀ (ops : List ServiceOp) (st : InnerState), Wf st → (∀ op ∈ ops, GoodOp op) →
      Wf (ops.foldl applyOp st)
  | [], _, hw, _ => hw
  | op :: rest, st, hw, hops => by
    simp only [List.foldl_cons]
    exact applyOps_Wf_aux rest _ (applyOp_Wf st op hw (hops op (List.mem_cons_self _ _)))
      (fun o ho => hops o (List.mem_cons_of_mem _ ho))

theorem applyOps_Wf (ops : List ServiceOp) (hops : ∀ op ∈ ops, GoodOp op) :
    Wf (applyOps ops) :=
  applyOps_Wf_aux ops InnerState.new Wf_new hops

/-! ### Claim C2: the live/free discipline over operation sequences -/

/-- An environment whose single extracted symbol carries no indexable
token: the name is one character, below the length floor, and each word of
the indexed text is a stop word or too short, so tokenize returns the empty
list and add_document records length 0 for a slot that is neither live nor
free. -/
def envBad : Env :=
  { walk := [some "a.rs"],
    isFile := fun _ => true,
    stat := fun _ => some 10,
    readable := fun _ => true,
    extract := fun _ =>
      [{ file_path := "a.rs", line_start := 1, line_end := 1, name := "x",
         kind := SymbolKind.Function, content := "fn x()\x7b\x7d", language := "rust" }],
    elapsed := 0 }

/-- An environment meeting the amended proviso: the extracted symbol's
indexed text tokenizes to a non-empty token list. -/
def envGood : Env :=
  { walk := [some "b.rs"],
    isFile := fun _ => true,
    stat := fun _ => some 10,
    readable := fun _ => true,
    extract := fun _ =>
      [{ file_path := "b.rs", line_start := 1, line_end := 2, name := "login",
         kind := SymbolKind.Function, content := "fn login()", language := "rust" }],
    elapsed := 0 }

/-- C2 (counterexample): one reindex over `envBad` allocates doc id 0 in a
state where it is neither live (its recorded length is 0) nor free (its
slot holds a symbol and the free list is empty), so the claimed invariant
fails after an admissible operation sequence. -/
theorem service_live_free_cex :
    0 < (applyOps [ServiceOp.reindex envBad]).next_id ∧
      ¬ liveAt (applyOps [ServiceOp.reindex envBad]) 0 ∧
      ¬ freeAt (applyOps [ServiceOp.reindex envBad]) 0 ∧
      ¬ C2Invariant (applyOps [ServiceOp.reindex envBad]) := by
  decide

/-- C2 (amended): after every sequence of index-service operations in
which each indexing operation only ever extracts symbols whose indexed
text tokenizes non-trivially, every allocated doc id is either live
(positive length, stored symbol, off the free list) or free (zero length,
empty slot, scrubbed from every posting list, on the free list), and no
term's posting list mentions a doc id twice.  The proviso rules out
symbols that tokenize to nothing, e.g. a one-letter function name, whose
doc id is left in a third state: length 0 yet slot occupied (see the
counterexample). -/
theorem service_live_free_invariant (ops : List ServiceOp)
    (hops : ∀ op ∈ ops, GoodOp op) : C2Invariant (applyOps ops) := by
  have hw := applyOps_Wf ops hops
  exact ⟨hw.2.2.1, fun e he => (hw.2.2.2.1 e he).1⟩

theorem service_live_free_invariant_witness :
    C2Invariant (applyOps [ServiceOp.reindex envGood]) :=
  service_live_free_invariant [ServiceOp.reindex envGood] (by
    intro op hop
    rw [List.mem_singleton] at hop
    subst hop
    show GoodEnv envGood
    intro p sym hs
    simp only [envGood, List.mem_singleton] at hs
    subst hs
    decide)

/-! ### Claim C6: error classes of the public API -/

/-- An environment whose metadata lookup fails for every path (the
`fs::metadata` error branch of `update_file`). -/
def envStatFail : Env :=
  { walk := [],
    isFile := fun _ => true,
    stat := fun _ => none,
    readable := fun _ => true,
    extract := fun _ => [],
    elapsed := 0 }

/-- C6 (counterexample): with an unpoisoned lock, `update_file` on a
supported extension whose metadata lookup fails returns the `stat:` error
— a per-file condition propagated as an error outside the lock-failure
class (by contrast, `index_project` silently skips walk entries whose
metadata fails). -/
theorem update_file_stat_error_cex :
    update_file envStatFail false InnerState.new "a.rs" = Except.error ErrClass.statErr ∧
      ErrClass.statErr ≠ ErrClass.lockErr :=
  ⟨rfl, by decide⟩

/-- C6 (amended): `index_project`, `search`, `remove_file` and `get_stats`
can only fail with the lock-failure class, but `update_file` additionally
propagates its metadata (`stat:`) and read (`read:`) failures, so its
error set is the lock, stat and read classes.  Per-file skip conditions
(walk errors, non-files, oversized files, unsupported extensions, parse
failures — and unstatable or unreadable files during a walk) are absorbed
everywhere else, yet an unstatable or unreadable file handed directly to
`update_file` is an error. -/
theorem api_error_classes (env : Env) (poisoned : Bool) (s : InnerState)
    (p q : String) (k : Nat) (e : ErrClass) :
    (index_project env poisoned = Except.error e → e = ErrClass.lockErr) ∧
    (search_files s poisoned q k = Except.error e → e = ErrClass.lockErr) ∧
    (remove_file poisoned s p = Except.error e → e = ErrClass.lockErr) ∧
    (get_stats poisoned s = Except.error e → e = ErrClass.lockErr) ∧
    (update_file env poisoned s p = Except.error e →
      e = ErrClass.lockErr ∨ e = ErrClass.statErr ∨ e = ErrClass.readErr) := by
  have hup : update_file env poisoned s p = Except.error e →
      e = ErrClass.lockErr ∨ e = ErrClass.statErr ∨ e = ErrClass.readErr := by
    intro h
    unfold update_file at h
    split at h
    · exact Except.noConfusion h
    · split at h
      · injection h with h
        exact Or.inr (Or.inl h.symm)
      · split at h
        · exact Except.noConfusion h
        · split at h
          · split at h
            · injection h with h
              exact Or.inl h.symm
            · exact Except.noConfusion h
          · injection h with h
            exact Or.inr (Or.inr h.symm)
  cases poisoned with
  | false =>
    refine ⟨?_, ?_, ?_, ?_, hup⟩
    · intro h
      simp [index_project] at h
    · intro h
      simp [search_files] at h
    · intro h
      simp [remove_file] at h
    · intro h
      simp [get_stats] at h
  | true =>
    refine ⟨?_, ?_, ?_, ?_, hup⟩
    · intro h
      unfold index_project at h
      rw [if_pos rfl] at h
      injection h with h
      exact h.symm
    · intro h
      unfold search_files at h
      rw [if_pos rfl] at h
      injection h with h
      exact h.symm
    · intro h
      unfold remove_file at h
      rw [if_pos rfl] at h
      injection h with h
      exact h.symm
    · intro h
      unfold get_stats at h
      rw [if_pos rfl] at h
      injection h with h
      exact h.symm

theorem api_error_classes_witness :
    update_file envStatFail false InnerState.new "a.rs" = Except.error ErrClass.statErr ∧
      (ErrClass.statErr = ErrClass.lockErr ∨ ErrClass.statErr = ErrClass.statErr ∨
        ErrClass.statErr = ErrClass.readErr) :=
  ⟨rfl, (api_error_classes envStatFail false InnerState.new "a.rs" "" 0
    ErrClass.statErr).2.2.2.2 rfl⟩


/-! ### The reachable-state invariant (no tokenization proviso)

`Wf` above demands every allocated id be live or free, which holds only
when extraction output tokenizes non-trivially (claim C2's proviso).  Real
states can also hold *occupied-but-unsearchable* ids: a symbol whose text
tokenizes to nothing gets recorded length 0, keeps its slot, and appears
in no posting list.  `WfReach` relaxes *live* to *occupied*; it is
preserved by every operation with no proviso, so it holds in every
reachable state. -/

/-- An *occupied* doc id: stored symbol, off the free list, and if its
recorded length is 0 (a zero-token symbol) it appears in no posting list.
Live ids are occupied; so are zero-token limbo ids. -/
def occupiedAt (s : InnerState) (id : Nat) : Prop :=
  (s.symbols.getD id none).isSome = true ∧ id ∉ s.free_ids ∧
    (lenAt s id = 0 → ¬ inPostings s id)

/-- The reachable-state invariant: `Wf` with *live* relaxed to
*occupied*. -/
def WfReach (s : InnerState) : Prop :=
  s.symbols.length = s.next_id ∧
  s.bm25.doc_lengths.length ≤ s.next_id ∧
  (∀ id, id < s.next_id → occupiedAt s id ∨ freeAt s id) ∧
  (∀ e ∈ s.bm25.inverted_index, (e.2.map Prod.fst).Nodup ∧ ∀ p ∈ e.2, p.1 < s.next_id) ∧
  s.free_ids.Nodup ∧
  (∀ id ∈ s.free_ids, id < s.next_id) ∧
  (s.file_docs.map Prod.fst).Nodup ∧
  (∀ f ∈ s.file_docs, f.2.Nodup ∧ ∀ id ∈ f.2, occupiedAt s id) ∧
  List.Pairwise (fun f g => ∀ id ∈ f.2, id ∉ g.2) s.file_docs

theorem WfReach_new : WfReach InnerState.new := by
  refine ⟨rfl, by decide, ?_, by simp [InnerState.new, Bm25Index.new], by simp [InnerState.new],
    by simp [InnerState.new], by simp [InnerState.new], by simp [InnerState.new],
    by simp [InnerState.new]⟩
  intro id h
  simp [InnerState.new] at h

/-- `addedState_spec` without the non-empty-token hypothesis: the slot the
id is written to must have been empty, and the id absent from the
postings; the id ends occupied (not necessarily live). -/
theorem addedState_specR (st : InnerState) (sym : CodeSymbol) (toks : List String)
    (id : Nat) (free' : List Nat) (nid : Nat) (syms' : List (Option CodeSymbol))
    (hw : WfReach st)
    (hidn : id < nid) (hnn : st.next_id ≤ nid)
    (hlen0 : st.bm25.doc_lengths.getD id 0 = 0)
    (hslot0 : st.symbols.getD id none = none)
    (hnopost : ¬ hasPost st.bm25.inverted_index id)
    (hsl : syms'.length = nid)
    (hsother : ∀ j, j ≠ id → syms'.getD j none = st.symbols.getD j none)
    (hfnd' : free'.Nodup) (hidf : id ∉ free')
    (hfsub : ∀ j, j ∈ free' → j ∈ st.free_ids)
    (hfof : ∀ j, j ∈ st.free_ids → j ≠ id → j ∈ free')
    (hfb' : ∀ j ∈ free', j < nid)
    (hgap : ∀ j, j < nid → j ≠ id → j < st.next_id) :
    WfReach (addedState st sym toks id free' nid syms') ∧
      occupiedAt (addedState st sym toks id free' nid syms') id ∧
      (∀ j, occupiedAt st j → j ≠ id ∧
        occupiedAt (addedState st sym toks id free' nid syms') j) := by
  obtain ⟨hsymlen, hdoclen, hlf, hinv, hfnd, hfb, hkeys, hfiles, hdisj⟩ := hw
  have hlenId : ((growTo st.bm25.doc_lengths (id + 1)).set id toks.length).getD id 0 =
      toks.length := by
    refine getD_set_of_lt _ _ _ _ ?_
    rw [growTo_length]
    omega
  have hlenOther : ∀ j, j ≠ id →
      ((growTo st.bm25.doc_lengths (id + 1)).set id toks.length).getD j 0 =
        st.bm25.doc_lengths.getD j 0 := by
    intro j hj
    rw [getD_set_of_ne _ _ _ _ _ (fun hh => hj hh.symm), growTo_eq,
      getD_append_replicate_zero]
  have hslotId : ((syms'.set id (some sym)).getD id none) = some sym := by
    refine getD_set_of_lt _ _ _ _ ?_
    omega
  have hslotOther : ∀ j, j ≠ id →
      ((syms'.set id (some sym)).getD j none) = st.symbols.getD j none := by
    intro j hj
    rw [getD_set_of_ne _ _ _ _ _ (fun hh => hj hh.symm)]
    exact hsother j hj
  have hpostnew : ∀ j,
      hasPost (addedState st sym toks id free' nid syms').bm25.inverted_index j →
      hasPost st.bm25.inverted_index j ∨ j = id := by
    intro j hj
    exact hasPost_pushMany id _ _ _ j hj
  have hoccNew : occupiedAt (addedState st sym toks id free' nid syms') id := by
    refine ⟨?_, hidf, ?_⟩
    · show ((syms'.set id (some sym)).getD id none).isSome = true
      rw [hslotId]
      rfl
    · intro h0 hp
      have hx : lenAt (addedState st sym toks id free' nid syms') id = toks.length := hlenId
      have htl : toks.length = 0 := by omega
      have htoks : toks = [] := List.length_eq_zero.mp htl
      subst htoks
      exact hnopost hp
  have hocc' : ∀ j, occupiedAt st j → j ≠ id ∧
      occupiedAt (addedState st sym toks id free' nid syms') j := by
    intro j hoj
    have hjne : j ≠ id := by
      intro hh
      subst hh
      have h1 : (st.symbols.getD j none).isSome = true := hoj.1
      rw [hslot0] at h1
      simp at h1
    refine ⟨hjne, ?_, ?_, ?_⟩
    · show ((syms'.set id (some sym)).getD j none).isSome = true
      rw [hslotOther j hjne]
      exact hoj.1
    · show j ∉ free'
      intro hjf
      exact hoj.2.1 (hfsub j hjf)
    · intro h0 hp
      have hx : lenAt (addedState st sym toks id free' nid syms') j =
          st.bm25.doc_lengths.getD j 0 := hlenOther j hjne
      have h0' : st.bm25.doc_lengths.getD j 0 = 0 := by omega
      rcases hpostnew j hp with hp2 | hp2
      · exact hoj.2.2 h0' hp2
      · exact hjne hp2
  have hfree' : ∀ j, j ≠ id → freeAt st j →
      freeAt (addedState st sym toks id free' nid syms') j := by
    intro j hjne hf
    refine ⟨?_, ?_, ?_, hfof j hf.2.2.2 hjne⟩
    · show ((growTo st.bm25.doc_lengths (id + 1)).set id toks.length).getD j 0 = 0
      rw [hlenOther j hjne]
      exact hf.1
    · show (syms'.set id (some sym)).getD j none = none
      rw [hslotOther j hjne]
      exact hf.2.1
    · intro hp
      rcases hpostnew j hp with hp2 | hp2
      · exact hf.2.2.1 hp2
      · exact hjne hp2
  refine ⟨⟨?_, ?_, ?_, ?_, hfnd', hfb', hkeys, ?_, hdisj⟩, hoccNew, hocc'⟩
  · show (syms'.set id (some sym)).length = nid
    rw [List.length_set]
    exact hsl
  · show ((growTo st.bm25.doc_lengths (id + 1)).set id toks.length).length ≤ nid
    rw [List.length_set, growTo_length]
    omega
  · intro j hj
    by_cases hjid : j = id
    · subst hjid
      exact Or.inl hoccNew
    · by_cases hjold : j < st.next_id
      · rcases hlf j hjold with ho | hf
        · exact Or.inl (hocc' j ho).2
        · exact Or.inr (hfree' j hjid hf)
      · exact absurd (hgap j hj hjid) hjold
  · intro e he
    show (e.2.map Prod.fst).Nodup ∧ ∀ p ∈ e.2, p.1 < nid
    refine pushMany_entries id _ nid hidn _ _ (List.nodup_dedup _) ?_ e he
    intro e' he'
    refine ⟨(hinv e' he').1, fun p hp => lt_of_lt_of_le ((hinv e' he').2 p hp) hnn,
      fun hdm => ?_⟩
    refine absurd ?_ hnopost
    obtain ⟨p, hp, hpe⟩ := List.mem_map.mp hdm
    exact ⟨e', he', p, hp, hpe⟩
  · intro f hf
    refine ⟨(hfiles f hf).1, fun j hjf => ?_⟩
    exact (hocc' j ((hfiles f hf).2 j hjf)).2

/-- One `add_file` loop iteration, no tokenization proviso: preserves the
reachable-state invariant, makes the allocated id occupied (it was not
occupied before), keeps every occupied doc occupied, leaves the file map
alone. -/
theorem addDocStep_specR (st : InnerState) (sym : CodeSymbol) (hw : WfReach st) :
    WfReach (addDocStep st sym).1 ∧
      occupiedAt (addDocStep st sym).1 (addDocStep st sym).2 ∧
      ¬ occupiedAt st (addDocStep st sym).2 ∧
      (addDocStep st sym).1.file_docs = st.file_docs ∧
      (∀ j, occupiedAt st j → j ≠ (addDocStep st sym).2 ∧
        occupiedAt (addDocStep st sym).1 j) := by
  rcases hfree : st.free_ids with _ | ⟨id, rest⟩
  case cons =>
    have hidn : id < st.next_id :=
      hw.2.2.2.2.2.1 id (by rw [hfree]; exact List.mem_cons_self _ _)
    have hfreeAt : freeAt st id := by
      rcases hw.2.2.1 id hidn with ho | hf
      · exact absurd (by rw [hfree]; exact List.mem_cons_self _ _) ho.2.1
      · exact hf
    have hndfree := hw.2.2.2.2.1
    rw [hfree] at hndfree
    have hbm := add_document_not_live st.bm25 id (tokenize (symText sym)) hfreeAt.1
    have hstep : addDocStep st sym =
        (addedState st sym (tokenize (symText sym)) id rest st.next_id st.symbols, id) := by
      unfold addDocStep InnerState.alloc_id addedState
      rw [hfree]
      simp only []
      rw [hbm]
    have hmain := addedState_specR st sym (tokenize (symText sym)) id rest st.next_id
      st.symbols hw hidn (le_refl _) hfreeAt.1 hfreeAt.2.1 hfreeAt.2.2.1 hw.1
      (fun _ _ => rfl) (List.nodup_cons.mp hndfree).2 (List.nodup_cons.mp hndfree).1
      (fun j hj => by rw [hfree]; exact List.mem_cons_of_mem _ hj)
      (fun j hj hne => by
        rw [hfree] at hj
        rcases List.mem_cons.mp hj with hh | hh
        · exact absurd hh hne
        · exact hh)
      (fun j hj => hw.2.2.2.2.2.1 j (by rw [hfree]; exact List.mem_cons_of_mem _ hj))
      (fun j hj _ => hj)
    rw [hstep]
    refine ⟨hmain.1, hmain.2.1, ?_, rfl, hmain.2.2⟩
    show ¬ occupiedAt st id
    intro ho
    have h1 : (st.symbols.getD id none).isSome = true := ho.1
    rw [hfreeAt.2.1] at h1
    simp at h1
  case nil =>
    have hlen0 : st.bm25.doc_lengths.getD st.next_id 0 = 0 :=
      getD_ge_length 0 _ _ hw.2.1
    have hslot0 : st.symbols.getD st.next_id none = none :=
      getD_ge_length none _ _ (le_of_eq hw.1)
    have hnopost : ¬ hasPost st.bm25.inverted_index st.next_id := by
      rintro ⟨e, he, p, hp, hpj⟩
      have := (hw.2.2.2.1 e he).2 p hp
      omega
    have hbm := add_document_not_live st.bm25 st.next_id (tokenize (symText sym)) hlen0
    have hstep : addDocStep st sym =
        (addedState st sym (tokenize (symText sym)) st.next_id [] (st.next_id + 1)
          (resizeSlots st.symbols (st.next_id + 1)), st.next_id) := by
      unfold addDocStep InnerState.alloc_id addedState
      rw [hfree]
      simp only []
      rw [hbm]
    have hmain := addedState_specR st sym (tokenize (symText sym)) st.next_id []
      (st.next_id + 1) (resizeSlots st.symbols (st.next_id + 1)) hw
      (Nat.lt_succ_self _) (Nat.le_succ _) hlen0 hslot0 hnopost
      (resizeSlots_length _ _ (by rw [hw.1]; omega))
      (fun j _ => by
        rw [resizeSlots_grow _ _ (by rw [hw.1]; omega), getD_append_replicate])
      List.nodup_nil (List.not_mem_nil _)
      (fun j hj => absurd hj (List.not_mem_nil j))
      (fun j hj _ => by rw [hfree] at hj; exact absurd hj (List.not_mem_nil j))
      (fun j hj => absurd hj (List.not_mem_nil j))
      (fun j hj hne => by omega)
    rw [hstep]
    refine ⟨hmain.1, hmain.2.1, ?_, rfl, hmain.2.2⟩
    show ¬ occupiedAt st st.next_id
    intro ho
    have h1 : (st.symbols.getD st.next_id none).isSome = true := ho.1
    rw [hslot0] at h1
    simp at h1

/-- The teardown step on a zero-length occupied id: the BM25 teardown
no-ops, the slot is cleared and the id pushed on the free list. -/
theorem removeDocStep_eq0 (st : InnerState) (id : Nat) (sym0 : CodeSymbol)
    (h0 : st.bm25.doc_lengths.getD id 0 = 0)
    (hslotlen : id < st.symbols.length)
    (hsym0 : st.symbols.getD id none = some sym0) :
    removeDocStep st id =
      { st with
        symbols := st.symbols.set id none,
        stats := { st.stats with
          languages := decLang st.stats.languages sym0.language,
          total_symbols := st.stats.total_symbols - 1 },
        free_ids := id :: st.free_ids } := by
  have hbm : st.bm25.remove_document id = st.bm25 := by
    unfold Bm25Index.remove_document
    rw [if_pos (Or.inr h0)]
  unfold removeDocStep
  rw [hbm]
  simp only []
  rw [if_pos hslotlen, hsym0]

/-- One `remove_file` loop iteration on an occupied id outside the file
map: preserves the reachable-state invariant, frees the id, keeps other
occupied ids occupied and free ids free; the file map is untouched. -/
theorem removeDocStep_specR (st : InnerState) (id : Nat) (hw : WfReach st)
    (hocc : occupiedAt st id)
    (hnof : ∀ f ∈ st.file_docs, id ∉ f.2) :
    WfReach (removeDocStep st id) ∧ freeAt (removeDocStep st id) id ∧
      (removeDocStep st id).file_docs = st.file_docs ∧
      (∀ j, j ≠ id → occupiedAt st j → occupiedAt (removeDocStep st id) j) ∧
      (∀ j, freeAt st j → freeAt (removeDocStep st id) j) := by
  obtain ⟨hsymlen, hdoclen, hlf, hinv, hfnd, hfb, hkeys, hfiles, hdisj⟩ := hw
  obtain ⟨hsome, hnfree, hcond⟩ := hocc
  have hslotlen : id < st.symbols.length := isSome_getD_lt_length _ _ hsome
  have hidn : id < st.next_id := by rw [← hsymlen]; exact hslotlen
  obtain ⟨sym0, hsym0⟩ := Option.isSome_iff_exists.mp hsome
  by_cases hpos : 0 < st.bm25.doc_lengths.getD id 0
  · rw [removeDocStep_eq st id sym0 hpos hslotlen hsym0]
    have hrange : id < st.bm25.doc_lengths.length := lt_length_of_getD_pos _ _ hpos
    have hlenSelf : (st.bm25.doc_lengths.set id 0).getD id 0 = 0 :=
      getD_set_of_lt _ _ _ _ hrange
    have hlenOther : ∀ j, j ≠ id →
        (st.bm25.doc_lengths.set id 0).getD j 0 = st.bm25.doc_lengths.getD j 0 :=
      fun j hj => getD_set_of_ne _ _ _ _ _ (fun hh => hj hh.symm)
    have hslotSelf : (st.symbols.set id none).getD id none = none :=
      getD_set_of_lt _ _ _ _ hslotlen
    have hslotOther : ∀ j, j ≠ id →
        (st.symbols.set id none).getD j none = st.symbols.getD j none :=
      fun j hj => getD_set_of_ne _ _ _ _ _ (fun hh => hj hh.symm)
    have hfreeSelf : freeAt (removedState st id sym0) id := by
      refine ⟨hlenSelf, hslotSelf, ?_, List.mem_cons_self _ _⟩
      exact not_hasPost_scrub_self _ _
    have hoccOther : ∀ j, j ≠ id → occupiedAt st j →
        occupiedAt (removedState st id sym0) j := by
      intro j hj ho
      refine ⟨?_, ?_, ?_⟩
      · show ((st.symbols.set id none).getD j none).isSome = true
        rw [hslotOther j hj]
        exact ho.1
      · show j ∉ id :: st.free_ids
        intro hh
        rcases List.mem_cons.mp hh with hh | hh
        · exact hj hh
        · exact ho.2.1 hh
      · intro h0 hp
        have hx : lenAt (removedState st id sym0) j =
            st.bm25.doc_lengths.getD j 0 := hlenOther j hj
        have h0' : st.bm25.doc_lengths.getD j 0 = 0 := by omega
        exact ho.2.2 h0' (hasPost_scrub _ _ _ hp).1
    have hfreeOther : ∀ j, freeAt st j → freeAt (removedState st id sym0) j := by
      intro j hf
      have hj : j ≠ id := by
        intro hh
        subst hh
        have h0 : st.bm25.doc_lengths.getD j 0 = 0 := hf.1
        omega
      refine ⟨?_, ?_, ?_, List.mem_cons_of_mem _ hf.2.2.2⟩
      · show (st.bm25.doc_lengths.set id 0).getD j 0 = 0
        rw [hlenOther j hj]
        exact hf.1
      · show (st.symbols.set id none).getD j none = none
        rw [hslotOther j hj]
        exact hf.2.1
      · intro hp
        exact hf.2.2.1 (hasPost_scrub _ _ _ hp).1
    refine ⟨⟨?_, ?_, ?_, ?_, ?_, ?_, hkeys, ?_, hdisj⟩, hfreeSelf, rfl, hoccOther, hfreeOther⟩
    · show (st.symbols.set id none).length = st.next_id
      rw [List.length_set]
      exact hsymlen
    · show (st.bm25.doc_lengths.set id 0).length ≤ st.next_id
      rw [List.length_set]
      exact hdoclen
    · intro j hjn
      by_cases hj : j = id
      · subst hj
        exact Or.inr hfreeSelf
      · rcases hlf j hjn with ho | hf
        · exact Or.inl (hoccOther j hj ho)
        · exact Or.inr (hfreeOther j hf)
    · exact scrub_entries _ _ _ hinv
    · exact List.nodup_cons.mpr ⟨hnfree, hfnd⟩
    · intro j hj
      rcases List.mem_cons.mp hj with rfl | hh
      · exact hidn
      · exact hfb j hh
    · intro f hf
      refine ⟨(hfiles f hf).1, fun j hjf => ?_⟩
      refine hoccOther j ?_ ((hfiles f hf).2 j hjf)
      intro hh
      subst hh
      exact hnof f hf hjf
  · have h0 : st.bm25.doc_lengths.getD id 0 = 0 := by omega
    have hnopost : ¬ inPostings st id := hcond h0
    rw [removeDocStep_eq0 st id sym0 h0 hslotlen hsym0]
    have hslotSelf : (st.symbols.set id none).getD id none = none :=
      getD_set_of_lt _ _ _ _ hslotlen
    have hslotOther : ∀ j, j ≠ id →
        (st.symbols.set id none).getD j none = st.symbols.getD j none :=
      fun j hj => getD_set_of_ne _ _ _ _ _ (fun hh => hj hh.symm)
    have hfreeSelf : freeAt
        { st with
          symbols := st.symbols.set id none,
          stats := { st.stats with
            languages := decLang st.stats.languages sym0.language,
            total_symbols := st.stats.total_symbols - 1 },
          free_ids := id :: st.free_ids } id :=
      ⟨h0, hslotSelf, hnopost, List.mem_cons_self _ _⟩
    have hoccOther : ∀ j, j ≠ id → occupiedAt st j →
        occupiedAt
          { st with
            symbols := st.symbols.set id none,
            stats := { st.stats with
              languages := decLang st.stats.languages sym0.language,
              total_symbols := st.stats.total_symbols - 1 },
            free_ids := id :: st.free_ids } j := by
      intro j hj ho
      refine ⟨?_, ?_, ?_⟩
      · show ((st.symbols.set id none).getD j none).isSome = true
        rw [hslotOther j hj]
        exact ho.1
      · show j ∉ id :: st.free_ids
        intro hh
        rcases List.mem_cons.mp hh with hh | hh
        · exact hj hh
        · exact ho.2.1 hh
      · intro hlen hp
        exact ho.2.2 hlen hp
    have hfreeOther : ∀ j, freeAt st j →
        freeAt
          { st with
            symbols := st.symbols.set id none,
            stats := { st.stats with
              languages := decLang st.stats.languages sym0.language,
              total_symbols := st.stats.total_symbols - 1 },
            free_ids := id :: st.free_ids } j := by
      intro j hf
      have hj : j ≠ id := by
        intro hh
        subst hh
        rw [hf.2.1] at hsym0
        exact Option.noConfusion hsym0
      refine ⟨hf.1, ?_, hf.2.2.1, List.mem_cons_of_mem _ hf.2.2.2⟩
      show (st.symbols.set id none).getD j none = none
      rw [hslotOther j hj]
      exact hf.2.1
    refine ⟨⟨?_, hdoclen, ?_, hinv, ?_, ?_, hkeys, ?_, hdisj⟩, hfreeSelf, rfl,
      hoccOther, hfreeOther⟩
    · show (st.symbols.set id none).length = st.next_id
      rw [List.length_set]
      exact hsymlen
    · intro j hjn
      by_cases hj : j = id
      · subst hj
        exact Or.inr hfreeSelf
      · rcases hlf j hjn with ho | hf
        · exact Or.inl (hoccOther j hj ho)
        · exact Or.inr (hfreeOther j hf)
    · exact List.nodup_cons.mpr ⟨hnfree, hfnd⟩
    · intro j hj
      rcases List.mem_cons.mp hj with rfl | hh
      · exact hidn
      · exact hfb j hh
    · intro f hf
      refine ⟨(hfiles f hf).1, fun j hjf => ?_⟩
      refine hoccOther j ?_ ((hfiles f hf).2 j hjf)
      intro hh
      subst hh
      exact hnof f hf hjf

/-- The fold of `removeDocStep` over a duplicate-free list of occupied
ids outside the file map. -/
theorem removeFold_specR :
    ∀ (ids : List Nat) (st : InnerState), WfReach st → ids.Nodup →
      (∀ i ∈ ids, occupiedAt st i) →
      (∀ i ∈ ids, ∀ f ∈ st.file_docs, i ∉ f.2) →
      WfReach (ids.foldl removeDocStep st) ∧
        (ids.foldl removeDocStep st).file_docs = st.file_docs ∧
        (∀ j, freeAt st j → freeAt (ids.foldl removeDocStep st) j) ∧
        (∀ i ∈ ids, freeAt (ids.foldl removeDocStep st) i) ∧
        (∀ j, j ∉ ids → occupiedAt st j → occupiedAt (ids.foldl removeDocStep st) j)
  | [], st, hw, _, _, _ => ⟨hw, rfl, fun _ hf => hf, fun i hi => absurd hi (List.not_mem_nil i),
      fun j _ ho => ho⟩
  | i :: rest, st, hw, hnd, hocc, hnof => by
    have hstep := removeDocStep_specR st i hw (hocc i (List.mem_cons_self _ _))
      (fun f hf => hnof i (List.mem_cons_self _ _) f hf)
    obtain ⟨hw', hfree', hfd', hoccO, hfreeO⟩ := hstep
    have hrest := removeFold_specR rest (removeDocStep st i) hw'
      (List.nodup_cons.mp hnd).2
      (fun j hj => hoccO j
        (fun hh => (List.nodup_cons.mp hnd).1 (hh ▸ hj))
        (hocc j (List.mem_cons_of_mem _ hj)))
      (fun j hj f hf => by
        rw [hfd'] at hf
        exact hnof j (List.mem_cons_of_mem _ hj) f hf)
    simp only [List.foldl_cons]
    refine ⟨hrest.1, by rw [hrest.2.1, hfd'], ?_, ?_, ?_⟩
    · intro j hf
      exact hrest.2.2.1 j (hfreeO j hf)
    · intro j hj
      rcases List.mem_cons.mp hj with rfl | hh
      · exact hrest.2.2.1 j hfree'
      · exact hrest.2.2.2.1 j hh
    · intro j hj ho
      refine hrest.2.2.2.2 j (fun hh => hj (List.mem_cons_of_mem _ hh)) ?_
      exact hoccO j (fun hh => hj (hh ▸ List.mem_cons_self _ _)) ho

theorem addDocStep_slotsR (st : InnerState) (sym : CodeSymbol) (hw : WfReach st) :
    (addDocStep st sym).1.symbols.getD (addDocStep st sym).2 none = some sym ∧
      ∀ j, j ≠ (addDocStep st sym).2 →
        (addDocStep st sym).1.symbols.getD j none = st.symbols.getD j none := by
  rcases hfree : st.free_ids with _ | ⟨id, rest⟩
  case cons =>
    have hidn : id < st.next_id :=
      hw.2.2.2.2.2.1 id (by rw [hfree]; exact List.mem_cons_self _ _)
    simp only [addDocStep, InnerState.alloc_id, hfree]
    constructor
    · exact getD_set_of_lt _ _ _ _ (by rw [hw.1]; omega)
    · intro j hj
      exact getD_set_of_ne _ _ _ _ _ (fun hh => hj hh.symm)
  case nil =>
    simp only [addDocStep, InnerState.alloc_id, hfree]
    constructor
    · exact getD_set_of_lt _ _ _ _ (by rw [resizeSlots_length _ _ (by rw [hw.1]; omega)]; omega)
    · intro j hj
      rw [getD_set_of_ne _ _ _ _ _ (fun hh => hj hh.symm),
        resizeSlots_grow _ _ (by rw [hw.1]; omega), getD_append_replicate]

/-- A free id other than the allocated one stays free across one
`addDocStep` (no tokenization proviso). -/
theorem addDocStep_free_presR (st : InnerState) (sym : CodeSymbol) (hw : WfReach st)
    (j : Nat) (hf : freeAt st j)
    (hne : j ≠ (addDocStep st sym).2) : freeAt (addDocStep st sym).1 j := by
  have hspec := addDocStep_specR st sym hw
  have hjlt : j < st.next_id := hw.2.2.2.2.2.1 j hf.2.2.2
  have hmono := addDocStep_next_id st sym
  rcases hspec.1.2.2.1 j (by omega) with ho | hf2
  · exfalso
    have hslot := (addDocStep_slotsR st sym hw).2 j hne
    have := ho.1
    rw [hslot, hf.2.1] at this
    simp at this
  · exact hf2

theorem addFold_specR (syms0 : List CodeSymbol) :
    ∀ (syms : List CodeSymbol) (st : InnerState) (ids : List Nat),
      (∀ sym ∈ syms, sym ∈ syms0) →
      WfReach st →
      ids.Nodup → (∀ i ∈ ids, occupiedAt st i) →
      (∀ i ∈ ids, ∀ f ∈ st.file_docs, i ∉ f.2) →
      WfReach (syms.foldl
          (fun (acc : InnerState × List Nat) sym =>
            ((addDocStep acc.1 sym).1, acc.2 ++ [(addDocStep acc.1 sym).2]))
          (st, ids)).1 ∧
      (syms.foldl
          (fun (acc : InnerState × List Nat) sym =>
            ((addDocStep acc.1 sym).1, acc.2 ++ [(addDocStep acc.1 sym).2]))
          (st, ids)).1.file_docs = st.file_docs ∧
      (syms.foldl
          (fun (acc : InnerState × List Nat) sym =>
            ((addDocStep acc.1 sym).1, acc.2 ++ [(addDocStep acc.1 sym).2]))
          (st, ids)).2.Nodup ∧
      (∀ i ∈ (syms.foldl
          (fun (acc : InnerState × List Nat) sym =>
            ((addDocStep acc.1 sym).1, acc.2 ++ [(addDocStep acc.1 sym).2]))
          (st, ids)).2, occupiedAt (syms.foldl
          (fun (acc : InnerState × List Nat) sym =>
            ((addDocStep acc.1 sym).1, acc.2 ++ [(addDocStep acc.1 sym).2]))
          (st, ids)).1 i) ∧
      (∀ i ∈ (syms.foldl
          (fun (acc : InnerState × List Nat) sym =>
            ((addDocStep acc.1 sym).1, acc.2 ++ [(addDocStep acc.1 sym).2]))
          (st, ids)).2, ∀ f ∈ st.file_docs, i ∉ f.2) ∧
      (∀ i ∈ ids, i ∈ (syms.foldl
          (fun (acc : InnerState × List Nat) sym =>
            ((addDocStep acc.1 sym).1, acc.2 ++ [(addDocStep acc.1 sym).2]))
          (st, ids)).2) ∧
      (∀ i ∈ ids, (syms.foldl
          (fun (acc : InnerState × List Nat) sym =>
            ((addDocStep acc.1 sym).1, acc.2 ++ [(addDocStep acc.1 sym).2]))
          (st, ids)).1.symbols.getD i none = st.symbols.getD i none) ∧
      (∀ j, freeAt st j → j ∉ (syms.foldl
          (fun (acc : InnerState × List Nat) sym =>
            ((addDocStep acc.1 sym).1, acc.2 ++ [(addDocStep acc.1 sym).2]))
          (st, ids)).2 → freeAt (syms.foldl
          (fun (acc : InnerState × List Nat) sym =>
            ((addDocStep acc.1 sym).1, acc.2 ++ [(addDocStep acc.1 sym).2]))
          (st, ids)).1 j) ∧
      (∀ i ∈ (syms.foldl
          (fun (acc : InnerState × List Nat) sym =>
            ((addDocStep acc.1 sym).1, acc.2 ++ [(addDocStep acc.1 sym).2]))
          (st, ids)).2, i ∉ ids →
        ∃ sym ∈ syms0, (syms.foldl
          (fun (acc : InnerState × List Nat) sym =>
            ((addDocStep acc.1 sym).1, acc.2 ++ [(addDocStep acc.1 sym).2]))
          (st, ids)).1.symbols.getD i none = some sym)
  | [], st, ids, _, hw, hnd, hocci, hnof =>
    ⟨hw, rfl, hnd, hocci, hnof, fun i hi => hi, fun _ _ => rfl,
      fun _ hf _ => hf, fun i hi hni => absurd hi hni⟩
  | sym :: rest, st, ids, hsub, hw, hnd, hocci, hnof => by
    have hstep := addDocStep_specR st sym hw
    obtain ⟨hw', hoccnew, hnotocc, hfd', hoccO⟩ := hstep
    have hslots := addDocStep_slotsR st sym hw
    have hnewid : (addDocStep st sym).2 ∉ ids := fun hh => hnotocc (hocci _ hh)
    have hndnew : (ids ++ [(addDocStep st sym).2]).Nodup := by
      refine List.nodup_append.mpr ⟨hnd, by simp, ?_⟩
      intro a ha hb
      simp at hb
      subst hb
      exact hnewid ha
    have hrest := addFold_specR syms0 rest (addDocStep st sym).1
      (ids ++ [(addDocStep st sym).2])
      (fun s hs => hsub s (List.mem_cons_of_mem _ hs))
      hw'
      hndnew
      (by
        intro i hi
        rcases List.mem_append.mp hi with hh | hh
        · exact (hoccO i (hocci i hh)).2
        · rcases List.mem_singleton.mp hh with rfl
          exact hoccnew)
      (by
        intro i hi f hf
        rw [hfd'] at hf
        rcases List.mem_append.mp hi with hh | hh
        · exact hnof i hh f hf
        · rcases List.mem_singleton.mp hh with rfl
          intro hmem
          exact hnotocc ((hw.2.2.2.2.2.2.2.1 f hf).2 _ hmem))
    simp only [List.foldl_cons]
    refine ⟨hrest.1, by rw [hrest.2.1, hfd'], hrest.2.2.1, hrest.2.2.2.1, ?_, ?_, ?_, ?_, ?_⟩
    · intro i hi f hf
      refine hrest.2.2.2.2.1 i hi f ?_
      rw [hfd']
      exact hf
    · intro i hi
      exact hrest.2.2.2.2.2.1 i (List.mem_append.mpr (Or.inl hi))
    · intro i hi
      rw [hrest.2.2.2.2.2.2.1 i (List.mem_append.mpr (Or.inl hi))]
      exact hslots.2 i (fun hh => hnotocc (hh ▸ hocci i hi))
    · intro j hf hj
      have hjnew : j ≠ (addDocStep st sym).2 := by
        intro hh
        refine hj ?_
        rw [hh]
        exact hrest.2.2.2.2.2.1 _ (List.mem_append.mpr (Or.inr (List.mem_singleton.mpr rfl)))
      refine hrest.2.2.2.2.2.2.2.1 j ?_ hj
      exact addDocStep_free_presR st sym hw j hf hjnew
    · intro i hi hni
      by_cases hinew : i = (addDocStep st sym).2
      · subst hinew
        refine ⟨sym, hsub sym (List.mem_cons_self _ _), ?_⟩
        rw [hrest.2.2.2.2.2.2.1 _ (List.mem_append.mpr (Or.inr (List.mem_singleton.mpr rfl)))]
        exact hslots.1
      · refine hrest.2.2.2.2.2.2.2.2 i hi ?_
        intro hh
        rcases List.mem_append.mp hh with h2 | h2
        · exact hni h2
        · exact hinew (List.mem_singleton.mp h2)



theorem WfReach_filter_file (s : InnerState) (p : String) (hw : WfReach s) :
    WfReach { s with file_docs := s.file_docs.filter (fun e => e.1 ≠ p) } := by
  obtain ⟨h1, h2, h3, h4, h5, h6, h7, h8, h9⟩ := hw
  refine ⟨h1, h2, h3, h4, h5, h6, ?_, ?_, ?_⟩
  · exact (map_fst_filter_sublist _ _).nodup h7
  · intro f hf
    exact h8 f (List.mem_of_mem_filter hf)
  · exact List.Pairwise.sublist (List.filter_sublist _) h9



theorem remove_file_specR (s : InnerState) (p : String) (hw : WfReach s) :
    WfReach (s.remove_file p) ∧
      alookup p (s.remove_file p).file_docs = none ∧
      (∀ i ∈ (alookup p s.file_docs).getD [], freeAt (s.remove_file p) i) ∧
      (∀ j, j ∉ (alookup p s.file_docs).getD [] → occupiedAt s j → occupiedAt (s.remove_file p) j) ∧
      (∀ j, freeAt s j → freeAt (s.remove_file p) j) ∧
      (∀ q, q ≠ p → alookup q (s.remove_file p).file_docs = alookup q s.file_docs) := by
  cases halk : alookup p s.file_docs with
  | none =>
    have hre : s.remove_file p = s := by
      unfold InnerState.remove_file
      rw [halk]
    rw [hre]
    exact ⟨hw, by rw [halk], by simp [halk], fun j _ hl => hl, fun j hf => hf,
      fun q _ => rfl⟩
  | some ids =>
    have hmem : (p, ids) ∈ s.file_docs := alookup_mem p s.file_docs ids halk
    have hfile := hw.2.2.2.2.2.2.2.1 (p, ids) hmem
    have hw1 := WfReach_filter_file s p hw
    have hnof1 : ∀ i ∈ ids, ∀ f ∈ s.file_docs.filter (fun e => e.1 ≠ p), i ∉ f.2 := by
      intro i hi f hf
      have hfm := List.mem_filter.mp hf
      have hne : (p, ids) ≠ f := by
        intro hh
        have := hfm.2
        rw [← hh] at this
        simp at this
      exact pairwise_disjoint_get hw.2.2.2.2.2.2.2.2 hmem hfm.1 hne i hi
    have hfold := removeFold_specR ids
      { s with file_docs := s.file_docs.filter (fun e => e.1 ≠ p) } hw1
      hfile.1 (fun i hi => hfile.2 i hi) hnof1
    have hre : s.remove_file p =
        { (ids.foldl removeDocStep
            { s with file_docs := s.file_docs.filter (fun e => e.1 ≠ p) }) with
          stats := { (ids.foldl removeDocStep
              { s with file_docs := s.file_docs.filter (fun e => e.1 ≠ p) }).stats with
            total_files := (ids.foldl removeDocStep
              { s with file_docs := s.file_docs.filter (fun e => e.1 ≠ p) }).stats.total_files - 1 } } := by
      unfold InnerState.remove_file
      rw [halk]
    rw [hre]
    refine ⟨hfold.1, ?_, ?_, ?_, ?_, ?_⟩
    · show alookup p (ids.foldl removeDocStep _).file_docs = none
      rw [hfold.2.1]
      exact alookup_filter_self p s.file_docs
    · intro i hi
      exact hfold.2.2.2.1 i hi
    · intro j hj hl
      exact hfold.2.2.2.2 j hj hl
    · intro j hf
      exact hfold.2.2.1 j hf
    · intro q hq
      show alookup q (ids.foldl removeDocStep _).file_docs = _
      rw [hfold.2.1]
      exact alookup_filter_ne p q hq s.file_docs



theorem add_file_specR (s : InnerState) (p : String) (syms : List CodeSymbol)
    (lang : LanguageTag) (hw : WfReach s) :
    WfReach (s.add_file p syms lang) ∧
      (∀ d ∈ (alookup p s.file_docs).getD [],
        d ∉ (alookup p (s.add_file p syms lang).file_docs).getD [] →
        freeAt (s.add_file p syms lang) d) ∧
      (∀ d ∈ (alookup p (s.add_file p syms lang).file_docs).getD [],
        ∃ sym ∈ syms, (s.add_file p syms lang).symbols.getD d none = some sym) := by
  obtain ⟨hw1, halkp1, hfree1, hocc1, hfreeP1, halkq1⟩ := remove_file_specR s p hw
  by_cases hsy : syms.isEmpty
  · have hadd : s.add_file p syms lang = s.remove_file p := by
      unfold InnerState.add_file
      rw [if_pos hsy]
    rw [hadd]
    refine ⟨hw1, fun d hd _ => hfree1 d hd, ?_⟩
    intro d hd
    rw [halkp1] at hd
    simp at hd
  · have hw2 : WfReach { s.remove_file p with stats := { (s.remove_file p).stats with
        languages := bumpLang (s.remove_file p).stats.languages (language_name lang) syms.length,
        total_symbols := (s.remove_file p).stats.total_symbols + syms.length,
        total_files := (s.remove_file p).stats.total_files + 1 } } := hw1
    have hfold := addFold_specR syms syms
      { s.remove_file p with stats := { (s.remove_file p).stats with
          languages := bumpLang (s.remove_file p).stats.languages (language_name lang) syms.length,
          total_symbols := (s.remove_file p).stats.total_symbols + syms.length,
          total_files := (s.remove_file p).stats.total_files + 1 } }
      [] (fun _ hs => hs) hw2 List.nodup_nil
      (fun i hi => absurd hi (List.not_mem_nil i))
      (fun i hi => absurd hi (List.not_mem_nil i))
    set s2 : InnerState := { s.remove_file p with stats := { (s.remove_file p).stats with
        languages := bumpLang (s.remove_file p).stats.languages (language_name lang) syms.length,
        total_symbols := (s.remove_file p).stats.total_symbols + syms.length,
        total_files := (s.remove_file p).stats.total_files + 1 } } with hs2
    set r := syms.foldl
      (fun (acc : InnerState × List Nat) sym =>
        ((addDocStep acc.1 sym).1, acc.2 ++ [(addDocStep acc.1 sym).2]))
      (s2, []) with hr
    have hadd : s.add_file p syms lang =
        { r.1 with file_docs := (p, r.2) :: r.1.file_docs.filter (fun e => e.1 ≠ p) } := by
      unfold InnerState.add_file
      rw [if_neg hsy]
    rw [hadd]
    have halknew : alookup p ((p, r.2) :: r.1.file_docs.filter (fun e => e.1 ≠ p)) =
        some r.2 := by
      rw [alookup, if_pos rfl]
    obtain ⟨hfw, hffd, hfnd, hfocc, hfnof, _, _, hffree, hfslots⟩ := hfold
    refine ⟨?_, ?_, ?_⟩
    · refine ⟨hfw.1, hfw.2.1, hfw.2.2.1, hfw.2.2.2.1, hfw.2.2.2.2.1, hfw.2.2.2.2.2.1,
        ?_, ?_, ?_⟩
      · show (p :: (r.1.file_docs.filter (fun e => e.1 ≠ p)).map Prod.fst).Nodup
        refine List.nodup_cons.mpr ⟨not_mem_map_fst_filter p _, ?_⟩
        exact (map_fst_filter_sublist _ _).nodup hfw.2.2.2.2.2.2.1
      · intro f hf
        rcases List.mem_cons.mp hf with rfl | hh
        · exact ⟨hfnd, fun i hi => hfocc i hi⟩
        · exact hfw.2.2.2.2.2.2.2.1 f (List.mem_of_mem_filter hh)
      · refine List.Pairwise.cons ?_
          (List.Pairwise.sublist (List.filter_sublist _) hfw.2.2.2.2.2.2.2.2)
        intro f hf i hi
        refine hfnof i hi f ?_
        rw [← hffd]
        exact List.mem_of_mem_filter hf
    · intro d hd hdn
      rw [halknew] at hdn
      refine hffree d (hfree1 d hd) ?_
      simpa using hdn
    · intro d hd
      rw [halknew] at hd
      obtain ⟨sym, hsym, hslot⟩ := hfslots d (by simpa using hd) (List.not_mem_nil d)
      exact ⟨sym, hsym, hslot⟩


theorem walkStep_WfReach (env : Env) (st : InnerState) (entry : Option String)
    (hw : WfReach st) : WfReach (walkStep env st entry) := by
  cases entry with
  | none => exact hw
  | some path =>
    simp only [walkStep]
    by_cases hif : env.isFile path
    · rw [if_pos hif]
      cases env.stat path with
      | some len =>
        simp only []
        by_cases hlen : MAX_FILE_BYTES < len
        · rw [if_pos hlen]
          exact hw
        · rw [if_neg hlen]
          cases detect_language path with
          | none => exact hw
          | some lang =>
            simp only []
            by_cases hr : env.readable path
            · rw [if_pos hr]
              exact (add_file_specR st path (env.extract path) lang hw).1
            · rw [if_neg hr]
              exact hw
      | none =>
        simp only []
        cases detect_language path with
        | none => exact hw
        | some lang =>
          simp only []
          by_cases hr : env.readable path
          · rw [if_pos hr]
            exact (add_file_specR st path (env.extract path) lang hw).1
          · rw [if_neg hr]
            exact hw
    · rw [if_neg hif]
      exact hw

theorem foldl_walk_WfReach (env : Env) :
    ∀ (entries : List (Option String)) (st : InnerState), WfReach st →
      WfReach (entries.foldl (walkStep env) st)
  | [], _, hw => hw
  | e :: rest, st, hw => by
    simp only [List.foldl_cons]
    exact foldl_walk_WfReach env rest _ (walkStep_WfReach env st e hw)

theorem reindexInner_WfReach (env : Env) : WfReach (reindexInner env) :=
  foldl_walk_WfReach env env.walk InnerState.new WfReach_new

theorem applyOp_WfReach (s : InnerState) (op : ServiceOp) (hw : WfReach s) :
    WfReach (applyOp s op) := by
  cases op with
  | reindex env => exact reindexInner_WfReach env
  | update env p =>
    simp only [applyOp]
    cases detect_language p with
    | none => exact hw
    | some lang =>
      simp only []
      cases env.stat p with
      | none => exact hw
      | some len =>
        simp only []
        by_cases hlen : MAX_FILE_BYTES < len
        · rw [if_pos hlen]
          exact hw
        · rw [if_neg hlen]
          by_cases hr : env.readable p
          · rw [if_pos hr]
            exact (add_file_specR s p (env.extract p) lang hw).1
          · rw [if_neg hr]
            exact hw
  | removeF p => exact (remove_file_specR s p hw).1
  | query q k => exact hw

theorem applyOps_WfReach_aux :
    ∀ (ops : List ServiceOp) (st : InnerState), WfReach st →
      WfReach (ops.foldl applyOp st)
  | [], _, hw => hw
  | op :: rest, st, hw => by
    simp only [List.foldl_cons]
    exact applyOps_WfReach_aux rest _ (applyOp_WfReach st op hw)

/-- A state the service can reach: the fresh index followed by any
sequence of operations. -/
def Reachable (s : InnerState) : Prop :=
  ∃ ops : List ServiceOp, s = applyOps ops

/-- The reachable-state invariant holds in every reachable state, with no
proviso on extraction output. -/
theorem reachable_WfReach (s : InnerState) (hr : Reachable s) : WfReach s := by
  obtain ⟨ops, rfl⟩ := hr
  exact applyOps_WfReach_aux ops InnerState.new WfReach_new

/-! ### Claim C4: `update_file` replaces rather than merges -/

/-- Any doc id returned by `Bm25Index::search` is scored, i.e. has a
posting under some query term and a positive length. -/
theorem mem_search_specScored (idx : Bm25Index) (q : List String) (k d : Nat)
    (h : d ∈ (idx.search q k).map Prod.fst) : specScored idx q d := by
  unfold Bm25Index.search Bm25Index.searchWith at h
  by_cases hg : idx.num_docs = 0 ∨ q = []
  · rw [if_pos hg] at h
    simp at h
  · rw [if_neg hg] at h
    simp only [id_eq] at h
    obtain ⟨pr, hpr, hfst⟩ := List.mem_map.mp h
    have h1 : pr ∈ List.insertionSort scoreGe (collectScores idx q) :=
      List.mem_of_mem_take hpr
    have h2 : pr ∈ collectScores idx q :=
      (List.perm_insertionSort scoreGe (collectScores idx q)).mem_iff.mp h1
    have h3 : d ∈ scoreKeys (collectScores idx q) := by
      rw [← hfst]
      exact List.mem_map_of_mem Prod.fst h2
    exact (mem_scoreKeys_collectScores idx q d).mp h3

/-- A scored doc id occurs in some posting list of the state. -/
theorem specScored_inPostings (s : InnerState) (q : List String) (d : Nat)
    (h : specScored s.bm25 q d) : inPostings s d := by
  obtain ⟨t, _, pl, halk, ⟨c, hc⟩, _⟩ := h
  exact ⟨(t, pl), alookup_mem t s.bm25.inverted_index pl halk, (d, c), hc, rfl⟩

instance (s : InnerState) : Decidable (Wf s) := by
  unfold Wf
  exact inferInstance

/-- **C4.** `update_file` replaces rather than merges, over every
reachable service state (no well-formedness or tokenization proviso): on
any successful update of file `p`, every previous doc id of `p` that is
not reused for the new content ends up free — slot emptied, scrubbed from
every posting list, back on the free list — so no BM25 search over the
updated state can ever return it, and every doc id now listed for `p`
holds one of the freshly extracted symbols.  (The no-op successes —
unsupported extension, oversized file — keep `p`'s doc list unchanged, so
the hypotheses single out genuine re-indexing.) -/
theorem update_file_replaces (env : Env) (s s' : InnerState) (p : String)
    (hr : Reachable s)
    (hup : update_file env false s p = Except.ok s')
    (d : Nat) (hd : d ∈ (alookup p s.file_docs).getD [])
    (hnew : d ∉ (alookup p s'.file_docs).getD []) :
    freeAt s' d ∧
      s'.symbols.getD d none = none ∧
      (∀ q k, d ∉ (s'.bm25.search q k).map Prod.fst) ∧
      (∀ i ∈ (alookup p s'.file_docs).getD [],
        ∃ sym ∈ env.extract p, s'.symbols.getD i none = some sym) := by
  have hw : WfReach s := reachable_WfReach s hr
  unfold update_file at hup
  split at hup
  · injection hup with hup
    subst hup
    exact absurd hd hnew
  · rename_i x0 lang hdl
    split at hup
    · exact Except.noConfusion hup
    · split at hup
      · injection hup with hup
        subst hup
        exact absurd hd hnew
      · split at hup
        · split at hup
          · rename_i hfalse
            exact absurd hfalse (by simp)
          · injection hup with hup
            obtain ⟨hwf, hfree, hslots⟩ := add_file_specR s p (env.extract p) lang hw
            rw [← hup] at hnew ⊢
            have hfd : freeAt (s.add_file p (env.extract p) lang) d := hfree d hd hnew
            refine ⟨hfd, hfd.2.1, ?_, hslots⟩
            intro q k hmem
            exact hfd.2.2.1
              (specScored_inPostings _ q d (mem_search_specScored _ q k d hmem))
        · exact Except.noConfusion hup

/-- The concrete symbols and environment for the C4 witness: a file first
indexed with two functions, then updated to a single new one. -/
def symLogin : CodeSymbol :=
  { file_path := "c.rs", line_start := 1, line_end := 2, name := "login",
    kind := SymbolKind.Function, content := "fn login()", language := "rust" }

def symLogout : CodeSymbol :=
  { file_path := "c.rs", line_start := 3, line_end := 4, name := "logout",
    kind := SymbolKind.Function, content := "fn logout()", language := "rust" }

def symRefresh : CodeSymbol :=
  { file_path := "c.rs", line_start := 1, line_end := 2, name := "refresh",
    kind := SymbolKind.Function, content := "fn refresh()", language := "rust" }

def envNew : Env :=
  { walk := [], isFile := fun _ => true, stat := fun _ => some 10,
    readable := fun _ => true, extract := fun _ => [symRefresh], elapsed := 0 }

/-- The environment whose update produced `sOld` (two symbols in `c.rs`),
witnessing that `sOld` is a reachable service state. -/
def envOld : Env :=
  { walk := [], isFile := fun _ => true, stat := fun _ => some 10,
    readable := fun _ => true, extract := fun _ => [symLogin, symLogout], elapsed := 0 }

def sOld : InnerState :=
  InnerState.new.add_file "c.rs" [symLogin, symLogout] LanguageTag.Rust

theorem update_file_replaces_witness :
    freeAt (sOld.add_file "c.rs" (envNew.extract "c.rs") LanguageTag.Rust) 0 ∧
      (sOld.add_file "c.rs" (envNew.extract "c.rs") LanguageTag.Rust).symbols.getD 0 none
        = none ∧
      0 ∉ ((sOld.add_file "c.rs" (envNew.extract "c.rs") LanguageTag.Rust).bm25.search
        (tokenize "login") 5).map Prod.fst :=
  have h := update_file_replaces envNew sOld
    (sOld.add_file "c.rs" (envNew.extract "c.rs") LanguageTag.Rust) "c.rs"
    ⟨[ServiceOp.update envOld "c.rs"], rfl⟩
    rfl 0 (by decide) (by decide)
  ⟨h.1, h.2.1, h.2.2.1 (tokenize "login") 5⟩

/-! ### Claim C10: `remove_file` is frame-local -/

/-- The postings of the index restricted to one doc id: each term keeps
only its entries for that doc. -/
def restrictPost (d : Nat) (inv : List (String × Postings)) : List (String × Postings) :=
  inv.map (fun e => (e.1, e.2.filter (fun pr => pr.1 = d)))

theorem filter_scrub_restrict (d id : Nat) (hne : d ≠ id) :
    ∀ l : Postings,
      (l.filter (fun pr => pr.1 ≠ id)).filter (fun pr => pr.1 = d)
        = l.filter (fun pr => pr.1 = d)
  | [] => rfl
  | a :: t => by
    have ih := filter_scrub_restrict d id hne t
    by_cases h2 : a.1 = id
    · have h1 : ¬ (a.1 = d) := fun h => hne (h ▸ h2)
      rw [List.filter_cons_of_neg (by simp [h2])]
      rw [List.filter_cons_of_neg (by simp [h1])]
      exact ih
    · rw [List.filter_cons_of_pos (by simp [h2])]
      by_cases h1 : a.1 = d
      · rw [List.filter_cons_of_pos (by simp [h1]), List.filter_cons_of_pos (by simp [h1])]
        rw [ih]
      · rw [List.filter_cons_of_neg (by simp [h1]), List.filter_cons_of_neg (by simp [h1])]
        exact ih

theorem restrict_scrub (d id : Nat) (hne : d ≠ id) :
    ∀ inv : List (String × Postings),
      restrictPost d (inv.map (fun e => (e.1, e.2.filter (fun p => p.1 ≠ id))))
        = restrictPost d inv
  | [] => rfl
  | e :: t => by
    have ih := restrict_scrub d id hne t
    simp only [restrictPost, List.map_cons] at ih ⊢
    rw [filter_scrub_restrict d id hne e.2, ih]

/-- `remove_document` touches no other doc's length and no other doc's
postings. -/
theorem remove_document_frame (idx : Bm25Index) (id d : Nat) (hne : d ≠ id) :
    (idx.remove_document id).doc_lengths.getD d 0 = idx.doc_lengths.getD d 0 ∧
      restrictPost d (idx.remove_document id).inverted_index
        = restrictPost d idx.inverted_index := by
  unfold Bm25Index.remove_document
  split
  · exact ⟨rfl, rfl⟩
  · refine ⟨?_, ?_⟩
    · show (idx.doc_lengths.set id 0).getD d 0 = idx.doc_lengths.getD d 0
      exact getD_set_of_ne 0 0 idx.doc_lengths id d (fun h => hne h.symm)
    · show restrictPost d
          (idx.inverted_index.map (fun e => (e.1, e.2.filter (fun p => p.1 ≠ id))))
          = restrictPost d idx.inverted_index
      exact restrict_scrub d id hne idx.inverted_index

/-- One teardown step only touches the removed doc's slot, length and
postings; the file map is untouched. -/
theorem removeDocStep_frame (st : InnerState) (id d : Nat) (hne : d ≠ id) :
    lenAt (removeDocStep st id) d = lenAt st d ∧
      (removeDocStep st id).symbols.getD d none = st.symbols.getD d none ∧
      restrictPost d (removeDocStep st id).bm25.inverted_index
        = restrictPost d st.bm25.inverted_index ∧
      (removeDocStep st id).file_docs = st.file_docs := by
  have hbm := remove_document_frame st.bm25 id d hne
  unfold removeDocStep
  simp only []
  split
  · split
    · refine ⟨hbm.1, ?_, hbm.2, rfl⟩
      exact getD_set_of_ne none none st.symbols id d (fun h => hne h.symm)
    · exact ⟨hbm.1, rfl, hbm.2, rfl⟩
  · exact ⟨hbm.1, rfl, hbm.2, rfl⟩

theorem removeFold_frame (d : Nat) :
    ∀ (ids : List Nat) (st : InnerState), d ∉ ids →
      lenAt (ids.foldl removeDocStep st) d = lenAt st d ∧
        (ids.foldl removeDocStep st).symbols.getD d none = st.symbols.getD d none ∧
        restrictPost d (ids.foldl removeDocStep st).bm25.inverted_index
          = restrictPost d st.bm25.inverted_index ∧
        (ids.foldl removeDocStep st).file_docs = st.file_docs
  | [], _, _ => ⟨rfl, rfl, rfl, rfl⟩
  | i :: t, st, hd => by
    have hne : d ≠ i := fun h => hd (h ▸ List.mem_cons_self i t)
    have h1 := removeDocStep_frame st i d hne
    have ih := removeFold_frame d t (removeDocStep st i)
      (fun h => hd (List.mem_cons_of_mem i h))
    simp only [List.foldl_cons]
    exact ⟨ih.1.trans h1.1, ih.2.1.trans h1.2.1, ih.2.2.1.trans h1.2.2.1,
      ih.2.2.2.trans h1.2.2.2⟩

/-- **C10.** `Inner::remove_file` is frame-local: for every state (no
well-formedness needed) and file `p`, every doc id outside `p`'s doc-id
list keeps its document length, its stored symbol slot, and its entries in
every term's posting list (the posting table restricted to that id is
unchanged, term by term), and every other file's entry in the file-to-docs
map is intact. -/
theorem remove_file_frame (s : InnerState) (p : String) (d : Nat)
    (hd : d ∉ (alookup p s.file_docs).getD []) :
    lenAt (s.remove_file p) d = lenAt s d ∧
      (s.remove_file p).symbols.getD d none = s.symbols.getD d none ∧
      restrictPost d (s.remove_file p).bm25.inverted_index
        = restrictPost d s.bm25.inverted_index ∧
      (∀ q, q ≠ p → alookup q (s.remove_file p).file_docs = alookup q s.file_docs) := by
  cases halk : alookup p s.file_docs with
  | none =>
    have hre : s.remove_file p = s := by
      unfold InnerState.remove_file
      rw [halk]
    rw [hre]
    exact ⟨rfl, rfl, rfl, fun q _ => rfl⟩
  | some ids =>
    rw [halk] at hd
    have hfold := removeFold_frame d ids
      { s with file_docs := s.file_docs.filter (fun e => e.1 ≠ p) } hd
    have hre : s.remove_file p =
        { (ids.foldl removeDocStep
            { s with file_docs := s.file_docs.filter (fun e => e.1 ≠ p) }) with
          stats := { (ids.foldl removeDocStep
              { s with file_docs := s.file_docs.filter (fun e => e.1 ≠ p) }).stats with
            total_files := (ids.foldl removeDocStep
              { s with file_docs := s.file_docs.filter (fun e => e.1 ≠ p) }).stats.total_files - 1 } } := by
      unfold InnerState.remove_file
      rw [halk]
    rw [hre]
    refine ⟨hfold.1, hfold.2.1, hfold.2.2.1, ?_⟩
    intro q hq
    show alookup q (ids.foldl removeDocStep
      { s with file_docs := s.file_docs.filter (fun e => e.1 ≠ p) }).file_docs
      = alookup q s.file_docs
    rw [hfold.2.2.2]
    exact alookup_filter_ne p q hq s.file_docs

theorem remove_file_frame_witness :
    lenAt (sOld.remove_file "c.rs") 5 = lenAt sOld 5 ∧
      (sOld.remove_file "c.rs").symbols.getD 5 none = sOld.symbols.getD 5 none ∧
      restrictPost 5 (sOld.remove_file "c.rs").bm25.inverted_index
        = restrictPost 5 sOld.bm25.inverted_index ∧
      alookup "e.rs" (sOld.remove_file "c.rs").file_docs = alookup "e.rs" sOld.file_docs :=
  have h := remove_file_frame sOld "c.rs" 5 (by decide)
  ⟨h.1, h.2.1, h.2.2.1, h.2.2.2 "e.rs" (by decide)⟩
